import Mathlib

/-!
SingleLinkedList.h : a shallow embedding

The container of `src/SingleLinkedList.h` is a chain of heap nodes hanging off a
sentinel node `head_` that is stored inside the container object, together with a
`size_t` counter `size_`.  Cursors (`BasicIterator`) are raw `Node *`.

The embedding keeps that shape:

* the free store is a list of cells, a cell's index being its address; `new`
  takes the next unused address, `delete` empties the cell;
* a `Node *` is `NodePtr`: `nullptr`, the address of the sentinel of the list the
  member function runs on, or a heap address;
* every member function is a function on `(heap, list)`; undefined behaviour and
  failed `assert`s are results `Except.error`;
* `size_t` arithmetic wraps modulo `2 ^ 64`.
-/

namespace SLL

/-- Ways an operation can go wrong. `outOfFuel` is not a behaviour of the program:
it is returned by the loops of the model when their step budget is used up. -/
inductive Fault where
  | assertion
  | nullDeref
  | invalidPointer
  | outOfFuel
  deriving DecidableEq, Repr

/-- A `Node *`: `nullptr`, `&head_` of the list operated on, or a heap address. -/
inductive NodePtr where
  | null
  | sentinel
  | heap (addr : Nat)
  deriving DecidableEq, Repr

/-- `struct Node { Type value; Node *next_node; }` (lines 12-21). -/
structure Node (α : Type) where
  value : α
  next_node : NodePtr
  deriving DecidableEq, Repr

/-- The free store: cell `a` is `some nd` while the node at address `a` is live and
`none` once it has been deleted. -/
abbrev Heap (α : Type) := List (Option (Node α))

/-- The data members of the container (lines 250-251): `Node head_; size_t size_`. -/
structure SingleLinkedList (α : Type) where
  head_ : Node α
  size_ : Nat
  deriving DecidableEq, Repr

/-- Number of values of `size_t` (an LP64 platform): counters wrap modulo this. -/
def SIZE_MOD : Nat := 2 ^ 64

/-- Pre-increment `++n` of a `size_t`: `n + 1` modulo `2 ^ 64`. -/
def incSize (n : Nat) : Nat := (n + 1) % SIZE_MOD

/-- Pre-decrement `--n` of a `size_t`: `n - 1` modulo `2 ^ 64`, that is `n + (2 ^ 64 - 1)`
modulo `2 ^ 64` (so `0` wraps to `2 ^ 64 - 1`). -/
def decSize (n : Nat) : Nat := (SIZE_MOD - 1 + n) % SIZE_MOD

variable {α : Type}

/-- `SingleLinkedList()` (lines 106-108): `head_` is `Node()`, `size_` is `0`. -/
def mkEmpty [Inhabited α] : SingleLinkedList α :=
  { head_ := { value := default, next_node := NodePtr.null }, size_ := 0 }

/-- Reading `*p` for a `Node *p`. -/
def load (h : Heap α) (l : SingleLinkedList α) : NodePtr → Except Fault (Node α)
  | NodePtr.null => Except.error Fault.nullDeref
  | NodePtr.sentinel => Except.ok l.head_
  | NodePtr.heap a =>
    match h[a]? with
    | some (some nd) => Except.ok nd
    | _ => Except.error Fault.invalidPointer

/-- The assignment `p->next_node = n`. -/
def storeNext (h : Heap α) (l : SingleLinkedList α) (p n : NodePtr) :
    Except Fault (Heap α × SingleLinkedList α) :=
  match p with
  | NodePtr.null => Except.error Fault.nullDeref
  | NodePtr.sentinel => Except.ok (h, { l with head_ := { l.head_ with next_node := n } })
  | NodePtr.heap a =>
    match h[a]? with
    | some (some nd) => Except.ok (h.set a (some { nd with next_node := n }), l)
    | _ => Except.error Fault.invalidPointer

/-- The expression `new Node(val, next)`: the node goes to the next unused address. -/
def allocNode (h : Heap α) (val : α) (next : NodePtr) : Heap α × NodePtr :=
  (h ++ [some { value := val, next_node := next }], NodePtr.heap h.length)

/-- The statement `delete p`. Deleting `nullptr` does nothing; deleting anything but a
live heap node is undefined. -/
def deleteNode (h : Heap α) : NodePtr → Except Fault (Heap α)
  | NodePtr.null => Except.ok h
  | NodePtr.sentinel => Except.error Fault.invalidPointer
  | NodePtr.heap a =>
    match h[a]? with
    | some (some _) => Except.ok (h.set a none)
    | _ => Except.error Fault.invalidPointer

/-- `begin()` (lines 126-129). -/
def begin_ (l : SingleLinkedList α) : NodePtr := l.head_.next_node

/-- `end()` (lines 131-134). -/
def end_ : NodePtr := NodePtr.null

/-- `before_begin()` / `cbefore_begin()` (lines 156-169). -/
def before_begin : NodePtr := NodePtr.sentinel

/-- `GetSize()` (lines 209-212). -/
def GetSize (l : SingleLinkedList α) : Nat := l.size_

/-- `IsEmpty()` (lines 214-217). -/
def IsEmpty (l : SingleLinkedList α) : Bool := decide (l.head_.next_node = NodePtr.null)

/-- `BasicIterator::operator*` (lines 85-88): `node_->value`. -/
def deref (h : Heap α) (l : SingleLinkedList α) (it : NodePtr) : Except Fault α :=
  match load h l it with
  | Except.ok nd => Except.ok nd.value
  | Except.error e => Except.error e

/-- `BasicIterator::operator++` (lines 68-76). -/
def incr (h : Heap α) (l : SingleLinkedList α) (it : NodePtr) : Except Fault NodePtr :=
  if it = NodePtr.null then Except.error Fault.assertion
  else
    match load h l it with
    | Except.ok nd => Except.ok nd.next_node
    | Except.error e => Except.error e

/-- `PushFront` (lines 219-223). -/
def PushFront (h : Heap α) (l : SingleLinkedList α) (value : α) :
    Heap α × SingleLinkedList α :=
  let r := allocNode h value l.head_.next_node
  (r.1, { head_ := { l.head_ with next_node := r.2 }, size_ := incSize l.size_ })

/-- `InsertAfter` (lines 171-185). -/
def InsertAfter (h : Heap α) (l : SingleLinkedList α) (pos : NodePtr) (value : α) :
    Except Fault (Heap α × SingleLinkedList α × NodePtr) :=
  if pos = end_ then Except.error Fault.assertion
  else if IsEmpty l then
    let r := PushFront h l value
    match load r.1 r.2 pos with
    | Except.error e => Except.error e
    | Except.ok nd => Except.ok (r.1, r.2, nd.next_node)
  else
    match load h l pos with
    | Except.error e => Except.error e
    | Except.ok nd =>
      let r := allocNode h value nd.next_node
      match storeNext r.1 l pos r.2 with
      | Except.error e => Except.error e
      | Except.ok (h2, l2) =>
        let l3 : SingleLinkedList α := { l2 with size_ := incSize l2.size_ }
        match load h2 l3 pos with
        | Except.error e => Except.error e
        | Except.ok nd3 => Except.ok (h2, l3, nd3.next_node)

/-- `PopFront` (lines 187-194). -/
def PopFront (h : Heap α) (l : SingleLinkedList α) :
    Except Fault (Heap α × SingleLinkedList α) :=
  if IsEmpty l then Except.error Fault.assertion
  else
    let temp := l.head_.next_node
    match load h l l.head_.next_node with
    | Except.error e => Except.error e
    | Except.ok nd =>
      let l1 : SingleLinkedList α := { l with head_ := { l.head_ with next_node := nd.next_node } }
      match deleteNode h temp with
      | Except.error e => Except.error e
      | Except.ok h1 => Except.ok (h1, { l1 with size_ := decSize l1.size_ })

/-- `EraseAfter` (lines 196-207). -/
def EraseAfter (h : Heap α) (l : SingleLinkedList α) (pos : NodePtr) :
    Except Fault (Heap α × SingleLinkedList α × NodePtr) :=
  if pos = end_ then Except.error Fault.assertion
  else if !IsEmpty l then
    match load h l pos with
    | Except.error e => Except.error e
    | Except.ok nd =>
      let to_Delete := nd.next_node
      match load h l to_Delete with
      | Except.error e => Except.error e
      | Except.ok dn =>
        match storeNext h l pos dn.next_node with
        | Except.error e => Except.error e
        | Except.ok (h1, l1) =>
          match deleteNode h1 to_Delete with
          | Except.error e => Except.error e
          | Except.ok h2 =>
            let l2 : SingleLinkedList α := { l1 with size_ := decSize l1.size_ }
            match load h2 l2 pos with
            | Except.error e => Except.error e
            | Except.ok nd2 => Except.ok (h2, l2, nd2.next_node)
  else
    match load h l pos with
    | Except.error e => Except.error e
    | Except.ok nd => Except.ok (h, l, nd.next_node)

/-- The loop `for (auto it = begin(); it != end(); ++it) out.push_back(*it);` run by a
client that iterates over the list, started at `it` with a budget of `fuel` tests. -/
def iterate (h : Heap α) (l : SingleLinkedList α) : Nat → NodePtr → Except Fault (List α)
  | 0, _ => Except.error Fault.outOfFuel
  | fuel + 1, it =>
    if it = end_ then Except.ok []
    else
      match deref h l it with
      | Except.error e => Except.error e
      | Except.ok v =>
        match incr h l it with
        | Except.error e => Except.error e
        | Except.ok it1 =>
          match iterate h l fuel it1 with
          | Except.error e => Except.error e
          | Except.ok vs => Except.ok (v :: vs)

/-- The loop of `ListInitialization` (lines 257-260) over the elements of an
`initializer_list`, `pos` being the cursor carried from one turn to the next. -/
def initLoop (h : Heap α) (l : SingleLinkedList α) (pos : NodePtr) :
    List α → Except Fault (Heap α × SingleLinkedList α)
  | [] => Except.ok (h, l)
  | element :: rest =>
    match InsertAfter h l pos element with
    | Except.error e => Except.error e
    | Except.ok (h1, l1, pos1) => initLoop h1 l1 pos1 rest

/-- `ListInitialization` (lines 253-261) instantiated at `std::initializer_list`. -/
def ListInitialization (h : Heap α) (l : SingleLinkedList α) (values : List α) :
    Except Fault (Heap α × SingleLinkedList α) :=
  initLoop h l before_begin values

/-- `SingleLinkedList(const std::initializer_list<Type> &)` (lines 110-113). -/
def fromInitializerList [Inhabited α] (h : Heap α) (values : List α) :
    Except Fault (Heap α × SingleLinkedList α) :=
  ListInitialization h mkEmpty values

/-- The loop of `ListInitialization` (lines 257-260) over another list: `it` walks
`other` from `begin()` to `end()`, `pos` is the cursor into the list being filled. -/
def copyLoop (other : SingleLinkedList α) :
    Nat → Heap α → SingleLinkedList α → NodePtr → NodePtr →
      Except Fault (Heap α × SingleLinkedList α)
  | 0, _, _, _, _ => Except.error Fault.outOfFuel
  | fuel + 1, h, l, it, pos =>
    if it = end_ then Except.ok (h, l)
    else
      match deref h other it with
      | Except.error e => Except.error e
      | Except.ok element =>
        match InsertAfter h l pos element with
        | Except.error e => Except.error e
        | Except.ok (h1, l1, pos1) =>
          match incr h1 other it with
          | Except.error e => Except.error e
          | Except.ok it1 => copyLoop other fuel h1 l1 it1 pos1

/-- `ListInitialization` (lines 253-261) instantiated at `SingleLinkedList`. -/
def ListInitializationFrom (fuel : Nat) (h : Heap α) (l other : SingleLinkedList α) :
    Except Fault (Heap α × SingleLinkedList α) :=
  copyLoop other fuel h l (begin_ other) before_begin

/-- `SingleLinkedList(const SingleLinkedList &)` (lines 115-119): the members are
default-initialised, the assertion is checked, then `other` is copied in. -/
def copyConstruct [Inhabited α] (fuel : Nat) (h : Heap α) (other : SingleLinkedList α) :
    Except Fault (Heap α × SingleLinkedList α) :=
  let this : SingleLinkedList α := mkEmpty
  if this.size_ = 0 ∧ this.head_.next_node = NodePtr.null then
    ListInitializationFrom fuel h this other
  else Except.error Fault.assertion

/-- The three-iterator `std::equal(first1, last1, first2)` with `last1 = end()`:
`for (; first1 != last1; ++first1, ++first2) if (!(*first1 == *first2)) return false;`
then `return true`. -/
def std_equal [BEq α] (h : Heap α) (lhs rhs : SingleLinkedList α) :
    Nat → NodePtr → NodePtr → Except Fault Bool
  | 0, _, _ => Except.error Fault.outOfFuel
  | fuel + 1, first1, first2 =>
    if first1 = end_ then Except.ok true
    else
      match deref h lhs first1 with
      | Except.error e => Except.error e
      | Except.ok a =>
        match deref h rhs first2 with
        | Except.error e => Except.error e
        | Except.ok b =>
          if !(a == b) then Except.ok false
          else
            match incr h lhs first1 with
            | Except.error e => Except.error e
            | Except.ok n1 =>
              match incr h rhs first2 with
              | Except.error e => Except.error e
              | Except.ok n2 => std_equal h lhs rhs fuel n1 n2

/-- `operator==` (lines 270-274). -/
def opEq [BEq α] (fuel : Nat) (h : Heap α) (lhs rhs : SingleLinkedList α) :
    Except Fault Bool :=
  std_equal h lhs rhs fuel (begin_ lhs) (begin_ rhs)

/-- `operator!=` (lines 276-280). -/
def opNe [BEq α] (fuel : Nat) (h : Heap α) (lhs rhs : SingleLinkedList α) :
    Except Fault Bool :=
  match opEq fuel h lhs rhs with
  | Except.error e => Except.error e
  | Except.ok b => Except.ok (!b)

/-- `std::lexicographical_compare(first1, last1, first2, last2)` with both ends `end()`:
`for (; first1 != last1 && first2 != last2; ++first1, ++first2)`
`{ if (*first1 < *first2) return true; if (*first2 < *first1) return false; }`
then `return first1 == last1 && first2 != last2`. The element type's `operator<` is `lt`. -/
def std_lexicographical_compare (lt : α → α → Bool) (h : Heap α)
    (lhs rhs : SingleLinkedList α) : Nat → NodePtr → NodePtr → Except Fault Bool
  | 0, _, _ => Except.error Fault.outOfFuel
  | fuel + 1, first1, first2 =>
    if first1 ≠ end_ ∧ first2 ≠ end_ then
      match deref h lhs first1 with
      | Except.error e => Except.error e
      | Except.ok a =>
        match deref h rhs first2 with
        | Except.error e => Except.error e
        | Except.ok b =>
          if lt a b then Except.ok true
          else if lt b a then Except.ok false
          else
            match incr h lhs first1 with
            | Except.error e => Except.error e
            | Except.ok n1 =>
              match incr h rhs first2 with
              | Except.error e => Except.error e
              | Except.ok n2 => std_lexicographical_compare lt h lhs rhs fuel n1 n2
    else Except.ok (decide (first1 = end_) && decide (first2 ≠ end_))

/-- `operator<` (lines 282-286). -/
def opLt (lt : α → α → Bool) (fuel : Nat) (h : Heap α) (lhs rhs : SingleLinkedList α) :
    Except Fault Bool :=
  std_lexicographical_compare lt h lhs rhs fuel (begin_ lhs) (begin_ rhs)


/-- `operator<=` (lines 288-292): `!operator<(rhs, lhs)`. -/
def opLe (lt : α → α → Bool) (fuel : Nat) (h : Heap α) (lhs rhs : SingleLinkedList α) :
    Except Fault Bool :=
  match opLt lt fuel h rhs lhs with
  | Except.error e => Except.error e
  | Except.ok b => Except.ok (!b)

/-- `operator>` (lines 294-298): `operator<(rhs, lhs)`. -/
def opGt (lt : α → α → Bool) (fuel : Nat) (h : Heap α) (lhs rhs : SingleLinkedList α) :
    Except Fault Bool :=
  opLt lt fuel h rhs lhs

/-- `operator>=` (lines 300-304): `!operator>(rhs, lhs)`. -/
def opGe (lt : α → α → Bool) (fuel : Nat) (h : Heap α) (lhs rhs : SingleLinkedList α) :
    Except Fault Bool :=
  match opGt lt fuel h rhs lhs with
  | Except.error e => Except.error e
  | Except.ok b => Except.ok (!b)

/-- `Clear` (lines 225-231): `while (!IsEmpty()) PopFront();` with a budget of `fuel`
tests of the loop condition. -/
def Clear : Nat → Heap α → SingleLinkedList α → Except Fault (Heap α × SingleLinkedList α)
  | 0, _, _ => Except.error Fault.outOfFuel
  | fuel + 1, h, l =>
    if !IsEmpty l then
      match PopFront h l with
      | Except.error e => Except.error e
      | Except.ok (h1, l1) => Clear fuel h1 l1
    else Except.ok (h, l)

/-- `~SingleLinkedList` (lines 121-124): `Clear()`, after which the object is gone. -/
def destroy (fuel : Nat) (h : Heap α) (l : SingleLinkedList α) : Except Fault (Heap α) :=
  match Clear fuel h l with
  | Except.error e => Except.error e
  | Except.ok (h1, _) => Except.ok h1

/-- The member `swap` (lines 243-247) on two objects: the `next_node` of the two sentinels
and the two counters are exchanged. The pair is `(*this, other)` after the call. -/
def swap (this other : SingleLinkedList α) : SingleLinkedList α × SingleLinkedList α :=
  ({ head_ := { this.head_ with next_node := other.head_.next_node }, size_ := other.size_ },
    { head_ := { other.head_ with next_node := this.head_.next_node }, size_ := this.size_ })

/-- The free function `swap` (lines 264-268): `lhs.swap(rhs)`. -/
def swap_free (lhs rhs : SingleLinkedList α) : SingleLinkedList α × SingleLinkedList α :=
  swap lhs rhs

/-- The argument of `operator=`: the object assigned to itself (`&rhs == this`), or
another object. -/
inductive Rhs (α : Type) where
  | self
  | other (rhs : SingleLinkedList α)

/-- `operator=` (lines 233-241): unless `this == &rhs`, a temporary is copy-constructed
from `rhs`, swapped with `*this`, and destroyed at the end of the block. The result is
the free store and `*this`. -/
def opAssign [Inhabited α] (fuel : Nat) (h : Heap α) (this : SingleLinkedList α) :
    Rhs α → Except Fault (Heap α × SingleLinkedList α)
  | Rhs.self => Except.ok (h, this)
  | Rhs.other rhs =>
    match copyConstruct fuel h rhs with
    | Except.error e => Except.error e
    | Except.ok (h1, tmp) =>
      let r := swap this tmp
      match destroy fuel h1 r.2 with
      | Except.error e => Except.error e
      | Except.ok h2 => Except.ok (h2, r.1)

/-- A call made on the front of a list: `PushFront(v)` or `PopFront()`. -/
inductive FrontCall (α : Type) where
  | push (v : α)
  | pop

/-- A client that makes the given calls, in order, on the list `l`. -/
def runFrontCalls (h : Heap α) (l : SingleLinkedList α) :
    List (FrontCall α) → Except Fault (Heap α × SingleLinkedList α)
  | [] => Except.ok (h, l)
  | FrontCall.push v :: rest =>
    let r := PushFront h l v
    runFrontCalls r.1 r.2 rest
  | FrontCall.pop :: rest =>
    match PopFront h l with
    | Except.error e => Except.error e
    | Except.ok (h1, l1) => runFrontCalls h1 l1 rest

/-- A client's `auto it = before_begin(); for (k times) ++it;`, started at `it`. -/
def advance (h : Heap α) (l : SingleLinkedList α) : Nat → NodePtr → Except Fault NodePtr
  | 0, it => Except.ok it
  | k + 1, it =>
    match incr h l it with
    | Except.error e => Except.error e
    | Except.ok it1 => advance h l k it1

/-- A program state: the free store and the list objects alive, object `i` being
`objs[i]`. -/
structure World (α : Type) where
  heap : Heap α
  objs : List (SingleLinkedList α)

/-- The calls a client program can make. Cursors are the ones a client can obtain:
`before_begin()` advanced `k` times. -/
inductive Call (α : Type) where
  | construct (values : List α)
  | copy (j : Nat)
  | pushFront (i : Nat) (v : α)
  | popFront (i : Nat)
  | insertAfter (i k : Nat) (v : α)
  | eraseAfter (i k : Nat)
  | clear (i : Nat)
  | swap (i j : Nat)
  | assign (i j : Nat)

/-- Running one call: `construct` and `copy` add a new object (built from an initializer
list, or copy-constructed from object `j`), the others are member calls on object `i`.
A call on an object that does not exist is a fault; `a.swap(a)` exchanges every member
with itself and changes nothing. -/
def exec [Inhabited α] (fuel : Nat) (w : World α) : Call α → Except Fault (World α)
  | Call.construct vs =>
    match fromInitializerList w.heap vs with
    | Except.error e => Except.error e
    | Except.ok (h1, l1) => Except.ok { heap := h1, objs := w.objs ++ [l1] }
  | Call.copy j =>
    match w.objs[j]? with
    | none => Except.error Fault.invalidPointer
    | some b =>
      match copyConstruct fuel w.heap b with
      | Except.error e => Except.error e
      | Except.ok (h1, l1) => Except.ok { heap := h1, objs := w.objs ++ [l1] }
  | Call.pushFront i v =>
    match w.objs[i]? with
    | none => Except.error Fault.invalidPointer
    | some l =>
      let r := PushFront w.heap l v
      Except.ok { heap := r.1, objs := w.objs.set i r.2 }
  | Call.popFront i =>
    match w.objs[i]? with
    | none => Except.error Fault.invalidPointer
    | some l =>
      match PopFront w.heap l with
      | Except.error e => Except.error e
      | Except.ok (h1, l1) => Except.ok { heap := h1, objs := w.objs.set i l1 }
  | Call.insertAfter i k v =>
    match w.objs[i]? with
    | none => Except.error Fault.invalidPointer
    | some l =>
      match advance w.heap l k before_begin with
      | Except.error e => Except.error e
      | Except.ok pos =>
        match InsertAfter w.heap l pos v with
        | Except.error e => Except.error e
        | Except.ok (h1, l1, _) => Except.ok { heap := h1, objs := w.objs.set i l1 }
  | Call.eraseAfter i k =>
    match w.objs[i]? with
    | none => Except.error Fault.invalidPointer
    | some l =>
      match advance w.heap l k before_begin with
      | Except.error e => Except.error e
      | Except.ok pos =>
        match EraseAfter w.heap l pos with
        | Except.error e => Except.error e
        | Except.ok (h1, l1, _) => Except.ok { heap := h1, objs := w.objs.set i l1 }
  | Call.clear i =>
    match w.objs[i]? with
    | none => Except.error Fault.invalidPointer
    | some l =>
      match Clear fuel w.heap l with
      | Except.error e => Except.error e
      | Except.ok (h1, l1) => Except.ok { heap := h1, objs := w.objs.set i l1 }
  | Call.swap i j =>
    match w.objs[i]?, w.objs[j]? with
    | some a, some b =>
      if i = j then Except.ok w
      else
        let r := swap a b
        Except.ok { heap := w.heap, objs := (w.objs.set i r.1).set j r.2 }
    | _, _ => Except.error Fault.invalidPointer
  | Call.assign i j =>
    match w.objs[i]?, w.objs[j]? with
    | some a, some b =>
      match opAssign fuel w.heap a (if i = j then Rhs.self else Rhs.other b) with
      | Except.error e => Except.error e
      | Except.ok (h1, a1) => Except.ok { heap := h1, objs := w.objs.set i a1 }
    | _, _ => Except.error Fault.invalidPointer

/-- The counter touched by the call is not at the largest `size_t` value (no list of a
real machine holds `2 ^ 64 - 1` nodes), so `++size_` does not wrap. -/
def Call.hasRoom (w : World α) : Call α → Prop
  | Call.construct vs => vs.length < SIZE_MOD
  | Call.pushFront i _ => ∀ l, w.objs[i]? = some l → l.size_ + 1 < SIZE_MOD
  | Call.insertAfter i _ _ => ∀ l, w.objs[i]? = some l → l.size_ + 1 < SIZE_MOD
  | _ => True

/-- The states a client program can reach: it starts with an empty free store and no
list, and makes calls that return. -/
inductive Reachable [Inhabited α] : World α → Prop where
  | start : Reachable { heap := [], objs := [] }
  | call (fuel : Nat) (w : World α) (c : Call α) (w1 : World α) :
      Reachable w → c.hasRoom w → exec fuel w c = Except.ok w1 → Reachable w1

/-! ## The abstraction: which sequence a chain of nodes spells -/

/-- `Chain h p ns`: starting from pointer `p` and following `next_node` through the heap
`h` one meets exactly the live nodes `ns` (address and value of each, in order) and then
`nullptr`. -/
def Chain (h : Heap α) : NodePtr → List (Nat × α) → Prop
  | p, [] => p = NodePtr.null
  | p, n :: rest =>
    p = NodePtr.heap n.1 ∧
      ∃ nx, h[n.1]? = some (some { value := n.2, next_node := nx }) ∧ Chain h nx rest

/-- The element sequence of a chain. -/
def values (ns : List (Nat × α)) : List α := ns.map Prod.snd

/-- The addresses of the nodes of a chain. -/
def addrs (ns : List (Nat × α)) : List Nat := ns.map Prod.fst

/-- A list object `l` in heap `h` is well formed and holds the nodes `ns`: the chain
hanging off the sentinel is `ns`, and the counter (a `size_t`) is their number. -/
structure Represents (h : Heap α) (l : SingleLinkedList α) (ns : List (Nat × α)) : Prop where
  chain : Chain h l.head_.next_node ns
  size : l.size_ = ns.length
  bound : ns.length < SIZE_MOD

/-- The cursor at position `k` of a list holding `ns`: position `0` is `before_begin()`,
position `i + 1` references the real node of index `i`. -/
def cursorAt (ns : List (Nat × α)) : Nat → NodePtr
  | 0 => NodePtr.sentinel
  | i + 1 =>
    match ns[i]? with
    | some n => NodePtr.heap n.1
    | none => NodePtr.null

/-- The cursor that references the node of index `i`, or `end()` when there is none. -/
def nodeCursor (ns : List (Nat × α)) (i : Nat) : NodePtr :=
  match ns[i]? with
  | some n => NodePtr.heap n.1
  | none => NodePtr.null

/-- Every list object of the state is well formed, and no node belongs to two lists:
`f i` is the chain of nodes of object `i`. -/
def WellFormedWorld (w : World α) : Prop :=
  ∃ f : Nat → List (Nat × α),
    (∀ i l, w.objs[i]? = some l → Represents w.heap l (f i)) ∧
    (∀ i j, i < w.objs.length → j < w.objs.length → i ≠ j →
      ∀ x ∈ addrs (f i), x ∉ addrs (f j))

/-! ## Concrete states used in the examples -/

/-- The free store after `SingleLinkedList<int> a{1, 2, 3};` on an empty store. -/
def heapA : Heap Nat :=
  [some ⟨1, NodePtr.heap 1⟩, some ⟨2, NodePtr.heap 2⟩, some ⟨3, NodePtr.null⟩]

/-- The object `a` of `SingleLinkedList<int> a{1, 2, 3};`. -/
def listA : SingleLinkedList Nat := ⟨⟨0, NodePtr.heap 0⟩, 3⟩

/-- The nodes of `a`: address and value. -/
def nodesA : List (Nat × Nat) := [(0, 1), (1, 2), (2, 3)]

/-- The free store after `a{1, 2, 3}` and then `SingleLinkedList<int> b{1, 2};`. -/
def heapAB : Heap Nat :=
  [some ⟨1, NodePtr.heap 1⟩, some ⟨2, NodePtr.heap 2⟩, some ⟨3, NodePtr.null⟩,
    some ⟨1, NodePtr.heap 4⟩, some ⟨2, NodePtr.null⟩]

/-- The object `b` of `SingleLinkedList<int> b{1, 2};` built after `a`. -/
def listB : SingleLinkedList Nat := ⟨⟨0, NodePtr.heap 3⟩, 2⟩

/-- The nodes of `b`. -/
def nodesB : List (Nat × Nat) := [(3, 1), (4, 2)]

/-- The free store after `SingleLinkedList<int> c{1, 2, 3, 4, 5};` on an empty store. -/
def heapC : Heap Nat :=
  [some ⟨1, NodePtr.heap 1⟩, some ⟨2, NodePtr.heap 2⟩, some ⟨3, NodePtr.heap 3⟩,
    some ⟨4, NodePtr.heap 4⟩, some ⟨5, NodePtr.null⟩]

/-- The object `c` of `SingleLinkedList<int> c{1, 2, 3, 4, 5};`. -/
def listC : SingleLinkedList Nat := ⟨⟨0, NodePtr.heap 0⟩, 5⟩

/-- The nodes of `c`. -/
def nodesC : List (Nat × Nat) := [(0, 1), (1, 2), (2, 3), (3, 4), (4, 5)]

/-- The free store after `SingleLinkedList<int> d{1};` on an empty store. -/
def heapD : Heap Nat := [some ⟨1, NodePtr.null⟩]

/-- The object `d` of `SingleLinkedList<int> d{1};`. -/
def listD : SingleLinkedList Nat := ⟨⟨0, NodePtr.heap 0⟩, 1⟩

/-- The nodes of `d`. -/
def nodesD : List (Nat × Nat) := [(0, 1)]

/-- The free store after building, on an empty store, two lists of pairs:
`ka{{1, 0}, {5, 0}}` and then `kb{{1, 1}, {9, 0}}`. -/
def heapK : Heap (Nat × Nat) :=
  [some ⟨(1, 0), NodePtr.heap 1⟩, some ⟨(5, 0), NodePtr.null⟩,
    some ⟨(1, 1), NodePtr.heap 3⟩, some ⟨(9, 0), NodePtr.null⟩]

/-- The object `ka`. -/
def listKA : SingleLinkedList (Nat × Nat) := ⟨⟨(0, 0), NodePtr.heap 0⟩, 2⟩

/-- The object `kb`. -/
def listKB : SingleLinkedList (Nat × Nat) := ⟨⟨(0, 0), NodePtr.heap 2⟩, 2⟩

/-- The nodes of `ka`. -/
def nodesKA : List (Nat × (Nat × Nat)) := [(0, (1, 0)), (1, (5, 0))]

/-- The nodes of `kb`. -/
def nodesKB : List (Nat × (Nat × Nat)) := [(2, (1, 1)), (3, (9, 0))]

/-- An element `operator<` that compares pairs by their first component only. -/
def keyLt (a b : Nat × Nat) : Bool := decide (a.1 < b.1)

/-- The state after `SingleLinkedList<int> a{1, 2, 3}; SingleLinkedList<int> b{1, 2};`
`a.swap(b); a.PushFront(9);` on an empty store. -/
def worldAB : World Nat :=
  { heap := heapAB ++ [some ⟨9, NodePtr.heap 3⟩],
    objs := [⟨⟨0, NodePtr.heap 5⟩, 3⟩, ⟨⟨0, NodePtr.heap 0⟩, 3⟩] }

end SLL

namespace SLL

variable {α : Type}

/-! ## Lemmas on chains -/

theorem chain_nil (h : Heap α) (p : NodePtr) : Chain h p [] ↔ p = NodePtr.null := by
  simp [Chain]

theorem chain_cons (h : Heap α) (p : NodePtr) (n : Nat × α) (rest : List (Nat × α)) :
    Chain h p (n :: rest) ↔
      p = NodePtr.heap n.1 ∧
        ∃ nx, h[n.1]? = some (some { value := n.2, next_node := nx }) ∧ Chain h nx rest := by
  simp [Chain]

theorem chain_addr_lt {h : Heap α} {p : NodePtr} {ns : List (Nat × α)}
    (hc : Chain h p ns) : ∀ n ∈ ns, n.1 < h.length := by
  induction ns generalizing p with
  | nil => simp
  | cons m rest ih =>
    obtain ⟨-, nx, hcell, hrest⟩ := (chain_cons h p m rest).1 hc
    intro n hn
    rcases List.mem_cons.1 hn with rfl | hn
    · exact (List.getElem?_eq_some.1 hcell).1
    · exact ih hrest n hn

theorem chain_append_heap {h : Heap α} {p : NodePtr} {ns : List (Nat × α)}
    (hc : Chain h p ns) (cells : Heap α) : Chain (h ++ cells) p ns := by
  induction ns generalizing p with
  | nil => simpa [Chain] using hc
  | cons m rest ih =>
    obtain ⟨hp, nx, hcell, hrest⟩ := (chain_cons h p m rest).1 hc
    refine (chain_cons _ p m rest).2 ⟨hp, nx, ?_, ih hrest⟩
    have hlt : m.1 < h.length := (List.getElem?_eq_some.1 hcell).1
    rw [List.getElem?_append_left hlt]
    exact hcell

theorem chain_set_heap {h : Heap α} {p : NodePtr} {ns : List (Nat × α)}
    (hc : Chain h p ns) (a : Nat) (c : Option (Node α)) (ha : a ∉ addrs ns) :
    Chain (h.set a c) p ns := by
  induction ns generalizing p with
  | nil => simpa [Chain] using hc
  | cons m rest ih =>
    obtain ⟨hp, nx, hcell, hrest⟩ := (chain_cons h p m rest).1 hc
    have hne : a ≠ m.1 := by
      intro e
      exact ha (by simp [addrs, e])
    have hnot : a ∉ addrs rest := by
      intro e
      exact ha (by simp only [addrs, List.map_cons, List.mem_cons]; exact Or.inr e)
    refine (chain_cons _ p m rest).2 ⟨hp, nx, ?_, ih hrest hnot⟩
    rw [List.getElem?_set_ne hne]
    exact hcell

theorem chain_unique {h : Heap α} {p : NodePtr} {ns ms : List (Nat × α)}
    (hn : Chain h p ns) (hm : Chain h p ms) : ns = ms := by
  induction ns generalizing p ms with
  | nil =>
    cases ms with
    | nil => rfl
    | cons m rest =>
      have h1 := (chain_nil h p).1 hn
      have h2 := ((chain_cons h p m rest).1 hm).1
      rw [h1] at h2
      exact absurd h2 (by simp)
  | cons n rest ih =>
    cases ms with
    | nil =>
      have h1 := (chain_nil h p).1 hm
      have h2 := ((chain_cons h p n rest).1 hn).1
      rw [h1] at h2
      exact absurd h2 (by simp)
    | cons m rest2 =>
      obtain ⟨hp, nx, hcell, hrest⟩ := (chain_cons h p n rest).1 hn
      obtain ⟨hp2, nx2, hcell2, hrest2⟩ := (chain_cons h p m rest2).1 hm
      rw [hp] at hp2
      have ha : n.1 = m.1 := by injection hp2
      rw [← ha, hcell] at hcell2
      have hnode : ({ value := n.2, next_node := nx } : Node α) =
          { value := m.2, next_node := nx2 } := by
        injection hcell2 with h3
        injection h3
      have hv : n.2 = m.2 := by injection hnode
      have hx : nx = nx2 := by injection hnode
      subst hx
      rw [ih hrest hrest2]
      congr 1
      exact Prod.ext ha hv

theorem chain_suffix {h : Heap α} {p : NodePtr} {pre ns : List (Nat × α)}
    (hc : Chain h p (pre ++ ns)) : ∃ q, Chain h q ns := by
  induction pre generalizing p with
  | nil => exact ⟨p, by simpa using hc⟩
  | cons m rest ih =>
    obtain ⟨-, nx, -, hrest⟩ := (chain_cons h p m (rest ++ ns)).1 hc
    exact ih hrest

theorem chain_head_not_mem {h : Heap α} {p : NodePtr} {n : Nat × α} {rest : List (Nat × α)}
    (hc : Chain h p (n :: rest)) : n.1 ∉ addrs rest := by
  intro hmem
  obtain ⟨m, hm, hfst⟩ := List.mem_map.1 hmem
  obtain ⟨r1, r2, hsplit⟩ := List.append_of_mem hm
  obtain ⟨hp, nx, -, hrest⟩ := (chain_cons h p n rest).1 hc
  rw [hsplit] at hrest
  obtain ⟨q, hq⟩ := chain_suffix hrest
  have hq0 := ((chain_cons h q m r2).1 hq).1
  have hqp : q = p := by rw [hq0, hp, hfst]
  rw [hqp] at hq
  have := chain_unique hc hq
  have hlen := congrArg List.length this
  rw [hsplit] at hlen
  simp at hlen
  omega

theorem chain_nodup {h : Heap α} {p : NodePtr} {ns : List (Nat × α)}
    (hc : Chain h p ns) : (addrs ns).Nodup := by
  induction ns generalizing p with
  | nil => simp [addrs]
  | cons m rest ih =>
    obtain ⟨-, nx, -, hrest⟩ := (chain_cons h p m rest).1 hc
    have := chain_head_not_mem hc
    simp only [addrs, List.map_cons, List.nodup_cons]
    exact ⟨this, ih hrest⟩

theorem chain_cell {h : Heap α} {p : NodePtr} {pre post : List (Nat × α)} {a : Nat} {v : α}
    (hc : Chain h p (pre ++ (a, v) :: post)) :
    ∃ nx, h[a]? = some (some { value := v, next_node := nx }) ∧ Chain h nx post := by
  obtain ⟨q, hq⟩ := chain_suffix hc
  obtain ⟨-, nx, hcell, hrest⟩ := (chain_cons h q (a, v) post).1 hq
  exact ⟨nx, hcell, hrest⟩

theorem chain_start {h : Heap α} {p : NodePtr} {n : Nat × α} {rest : List (Nat × α)}
    (hc : Chain h p (n :: rest)) : p = NodePtr.heap n.1 :=
  ((chain_cons h p n rest).1 hc).1

/-- Splicing a fresh node behind the node at address `a`. -/
theorem chain_insert {h : Heap α} {p : NodePtr} {pre post : List (Nat × α)} {a : Nat}
    {v x : α} {nx : NodePtr} (hc : Chain h p (pre ++ (a, v) :: post))
    (hcell : h[a]? = some (some { value := v, next_node := nx })) :
    Chain ((h ++ [some (Node.mk x nx)]).set a (some (Node.mk v (NodePtr.heap h.length))))
      p (pre ++ (a, v) :: (h.length, x) :: post) := by
  have halt : a < h.length := (List.getElem?_eq_some.1 hcell).1
  induction pre generalizing p with
  | nil =>
    have hc0 : Chain h p ((a, v) :: post) := by simpa using hc
    obtain ⟨hp, nx1, hcell1, hpost⟩ := (chain_cons h p (a, v) post).1 hc0
    have hnx : nx1 = nx := by
      rw [hcell] at hcell1
      injection hcell1 with h3
      injection h3 with h4
      injection h4 with _ h5
      exact h5.symm
    subst hnx
    have hnot : a ∉ addrs post := chain_head_not_mem hc0
    simp only [List.nil_append]
    refine (chain_cons _ p _ _).2 ⟨hp, NodePtr.heap h.length, ?_, ?_⟩
    · rw [List.getElem?_set_self (by simp; omega)]
    · refine (chain_cons _ _ _ _).2 ⟨rfl, nx1, ?_, ?_⟩
      · have hne : a ≠ h.length := by omega
        simp only
        rw [List.getElem?_set_ne hne]
        simp
      · exact chain_set_heap (chain_append_heap hpost _) a _ hnot
  | cons m rest ih =>
    have hc0 : Chain h p (m :: (rest ++ (a, v) :: post)) := by simpa using hc
    obtain ⟨hp, nx1, hcell1, hrest⟩ := (chain_cons h p m _).1 hc0
    have hnot : m.1 ∉ addrs (rest ++ (a, v) :: post) := chain_head_not_mem hc0
    have hne : a ≠ m.1 := by
      intro e
      apply hnot
      simp [addrs, e]
    have hmlt : m.1 < h.length := (List.getElem?_eq_some.1 hcell1).1
    simp only [List.cons_append]
    refine (chain_cons _ p _ _).2 ⟨hp, nx1, ?_, ih hrest⟩
    rw [List.getElem?_set_ne hne, List.getElem?_append_left hmlt]
    exact hcell1

/-- Unlinking and deleting the successor `d` of the node at address `a`. -/
theorem chain_erase {h : Heap α} {p : NodePtr} {pre post : List (Nat × α)} {a d : Nat}
    {v w : α} {nx : NodePtr} (hc : Chain h p (pre ++ (a, v) :: (d, w) :: post))
    (hd : h[d]? = some (some { value := w, next_node := nx })) :
    Chain ((h.set a (some (Node.mk v nx))).set d none)
      p (pre ++ (a, v) :: post) := by
  induction pre generalizing p with
  | nil =>
    have hc0 : Chain h p ((a, v) :: (d, w) :: post) := by simpa using hc
    obtain ⟨hp, nx1, hcell1, htail⟩ := (chain_cons h p (a, v) _).1 hc0
    obtain ⟨-, nx2, hcell2, hpost⟩ := (chain_cons h nx1 (d, w) post).1 htail
    have hnx : nx2 = nx := by
      simp only at hcell2
      rw [hd] at hcell2
      injection hcell2 with h3
      injection h3 with h4
      injection h4 with _ h5
      exact h5.symm
    subst hnx
    have hnot : a ∉ addrs ((d, w) :: post) := chain_head_not_mem hc0
    have hnotd : d ∉ addrs post := chain_head_not_mem htail
    have hne : d ≠ a := by
      intro e
      apply hnot
      simp [addrs, e]
    have hnota : a ∉ addrs post := by
      intro e
      apply hnot
      simp only [addrs, List.map_cons, List.mem_cons]
      exact Or.inr e
    have halt : a < h.length := (List.getElem?_eq_some.1 hcell1).1
    simp only [List.nil_append]
    refine (chain_cons _ p _ _).2 ⟨hp, nx2, ?_, ?_⟩
    · simp only
      rw [List.getElem?_set_ne hne, List.getElem?_set_self halt]
    · exact chain_set_heap (chain_set_heap hpost a _ hnota) d _ hnotd
  | cons m rest ih =>
    have hc0 : Chain h p (m :: (rest ++ (a, v) :: (d, w) :: post)) := by simpa using hc
    obtain ⟨hp, nx1, hcell1, hrest⟩ := (chain_cons h p m _).1 hc0
    have hnot : m.1 ∉ addrs (rest ++ (a, v) :: (d, w) :: post) := chain_head_not_mem hc0
    have hne : a ≠ m.1 := by
      intro e
      apply hnot
      simp [addrs, e]
    have hned : d ≠ m.1 := by
      intro e
      apply hnot
      simp [addrs, e]
    simp only [List.cons_append]
    refine (chain_cons _ p _ _).2 ⟨hp, nx1, ?_, ih hrest⟩
    rw [List.getElem?_set_ne hned, List.getElem?_set_ne hne]
    exact hcell1

/-! ## Lemmas on the counter -/

theorem incSize_eq {n : Nat} (hn : n + 1 < SIZE_MOD) : incSize n = n + 1 := by
  unfold incSize
  exact Nat.mod_eq_of_lt hn

theorem decSize_succ {n : Nat} (hn : n + 1 < SIZE_MOD) : decSize (n + 1) = n := by
  unfold decSize
  have e : SIZE_MOD - 1 + (n + 1) = n + SIZE_MOD := by omega
  rw [e, Nat.add_mod_right]
  exact Nat.mod_eq_of_lt (by omega)

theorem decSize_incSize {n : Nat} (hn : n < SIZE_MOD) : decSize (incSize n) = n := by
  by_cases hlt : n + 1 < SIZE_MOD
  · rw [incSize_eq hlt, decSize_succ hlt]
  · have e : n + 1 = SIZE_MOD := by omega
    unfold incSize decSize
    rw [e, Nat.mod_self, Nat.add_zero]
    rw [Nat.mod_eq_of_lt (by omega)]
    omega

/-! ## What each member function does to a well-formed list -/

theorem isEmpty_iff {h : Heap α} {l : SingleLinkedList α} {ns : List (Nat × α)}
    (hr : Represents h l ns) : IsEmpty l = true ↔ ns = [] := by
  unfold IsEmpty
  cases ns with
  | nil => simpa using (chain_nil h _).1 hr.chain
  | cons m rest =>
    have := chain_start hr.chain
    simp [this]

theorem PushFront_represents {h : Heap α} {l : SingleLinkedList α} {ns : List (Nat × α)}
    (hr : Represents h l ns) (hroom : ns.length + 1 < SIZE_MOD) (x : α) :
    Represents (PushFront h l x).1 (PushFront h l x).2 ((h.length, x) :: ns) := by
  refine ⟨?_, ?_, ?_⟩
  · refine (chain_cons _ _ _ _).2 ⟨rfl, l.head_.next_node, ?_, ?_⟩
    · simp [PushFront, allocNode]
    · exact chain_append_heap hr.chain _
  · simp only [PushFront, List.length_cons]
    rw [hr.size, incSize_eq hroom]
  · simpa using hroom

theorem InsertAfter_sentinel (h : Heap α) (l : SingleLinkedList α) (x : α) :
    InsertAfter h l NodePtr.sentinel x =
      Except.ok ((PushFront h l x).1, (PushFront h l x).2, NodePtr.heap h.length) := by
  unfold InsertAfter
  by_cases he : IsEmpty l = true
  · simp [he, end_, load, PushFront, allocNode]
  · simp [he, end_, load, storeNext, PushFront, allocNode]

theorem InsertAfter_node {h : Heap α} {l : SingleLinkedList α} {pre post : List (Nat × α)}
    {a : Nat} {v : α} (hr : Represents h l (pre ++ (a, v) :: post))
    (hroom : (pre ++ (a, v) :: post).length + 1 < SIZE_MOD) (x : α) :
    ∃ h1 l1, InsertAfter h l (NodePtr.heap a) x = Except.ok (h1, l1, NodePtr.heap h.length) ∧
      Represents h1 l1 (pre ++ (a, v) :: (h.length, x) :: post) ∧
      l1.size_ = l.size_ + 1 ∧ h1.length = h.length + 1 ∧
      (∀ q fs, Chain h q fs → a ∉ addrs fs → Chain h1 q fs) := by
  obtain ⟨nx, hcell, -⟩ := chain_cell hr.chain
  have halt : a < h.length := (List.getElem?_eq_some.1 hcell).1
  have hne : IsEmpty l = false := by
    cases hb : IsEmpty l with
    | false => rfl
    | true =>
      have := (isEmpty_iff hr).1 hb
      simp at this
  have hcell1 : (h ++ [some (Node.mk x nx)])[a]? = some (some (Node.mk v nx)) := by
    rw [List.getElem?_append_left halt]
    exact hcell
  have hcell2 : ((h ++ [some (Node.mk x nx)]).set a
      (some (Node.mk v (NodePtr.heap h.length))))[a]? =
      some (some (Node.mk v (NodePtr.heap h.length))) := by
    rw [List.getElem?_set_self (by simp; omega)]
  refine ⟨(h ++ [some (Node.mk x nx)]).set a (some (Node.mk v (NodePtr.heap h.length))),
    { l with size_ := incSize l.size_ }, ?_, ⟨?_, ?_, ?_⟩, ?_, ?_, ?_⟩
  · simp [InsertAfter, hne, end_, load, hcell, allocNode, storeNext, hcell1, hcell2]
  · exact chain_insert hr.chain hcell
  · simp only
    rw [hr.size, incSize_eq hroom]
    simp only [List.length_append, List.length_cons]
    omega
  · simp only [List.length_append, List.length_cons] at hroom ⊢
    omega
  · simp only
    rw [hr.size, incSize_eq hroom]
  · simp
  · intro q fs hq hfs
    exact chain_set_heap (chain_append_heap hq _) a _ hfs

theorem split_at_index {β : Type} (ns : List β) (i : Nat) (hi : i < ns.length) :
    ns = ns.take i ++ ns[i] :: ns.drop (i + 1) := by
  rw [← List.drop_eq_getElem_cons hi, List.take_append_drop]

theorem take_succ_index {β : Type} (ns : List β) (i : Nat) (hi : i < ns.length) :
    ns.take (i + 1) = ns.take i ++ [ns[i]] := by
  rw [List.take_succ, List.getElem?_eq_getElem hi]
  rfl

/-- `InsertAfter` at any cursor position of a well-formed list. -/
theorem InsertAfter_at {h : Heap α} {l : SingleLinkedList α} {ns : List (Nat × α)}
    (hr : Represents h l ns) (k : Nat) (hk : k ≤ ns.length)
    (hroom : ns.length + 1 < SIZE_MOD) (x : α) :
    ∃ h1 l1, InsertAfter h l (cursorAt ns k) x = Except.ok (h1, l1, NodePtr.heap h.length) ∧
      Represents h1 l1 (ns.take k ++ (h.length, x) :: ns.drop k) ∧
      l1.size_ = l.size_ + 1 ∧ h1.length = h.length + 1 ∧
      (∀ q fs, Chain h q fs → (∀ a ∈ addrs ns, a ∉ addrs fs) → Chain h1 q fs) := by
  cases k with
  | zero =>
    refine ⟨(PushFront h l x).1, (PushFront h l x).2, InsertAfter_sentinel h l x, ?_, ?_, ?_, ?_⟩
    · simpa using PushFront_represents hr hroom x
    · simp only [PushFront]
      rw [hr.size, incSize_eq hroom]
    · simp [PushFront, allocNode]
    · intro q fs hq _
      exact chain_append_heap hq _
  | succ i =>
    have hi : i < ns.length := hk
    have hsplit := split_at_index ns i hi
    have hcur : cursorAt ns (i + 1) = NodePtr.heap ns[i].1 := by
      simp [cursorAt, List.getElem?_eq_getElem hi]
    have hr1 : Represents h l (ns.take i ++ (ns[i].1, ns[i].2) :: ns.drop (i + 1)) := by
      rw [← hsplit]
      exact hr
    have hroom1 : (ns.take i ++ (ns[i].1, ns[i].2) :: ns.drop (i + 1)).length + 1 < SIZE_MOD := by
      rw [← hsplit]
      exact hroom
    obtain ⟨h1, l1, hres, hrep, hsz, hlen, hframe⟩ := InsertAfter_node hr1 hroom1 x
    refine ⟨h1, l1, ?_, ?_, hsz, hlen, ?_⟩
    · rw [hcur]
      exact hres
    · rw [take_succ_index ns i hi, List.append_assoc, List.singleton_append]
      exact hrep
    · intro q fs hq hdisj
      apply hframe q fs hq
      apply hdisj
      exact List.mem_map.2 ⟨ns[i], List.getElem_mem hi, rfl⟩

theorem PopFront_represents {h : Heap α} {l : SingleLinkedList α} {n : Nat × α}
    {rest : List (Nat × α)} (hr : Represents h l (n :: rest)) :
    ∃ nx, h[n.1]? = some (some (Node.mk n.2 nx)) ∧
      PopFront h l = Except.ok (h.set n.1 none,
        { head_ := { l.head_ with next_node := nx }, size_ := decSize l.size_ }) ∧
      Represents (h.set n.1 none)
        { head_ := { l.head_ with next_node := nx }, size_ := decSize l.size_ } rest := by
  obtain ⟨hp, nx, hcell, hrest⟩ := (chain_cons h _ n rest).1 hr.chain
  have hne : IsEmpty l = false := by
    cases hb : IsEmpty l with
    | false => rfl
    | true =>
      have := (isEmpty_iff hr).1 hb
      simp at this
  have hb := hr.bound
  simp only [List.length_cons] at hb
  refine ⟨nx, hcell, ?_, ⟨?_, ?_, ?_⟩⟩
  · simp [PopFront, hne, hp, load, hcell, deleteNode]
  · exact chain_set_heap hrest _ _ (chain_head_not_mem hr.chain)
  · simp only
    rw [hr.size, List.length_cons, decSize_succ hb]
  · omega

theorem EraseAfter_sentinel {h : Heap α} {l : SingleLinkedList α} {d : Nat} {w : α}
    {post : List (Nat × α)} (hr : Represents h l ((d, w) :: post)) :
    ∃ h1 l1, EraseAfter h l NodePtr.sentinel = Except.ok (h1, l1, nodeCursor post 0) ∧
      Represents h1 l1 post ∧ l1.size_ + 1 = l.size_ ∧ h1.length = h.length ∧
      (∀ q fs, Chain h q fs → (∀ x ∈ addrs ((d, w) :: post), x ∉ addrs fs) →
        Chain h1 q fs) := by
  obtain ⟨hp, nx, hcell, hrest⟩ := (chain_cons h _ (d, w) post).1 hr.chain
  simp only at hp hcell
  have hne : IsEmpty l = false := by
    cases hb : IsEmpty l with
    | false => rfl
    | true =>
      have := (isEmpty_iff hr).1 hb
      simp at this
  have hb := hr.bound
  simp only [List.length_cons] at hb
  have hnx : nx = nodeCursor post 0 := by
    cases post with
    | nil => simpa [nodeCursor] using (chain_nil h nx).1 hrest
    | cons m r => simpa [nodeCursor] using chain_start hrest
  refine ⟨h.set d none, { head_ := { l.head_ with next_node := nx }, size_ := decSize l.size_ },
    ?_, ⟨?_, ?_, ?_⟩, ?_, ?_, ?_⟩
  · rw [← hnx]
    simp [EraseAfter, hne, end_, load, hp, hcell, storeNext, deleteNode]
  · exact chain_set_heap hrest _ _ (chain_head_not_mem hr.chain)
  · simp only
    rw [hr.size, List.length_cons, decSize_succ hb]
  · omega
  · simp only
    rw [hr.size, List.length_cons, decSize_succ hb]
  · simp
  · intro q fs hq hd
    exact chain_set_heap hq _ _ (hd d (by simp [addrs]))

theorem EraseAfter_node {h : Heap α} {l : SingleLinkedList α} {pre post : List (Nat × α)}
    {a d : Nat} {v w : α} (hr : Represents h l (pre ++ (a, v) :: (d, w) :: post)) :
    ∃ h1 l1, EraseAfter h l (NodePtr.heap a) = Except.ok (h1, l1, nodeCursor post 0) ∧
      Represents h1 l1 (pre ++ (a, v) :: post) ∧ l1.size_ + 1 = l.size_ ∧
      h1.length = h.length ∧
      (∀ q fs, Chain h q fs → (∀ x ∈ addrs (pre ++ (a, v) :: (d, w) :: post), x ∉ addrs fs) →
        Chain h1 q fs) := by
  obtain ⟨nxa, hcella, htail⟩ := chain_cell hr.chain
  obtain ⟨-, nx, hcelld, hpost⟩ := (chain_cons h _ (d, w) post).1 htail
  simp only at hcelld
  have hne : IsEmpty l = false := by
    cases hb : IsEmpty l with
    | false => rfl
    | true =>
      have := (isEmpty_iff hr).1 hb
      simp at this
  have hnxa : nxa = NodePtr.heap d := chain_start htail
  subst hnxa
  have hnot : a ∉ addrs ((d, w) :: post) := by
    obtain ⟨q, hq⟩ := chain_suffix hr.chain
    exact chain_head_not_mem hq
  have hda : d ≠ a := by
    intro e
    apply hnot
    simp [addrs, e]
  have halt : a < h.length := (List.getElem?_eq_some.1 hcella).1
  have hdlt : d < h.length := (List.getElem?_eq_some.1 hcelld).1
  have hb := hr.bound
  have hlen : (pre ++ (a, v) :: (d, w) :: post).length =
      (pre ++ (a, v) :: post).length + 1 := by
    simp only [List.length_append, List.length_cons]
    omega
  rw [hlen] at hb
  have hnx : nx = nodeCursor post 0 := by
    cases post with
    | nil => simpa [nodeCursor] using (chain_nil h nx).1 hpost
    | cons m r => simpa [nodeCursor] using chain_start hpost
  have hcell1 : (h.set a (some (Node.mk v nx)))[d]? = some (some (Node.mk w nx)) := by
    rw [List.getElem?_set_ne (Ne.symm hda)]
    exact hcelld
  have hcell2 : ((h.set a (some (Node.mk v nx))).set d none)[a]? =
      some (some (Node.mk v nx)) := by
    rw [List.getElem?_set_ne hda, List.getElem?_set_self halt]
  refine ⟨(h.set a (some (Node.mk v nx))).set d none, { l with size_ := decSize l.size_ },
    ?_, ⟨?_, ?_, ?_⟩, ?_, ?_, ?_⟩
  · rw [← hnx]
    simp [EraseAfter, hne, end_, load, hcella, hcelld, storeNext, deleteNode, hcell1, hcell2]
  · exact chain_erase hr.chain hcelld
  · simp only
    rw [hr.size, hlen, decSize_succ hb]
  · omega
  · simp only
    rw [hr.size, hlen, decSize_succ hb]
  · simp
  · intro q fs hq hd
    exact chain_set_heap (chain_set_heap hq a _ (hd a (by simp [addrs]))) d _
      (hd d (by simp [addrs]))

theorem nodeCursor_drop (ns : List (Nat × α)) (k : Nat) :
    nodeCursor (ns.drop k) 0 = nodeCursor ns k := by
  simp [nodeCursor, List.getElem?_drop]

/-- `EraseAfter` at any cursor position whose node has a successor. -/
theorem EraseAfter_at {h : Heap α} {l : SingleLinkedList α} {ns : List (Nat × α)}
    (hr : Represents h l ns) (k : Nat) (hk : k < ns.length) :
    ∃ h1 l1, EraseAfter h l (cursorAt ns k) = Except.ok (h1, l1, nodeCursor ns (k + 1)) ∧
      Represents h1 l1 (ns.take k ++ ns.drop (k + 1)) ∧ l1.size_ + 1 = l.size_ ∧
      h1.length = h.length ∧
      (∀ q fs, Chain h q fs → (∀ x ∈ addrs ns, x ∉ addrs fs) → Chain h1 q fs) := by
  cases k with
  | zero =>
    have hsplit := split_at_index ns 0 hk
    simp only [List.take_zero, List.nil_append] at hsplit
    have hr1 : Represents h l ((ns[0].1, ns[0].2) :: ns.drop (0 + 1)) := by
      rw [← hsplit]
      exact hr
    obtain ⟨h1, l1, hres, hrep, hsz, hlen, hframe⟩ := EraseAfter_sentinel hr1
    rw [nodeCursor_drop] at hres
    rw [← hsplit] at hframe
    exact ⟨h1, l1, hres, by simpa using hrep, hsz, hlen, hframe⟩
  | succ i =>
    have hi : i < ns.length := by omega
    have hsplit := split_at_index ns i hi
    have hsplit2 : ns.drop (i + 1) = ns[i + 1] :: ns.drop (i + 1 + 1) :=
      List.drop_eq_getElem_cons hk
    have hcur : cursorAt ns (i + 1) = NodePtr.heap ns[i].1 := by
      simp [cursorAt, List.getElem?_eq_getElem hi]
    have e : ns.take i ++ (ns[i].1, ns[i].2) ::
        ((ns[i + 1]).1, (ns[i + 1]).2) :: ns.drop (i + 1 + 1) = ns := by
      conv_rhs => rw [hsplit, hsplit2]
    have hr1 : Represents h l (ns.take i ++ (ns[i].1, ns[i].2) ::
        ((ns[i + 1]).1, (ns[i + 1]).2) :: ns.drop (i + 1 + 1)) := by
      rw [e]
      exact hr
    obtain ⟨h1, l1, hres, hrep, hsz, hlen, hframe⟩ := EraseAfter_node hr1
    rw [nodeCursor_drop] at hres
    rw [e] at hframe
    refine ⟨h1, l1, ?_, ?_, hsz, hlen, hframe⟩
    · rw [hcur]
      exact hres
    · rw [take_succ_index ns i hi, List.append_assoc, List.singleton_append]
      exact hrep

/-- Walking a chain from its start collects its values, given enough steps. -/
theorem iterate_chain {h : Heap α} (l : SingleLinkedList α) {p : NodePtr}
    {ns : List (Nat × α)} (hc : Chain h p ns) (fuel : Nat) (hf : ns.length < fuel) :
    iterate h l fuel p = Except.ok (values ns) := by
  induction ns generalizing p fuel with
  | nil =>
    have hp := (chain_nil h p).1 hc
    cases fuel with
    | zero => simp at hf
    | succ f => simp [iterate, hp, end_, values]
  | cons m rest ih =>
    obtain ⟨hp, nx, hcell, hrest⟩ := (chain_cons h p m rest).1 hc
    cases fuel with
    | zero => simp at hf
    | succ f =>
      have hf1 : rest.length < f := by simpa using hf
      simp [iterate, hp, end_, deref, incr, load, hcell, ih hrest f hf1, values]

theorem cursorAt_last (ns : List (Nat × α)) (n : Nat × α) :
    cursorAt (ns ++ [n]) (ns ++ [n]).length = NodePtr.heap n.1 := by
  simp [cursorAt]

theorem not_mem_addrs_of_chain {h : Heap α} {q : NodePtr} {fs : List (Nat × α)}
    (hq : Chain h q fs) : h.length ∉ addrs fs := by
  intro hmem
  obtain ⟨m, hm, hfst⟩ := List.mem_map.1 hmem
  have := chain_addr_lt hq m hm
  omega

/-- Appending at the last cursor position, one step: the shape used by both loops of
`ListInitialization`. -/
theorem InsertAfter_last {h : Heap α} {l : SingleLinkedList α} {ns : List (Nat × α)}
    (hr : Represents h l ns) (hroom : ns.length + 1 < SIZE_MOD) (x : α) :
    ∃ h1 l1, InsertAfter h l (cursorAt ns ns.length) x =
        Except.ok (h1, l1, cursorAt (ns ++ [(h.length, x)]) (ns ++ [(h.length, x)]).length) ∧
      Represents h1 l1 (ns ++ [(h.length, x)]) ∧ h1.length = h.length + 1 ∧
      (∀ q fs, Chain h q fs → (∀ a ∈ addrs ns, a ∉ addrs fs) → Chain h1 q fs) := by
  obtain ⟨h1, l1, hres, hrep, -, hlen, hframe⟩ := InsertAfter_at hr ns.length (le_refl _) hroom x
  refine ⟨h1, l1, ?_, ?_, hlen, hframe⟩
  · rw [cursorAt_last]
    exact hres
  · simpa using hrep

theorem initLoop_spec (vs : List α) :
    ∀ {h : Heap α} {l : SingleLinkedList α} {ns : List (Nat × α)}, Represents h l ns →
      ns.length + vs.length < SIZE_MOD →
      ∃ h1 l1 cs, initLoop h l (cursorAt ns ns.length) vs = Except.ok (h1, l1) ∧
        Represents h1 l1 (ns ++ cs) ∧ values cs = vs ∧ (∀ c ∈ cs, h.length ≤ c.1) ∧
        h.length ≤ h1.length ∧
        (∀ q fs, Chain h q fs → (∀ a ∈ addrs ns, a ∉ addrs fs) → Chain h1 q fs) := by
  induction vs with
  | nil =>
    intro h l ns hr _
    exact ⟨h, l, [], by simp [initLoop], by simpa using hr, rfl, by simp, le_refl _,
      fun q fs hq _ => hq⟩
  | cons x rest ih =>
    intro h l ns hr hroom
    simp only [List.length_cons] at hroom
    obtain ⟨h1, l1, hres, hrep, hlen, hframe⟩ := InsertAfter_last hr (by omega) x
    have hroom1 : (ns ++ [(h.length, x)]).length + rest.length < SIZE_MOD := by
      simp only [List.length_append, List.length_cons, List.length_nil]
      omega
    obtain ⟨h2, l2, cs, hres2, hrep2, hvals, hfresh, hle, hframe2⟩ := ih hrep hroom1
    refine ⟨h2, l2, (h.length, x) :: cs, ?_, ?_, ?_, ?_, ?_, ?_⟩
    · simp only [initLoop, hres]
      exact hres2
    · simpa using hrep2
    · simp only [values, List.map_cons]
      exact congrArg _ hvals
    · intro c hc
      rcases List.mem_cons.1 hc with rfl | hc
      · exact le_refl _
      · have := hfresh c hc
        omega
    · omega
    · intro q fs hq hdisj
      apply hframe2 q fs (hframe q fs hq hdisj)
      intro a ha
      simp only [addrs, List.map_append, List.map_cons, List.map_nil, List.mem_append,
        List.mem_singleton] at ha
      rcases ha with ha | ha
      · exact hdisj a ha
      · rw [ha]
        exact not_mem_addrs_of_chain hq

theorem copyLoop_spec (other : SingleLinkedList α) (os : List (Nat × α)) :
    ∀ {h : Heap α} {l : SingleLinkedList α} {ns : List (Nat × α)} {it : NodePtr} (fuel : Nat),
      Chain h it os → Represents h l ns → (∀ a ∈ addrs ns, a ∉ addrs os) →
      os.length < fuel → ns.length + os.length < SIZE_MOD →
      ∃ h1 l1 cs, copyLoop other fuel h l it (cursorAt ns ns.length) = Except.ok (h1, l1) ∧
        Represents h1 l1 (ns ++ cs) ∧ values cs = values os ∧ (∀ c ∈ cs, h.length ≤ c.1) ∧
        h.length ≤ h1.length ∧
        (∀ q fs, Chain h q fs → (∀ a ∈ addrs ns, a ∉ addrs fs) → Chain h1 q fs) := by
  induction os with
  | nil =>
    intro h l ns it fuel hit hr _ hf _
    have hp := (chain_nil h it).1 hit
    cases fuel with
    | zero => simp at hf
    | succ f =>
      exact ⟨h, l, [], by simp [copyLoop, hp, end_], by simpa using hr, rfl, by simp,
        le_refl _, fun q fs hq _ => hq⟩
  | cons o rest ih =>
    intro h l ns it fuel hit hr hdisj hf hroom
    simp only [List.length_cons] at hroom hf
    cases fuel with
    | zero => simp at hf
    | succ f =>
      obtain ⟨hp, nx, hcell, -⟩ := (chain_cons h it o rest).1 hit
      obtain ⟨h1, l1, hres, hrep, hlen, hframe⟩ := InsertAfter_last hr (by omega) o.2
      have hit1 : Chain h1 it (o :: rest) := hframe it _ hit hdisj
      obtain ⟨-, nx1, hcell1, hrest1⟩ := (chain_cons h1 it o rest).1 hit1
      have hroom1 : (ns ++ [(h.length, o.2)]).length + rest.length < SIZE_MOD := by
        simp only [List.length_append, List.length_cons, List.length_nil]
        omega
      have hdisj1 : ∀ a ∈ addrs (ns ++ [(h.length, o.2)]), a ∉ addrs rest := by
        intro a ha
        simp only [addrs, List.map_append, List.map_cons, List.map_nil, List.mem_append,
          List.mem_singleton] at ha
        rcases ha with ha | ha
        · intro hmem
          apply hdisj a ha
          simp only [addrs, List.map_cons, List.mem_cons]
          exact Or.inr hmem
        · rw [ha]
          intro hmem
          obtain ⟨m, hm, hfst⟩ := List.mem_map.1 hmem
          have := chain_addr_lt hit m (List.mem_cons_of_mem _ hm)
          omega
      obtain ⟨h2, l2, cs, hres2, hrep2, hvals, hfresh, hle, hframe2⟩ :=
        ih f hrest1 hrep hdisj1 (by omega) hroom1
      refine ⟨h2, l2, (h.length, o.2) :: cs, ?_, ?_, ?_, ?_, ?_, ?_⟩
      · simp only [copyLoop, hp, end_, deref, load, hcell, hres, incr, hcell1]
        simpa using hres2
      · simpa using hrep2
      · simp only [values, List.map_cons]
        exact congrArg _ hvals
      · intro c hc
        rcases List.mem_cons.1 hc with rfl | hc
        · exact le_refl _
        · have := hfresh c hc
          omega
      · omega
      · intro q fs hq hd
        apply hframe2 q fs (hframe q fs hq hd)
        intro a ha
        simp only [addrs, List.map_append, List.map_cons, List.map_nil, List.mem_append,
          List.mem_singleton] at ha
        rcases ha with ha | ha
        · exact hd a ha
        · rw [ha]
          exact not_mem_addrs_of_chain hq

theorem mkEmpty_represents [Inhabited α] (h : Heap α) :
    Represents h (mkEmpty : SingleLinkedList α) [] :=
  ⟨by simp [mkEmpty, Chain], rfl, by simp [SIZE_MOD]⟩

/-! ## The lexicographical comparison -/

theorem lex_index_nil_right {β : Type} [LT β] (u : List β) :
    ¬ ((∃ i, ∃ (h1 : i < u.length) (h2 : i < ([] : List β).length),
          u.take i = ([] : List β).take i ∧ u[i] < ([] : List β)[i]) ∨
        (u <+: ([] : List β) ∧ u.length < ([] : List β).length)) := by
  rintro (⟨i, -, h2, -⟩ | ⟨-, h2⟩)
  · simp at h2
  · simp at h2

theorem lex_index_cons {β : Type} [LinearOrder β] (a b : β) (u v : List β) :
    ((∃ i, ∃ (h1 : i < (a :: u).length) (h2 : i < (b :: v).length),
          (a :: u).take i = (b :: v).take i ∧ (a :: u)[i] < (b :: v)[i]) ∨
        ((a :: u) <+: (b :: v) ∧ (a :: u).length < (b :: v).length)) ↔
      (a < b ∨ (a = b ∧
        ((∃ i, ∃ (h1 : i < u.length) (h2 : i < v.length),
            u.take i = v.take i ∧ u[i] < v[i]) ∨
          (u <+: v ∧ u.length < v.length)))) := by
  constructor
  · rintro (⟨i, h1, h2, ht, hlt⟩ | ⟨hpre, hlen⟩)
    · cases i with
      | zero => exact Or.inl (by simpa using hlt)
      | succ j =>
        simp only [List.take_succ_cons, List.cons.injEq] at ht
        refine Or.inr ⟨ht.1, Or.inl ⟨j, ?_, ?_, ht.2, ?_⟩⟩
        · simpa using h1
        · simpa using h2
        · simpa using hlt
    · rw [List.cons_prefix_cons] at hpre
      exact Or.inr ⟨hpre.1, Or.inr ⟨hpre.2, by simpa using hlen⟩⟩
  · rintro (hab | ⟨rfl, ⟨i, h1, h2, ht, hlt⟩ | ⟨hpre, hlen⟩⟩)
    · exact Or.inl ⟨0, by simp, by simp, by simp, by simpa using hab⟩
    · refine Or.inl ⟨i + 1, by simpa using h1, by simpa using h2, ?_, ?_⟩
      · simp [ht]
      · simpa using hlt
    · refine Or.inr ⟨?_, by simpa using hlen⟩
      rw [List.cons_prefix_cons]
      exact ⟨rfl, hpre⟩

theorem std_lexicographical_compare_spec [LinearOrder α] {h : Heap α}
    (lhs rhs : SingleLinkedList α) (xs : List (Nat × α)) :
    ∀ (ys : List (Nat × α)) (p q : NodePtr) (fuel : Nat), Chain h p xs → Chain h q ys →
      min xs.length ys.length < fuel →
      ∃ b, std_lexicographical_compare (fun a b => decide (a < b)) h lhs rhs fuel p q =
          Except.ok b ∧
        (b = true ↔
          ((∃ i, ∃ (h1 : i < (values xs).length) (h2 : i < (values ys).length),
              (values xs).take i = (values ys).take i ∧ (values xs)[i] < (values ys)[i]) ∨
            (values xs <+: values ys ∧ (values xs).length < (values ys).length))) := by
  induction xs with
  | nil =>
    intro ys p q fuel hp hq hf
    have hpn := (chain_nil h p).1 hp
    cases fuel with
    | zero => simp at hf
    | succ f =>
      cases ys with
      | nil =>
        have hqn := (chain_nil h q).1 hq
        refine ⟨false, by simp [std_lexicographical_compare, hpn, hqn, end_], ?_⟩
        simp [values]
      | cons m rest =>
        have hqn := chain_start hq
        refine ⟨true, by simp [std_lexicographical_compare, hpn, hqn, end_], ?_⟩
        simp [values]
  | cons n xs1 ih =>
    intro ys p q fuel hp hq hf
    obtain ⟨hpn, nx, hcell, hrest⟩ := (chain_cons h p n xs1).1 hp
    cases fuel with
    | zero => simp at hf
    | succ f =>
      cases ys with
      | nil =>
        have hqn := (chain_nil h q).1 hq
        refine ⟨false, by simp [std_lexicographical_compare, hpn, hqn, end_], ?_⟩
        simp [values]
      | cons m ys1 =>
        obtain ⟨hqn, mx, hcellm, hrestm⟩ := (chain_cons h q m ys1).1 hq
        have hf1 : min xs1.length ys1.length < f := by
          simp only [List.length_cons] at hf
          omega
        obtain ⟨b, hb, hiff⟩ := ih ys1 nx mx f hrest hrestm hf1
        have hval : values (n :: xs1) = n.2 :: values xs1 := rfl
        have hvalm : values (m :: ys1) = m.2 :: values ys1 := rfl
        rw [hval, hvalm, lex_index_cons]
        by_cases h1 : n.2 < m.2
        · refine ⟨true, ?_, by simp [h1]⟩
          simp [std_lexicographical_compare, hpn, hqn, end_, deref, load, hcell, hcellm, h1]
        · by_cases h2 : m.2 < n.2
          · refine ⟨false, ?_, ?_⟩
            · simp [std_lexicographical_compare, hpn, hqn, end_, deref, load, hcell, hcellm,
                h1, h2]
            · have hne : n.2 ≠ m.2 := ne_of_gt h2
              simp [h1, hne]
          · have heq : n.2 = m.2 := le_antisymm (not_lt.1 h2) (not_lt.1 h1)
            refine ⟨b, ?_, ?_⟩
            · simp [std_lexicographical_compare, hpn, hqn, end_, deref, load, hcell, hcellm,
                h1, h2, incr, hb]
            · rw [hiff]
              simp [h1, heq]

/-! ## The concrete states are what the constructors build -/

theorem listA_built : fromInitializerList ([] : Heap Nat) [1, 2, 3] = Except.ok (heapA, listA) := by
  rfl

theorem listB_built : fromInitializerList heapA [1, 2] = Except.ok (heapAB, listB) := by
  rfl

theorem listC_built :
    fromInitializerList ([] : Heap Nat) [1, 2, 3, 4, 5] = Except.ok (heapC, listC) := by
  rfl

theorem listD_built : fromInitializerList ([] : Heap Nat) [1] = Except.ok (heapD, listD) := by
  rfl

theorem small_lt_SIZE_MOD {n : Nat} (hn : n < 100) : n < SIZE_MOD := by
  unfold SIZE_MOD
  omega

theorem listA_represents : Represents heapA listA nodesA :=
  ⟨by simp [Chain, heapA, listA, nodesA], rfl, small_lt_SIZE_MOD (by decide)⟩

theorem listA_represents_AB : Represents heapAB listA nodesA :=
  ⟨by simp [Chain, heapAB, listA, nodesA], rfl, small_lt_SIZE_MOD (by decide)⟩

theorem listB_represents : Represents heapAB listB nodesB :=
  ⟨by simp [Chain, heapAB, listB, nodesB], rfl, small_lt_SIZE_MOD (by decide)⟩

theorem listC_represents : Represents heapC listC nodesC :=
  ⟨by simp [Chain, heapC, listC, nodesC], rfl, small_lt_SIZE_MOD (by decide)⟩

theorem listD_represents : Represents heapD listD nodesD :=
  ⟨by simp [Chain, heapD, listD, nodesD], rfl, small_lt_SIZE_MOD (by decide)⟩

/-! ## The claims -/

/-- C1: for every sequence `S` (of a length a `size_t` can hold) and every state of the
free store, the initializer-list constructor succeeds and builds a well-formed list whose
nodes carry exactly `S`; iterating it from `begin()` to `end()` yields exactly `S` in
order (the loop ends within `S.length + 1` tests), and `GetSize()` is the length of `S`. -/
theorem fromInitializerList_iterates [Inhabited α] (h : Heap α) (S : List α)
    (hS : S.length < SIZE_MOD) (fuel : Nat) (hf : S.length < fuel) :
    ∃ h1 l1, fromInitializerList h S = Except.ok (h1, l1) ∧
      (∃ cs, Represents h1 l1 cs ∧ values cs = S) ∧
      iterate h1 l1 fuel (begin_ l1) = Except.ok S ∧ GetSize l1 = S.length := by
  have hr0 : Represents h (mkEmpty : SingleLinkedList α) [] := mkEmpty_represents h
  obtain ⟨h1, l1, cs, hres, hrep, hvals, -, -, -⟩ :=
    initLoop_spec S hr0 (by simpa using hS)
  have hrep1 : Represents h1 l1 cs := by simpa using hrep
  have hlen : cs.length = S.length := by
    rw [← hvals]
    simp [values]
  refine ⟨h1, l1, hres, ⟨cs, hrep1, hvals⟩, ?_, ?_⟩
  · rw [← hvals]
    exact iterate_chain l1 hrep1.chain fuel (by omega)
  · unfold GetSize
    rw [hrep1.size]
    exact hlen

theorem fromInitializerList_iterates_witness :
    [7, 8, 9].length < SIZE_MOD ∧ [7, 8, 9].length < 4 ∧
      ∃ h1 l1, fromInitializerList ([] : Heap Nat) [7, 8, 9] = Except.ok (h1, l1) ∧
        (∃ cs, Represents h1 l1 cs ∧ values cs = [7, 8, 9]) ∧
        iterate h1 l1 4 (begin_ l1) = Except.ok [7, 8, 9] ∧
        GetSize l1 = [7, 8, 9].length :=
  ⟨small_lt_SIZE_MOD (by decide), by decide,
    fromInitializerList_iterates [] [7, 8, 9] (small_lt_SIZE_MOD (by decide)) 4 (by decide)⟩

/-- C2 (the code departs from it): with `a` built from `[1, 2, 3]` and `b` from `[1, 2]`,
`operator==(b, a)` returns `true`, so `b != a` is `false` although the lengths differ;
and `operator==(a, b)` dereferences the end cursor of `b`. -/
theorem opNe_shorter_list_is_false :
    fromInitializerList ([] : Heap Nat) [1, 2, 3] = Except.ok (heapA, listA) ∧
      fromInitializerList heapA [1, 2] = Except.ok (heapAB, listB) ∧
      (∀ fuel, 2 < fuel → opEq fuel heapAB listB listA = Except.ok true) ∧
      (∀ fuel, 2 < fuel → opNe fuel heapAB listB listA = Except.ok false) ∧
      (∀ fuel, 2 < fuel → opNe fuel heapAB listA listB = Except.error Fault.nullDeref) := by
  refine ⟨rfl, rfl, ?_, ?_, ?_⟩
  · intro fuel hf
    obtain ⟨f, rfl⟩ : ∃ f, fuel = f + 3 := ⟨fuel - 3, by omega⟩
    rfl
  · intro fuel hf
    obtain ⟨f, rfl⟩ : ∃ f, fuel = f + 3 := ⟨fuel - 3, by omega⟩
    rfl
  · intro fuel hf
    obtain ⟨f, rfl⟩ : ∃ f, fuel = f + 3 := ⟨fuel - 3, by omega⟩
    rfl

/-! ### The comparison for an arbitrary element `operator<` -/

theorem lex_general_nil_left {β : Type} (lt : β → β → Bool) (v : List β) :
    ((∃ i a b, ([] : List β)[i]? = some a ∧ v[i]? = some b ∧ lt a b = true ∧
          ∀ (j : Nat) c d, j < i → ([] : List β)[j]? = some c → v[j]? = some d →
            lt c d = false ∧ lt d c = false) ∨
        (([] : List β).length < v.length ∧
          ∀ (j : Nat) c d, ([] : List β)[j]? = some c → v[j]? = some d →
            lt c d = false ∧ lt d c = false)) ↔ v ≠ [] := by
  constructor
  · rintro (⟨i, a, b, h1, -⟩ | ⟨hlen, -⟩)
    · simp at h1
    · intro e
      subst e
      simp at hlen
  · intro hv
    refine Or.inr ⟨?_, ?_⟩
    · simpa using List.length_pos.2 hv
    · intro j c d hc
      simp at hc

theorem lex_general_nil_right {β : Type} (lt : β → β → Bool) (u : List β) :
    ¬ ((∃ i a b, u[i]? = some a ∧ ([] : List β)[i]? = some b ∧ lt a b = true ∧
          ∀ (j : Nat) c d, j < i → u[j]? = some c → ([] : List β)[j]? = some d →
            lt c d = false ∧ lt d c = false) ∨
        (u.length < ([] : List β).length ∧
          ∀ (j : Nat) c d, u[j]? = some c → ([] : List β)[j]? = some d →
            lt c d = false ∧ lt d c = false)) := by
  rintro (⟨i, a, b, -, h2, -⟩ | ⟨hlen, -⟩)
  · simp at h2
  · simp at hlen

theorem lex_general_cons {β : Type} (lt : β → β → Bool) (x y : β) (u v : List β) :
    ((∃ i a b, (x :: u)[i]? = some a ∧ (y :: v)[i]? = some b ∧ lt a b = true ∧
          ∀ (j : Nat) c d, j < i → (x :: u)[j]? = some c → (y :: v)[j]? = some d →
            lt c d = false ∧ lt d c = false) ∨
        ((x :: u).length < (y :: v).length ∧
          ∀ (j : Nat) c d, (x :: u)[j]? = some c → (y :: v)[j]? = some d →
            lt c d = false ∧ lt d c = false)) ↔
      (lt x y = true ∨ (lt x y = false ∧ lt y x = false ∧
        ((∃ i a b, u[i]? = some a ∧ v[i]? = some b ∧ lt a b = true ∧
            ∀ (j : Nat) c d, j < i → u[j]? = some c → v[j]? = some d →
              lt c d = false ∧ lt d c = false) ∨
          (u.length < v.length ∧
            ∀ (j : Nat) c d, u[j]? = some c → v[j]? = some d →
              lt c d = false ∧ lt d c = false)))) := by
  constructor
  · rintro (⟨i, a, b, h1, h2, hlt, hearlier⟩ | ⟨hlen, hall⟩)
    · cases i with
      | zero =>
        simp only [List.getElem?_cons_zero, Option.some.injEq] at h1 h2
        subst h1
        subst h2
        exact Or.inl hlt
      | succ k =>
        simp only [List.getElem?_cons_succ] at h1 h2
        have h0 := hearlier 0 x y (Nat.succ_pos k) (by simp) (by simp)
        refine Or.inr ⟨h0.1, h0.2, Or.inl ⟨k, a, b, h1, h2, hlt, ?_⟩⟩
        intro j c d hj hc hd
        exact hearlier (j + 1) c d (by omega) (by simpa using hc) (by simpa using hd)
    · have h0 := hall 0 x y (by simp) (by simp)
      refine Or.inr ⟨h0.1, h0.2, Or.inr ⟨by simpa using hlen, ?_⟩⟩
      intro j c d hc hd
      exact hall (j + 1) c d (by simpa using hc) (by simpa using hd)
  · rintro (hxy | ⟨hxy, hyx, ⟨i, a, b, h1, h2, hlt, hearlier⟩ | ⟨hlen, hall⟩⟩)
    · refine Or.inl ⟨0, x, y, by simp, by simp, hxy, ?_⟩
      intro j c d hj
      omega
    · refine Or.inl ⟨i + 1, a, b, by simpa using h1, by simpa using h2, hlt, ?_⟩
      intro j c d hj hc hd
      cases j with
      | zero =>
        simp only [List.getElem?_cons_zero, Option.some.injEq] at hc hd
        subst hc
        subst hd
        exact ⟨hxy, hyx⟩
      | succ k =>
        simp only [List.getElem?_cons_succ] at hc hd
        exact hearlier k c d (by omega) hc hd
    · refine Or.inr ⟨by simpa using hlen, ?_⟩
      intro j c d hc hd
      cases j with
      | zero =>
        simp only [List.getElem?_cons_zero, Option.some.injEq] at hc hd
        subst hc
        subst hd
        exact ⟨hxy, hyx⟩
      | succ k =>
        simp only [List.getElem?_cons_succ] at hc hd
        exact hall k c d hc hd

/-- What `std::lexicographical_compare` computes on two chains, for any element
`operator<`: two elements count as the same when neither is less than the other. -/
theorem std_lexicographical_compare_general (lt : α → α → Bool) {h : Heap α}
    (lhs rhs : SingleLinkedList α) (xs : List (Nat × α)) :
    ∀ (ys : List (Nat × α)) (p q : NodePtr) (fuel : Nat), Chain h p xs → Chain h q ys →
      min xs.length ys.length < fuel →
      ∃ r, std_lexicographical_compare lt h lhs rhs fuel p q = Except.ok r ∧
        (r = true ↔
          ((∃ i a b, (values xs)[i]? = some a ∧ (values ys)[i]? = some b ∧ lt a b = true ∧
              ∀ (j : Nat) c d, j < i → (values xs)[j]? = some c → (values ys)[j]? = some d →
                lt c d = false ∧ lt d c = false) ∨
            ((values xs).length < (values ys).length ∧
              ∀ (j : Nat) c d, (values xs)[j]? = some c → (values ys)[j]? = some d →
                lt c d = false ∧ lt d c = false))) := by
  induction xs with
  | nil =>
    intro ys p q fuel hp hq hf
    have hpn := (chain_nil h p).1 hp
    have hv : values ([] : List (Nat × α)) = [] := rfl
    rw [hv, lex_general_nil_left]
    cases fuel with
    | zero => simp at hf
    | succ f =>
      cases ys with
      | nil =>
        have hqn := (chain_nil h q).1 hq
        refine ⟨false, by simp [std_lexicographical_compare, hpn, hqn, end_], ?_⟩
        simp [values]
      | cons m rest =>
        have hqn := chain_start hq
        refine ⟨true, by simp [std_lexicographical_compare, hpn, hqn, end_], ?_⟩
        simp [values]
  | cons n xs1 ih =>
    intro ys p q fuel hp hq hf
    obtain ⟨hpn, nx, hcell, hrest⟩ := (chain_cons h p n xs1).1 hp
    cases fuel with
    | zero => simp at hf
    | succ f =>
      cases ys with
      | nil =>
        have hqn := (chain_nil h q).1 hq
        have hv : values ([] : List (Nat × α)) = [] := rfl
        refine ⟨false, by simp [std_lexicographical_compare, hpn, hqn, end_], ?_⟩
        rw [hv]
        have := lex_general_nil_right lt (values (n :: xs1))
        constructor
        · intro e
          cases e
        · intro e
          exact absurd e this
      | cons m ys1 =>
        obtain ⟨hqn, mx, hcellm, hrestm⟩ := (chain_cons h q m ys1).1 hq
        have hf1 : min xs1.length ys1.length < f := by
          simp only [List.length_cons] at hf
          omega
        obtain ⟨r, hr, hiff⟩ := ih ys1 nx mx f hrest hrestm hf1
        have hval : values (n :: xs1) = n.2 :: values xs1 := rfl
        have hvalm : values (m :: ys1) = m.2 :: values ys1 := rfl
        rw [hval, hvalm, lex_general_cons]
        by_cases h1 : lt n.2 m.2 = true
        · refine ⟨true, ?_, by simp [h1]⟩
          simp [std_lexicographical_compare, hpn, hqn, end_, deref, load, hcell, hcellm, h1]
        · have h1f : lt n.2 m.2 = false := by simpa using h1
          by_cases h2 : lt m.2 n.2 = true
          · refine ⟨false, ?_, ?_⟩
            · simp [std_lexicographical_compare, hpn, hqn, end_, deref, load, hcell, hcellm,
                h1f, h2]
            · simp [h1f, h2]
          · have h2f : lt m.2 n.2 = false := by simpa using h2
            refine ⟨r, ?_, ?_⟩
            · simp [std_lexicographical_compare, hpn, hqn, end_, deref, load, hcell, hcellm,
                h1f, h2f, incr, hr]
            · rw [hiff]
              simp [h1f, h2f]

theorem lex_literal_cons {β : Type} (lt : β → β → Bool) (x y : β) (u v : List β) :
    ((∃ i, ∃ (h1 : i < (x :: u).length) (h2 : i < (y :: v).length),
          (x :: u).take i = (y :: v).take i ∧ lt (x :: u)[i] (y :: v)[i] = true) ∨
        ((x :: u) <+: (y :: v) ∧ (x :: u).length < (y :: v).length)) ↔
      (lt x y = true ∨ (x = y ∧
        ((∃ i, ∃ (h1 : i < u.length) (h2 : i < v.length),
            u.take i = v.take i ∧ lt u[i] v[i] = true) ∨
          (u <+: v ∧ u.length < v.length)))) := by
  constructor
  · rintro (⟨i, h1, h2, ht, hlt⟩ | ⟨hpre, hlen⟩)
    · cases i with
      | zero => exact Or.inl (by simpa using hlt)
      | succ j =>
        simp only [List.take_succ_cons, List.cons.injEq] at ht
        refine Or.inr ⟨ht.1, Or.inl ⟨j, ?_, ?_, ht.2, ?_⟩⟩
        · simpa using h1
        · simpa using h2
        · simpa using hlt
    · rw [List.cons_prefix_cons] at hpre
      exact Or.inr ⟨hpre.1, Or.inr ⟨hpre.2, by simpa using hlen⟩⟩
  · rintro (hab | ⟨rfl, ⟨i, h1, h2, ht, hlt⟩ | ⟨hpre, hlen⟩⟩)
    · exact Or.inl ⟨0, by simp, by simp, by simp, by simpa using hab⟩
    · refine Or.inl ⟨i + 1, by simpa using h1, by simpa using h2, ?_, ?_⟩
      · simp [ht]
      · simpa using hlt
    · refine Or.inr ⟨?_, by simpa using hlen⟩
      rw [List.cons_prefix_cons]
      exact ⟨rfl, hpre⟩

/-- When the element `operator<` is irreflexive and two elements neither of which is
less than the other are equal, `std::lexicographical_compare` is the comparison in the
usual words: a first index where the sequences differ, or a proper prefix. -/
theorem std_lexicographical_compare_literal (lt : α → α → Bool)
    (hirr : ∀ a, lt a a = false) (htot : ∀ a b, lt a b = false → lt b a = false → a = b)
    {h : Heap α} (lhs rhs : SingleLinkedList α) (xs : List (Nat × α)) :
    ∀ (ys : List (Nat × α)) (p q : NodePtr) (fuel : Nat), Chain h p xs → Chain h q ys →
      min xs.length ys.length < fuel →
      ∃ r, std_lexicographical_compare lt h lhs rhs fuel p q = Except.ok r ∧
        (r = true ↔
          ((∃ i, ∃ (h1 : i < (values xs).length) (h2 : i < (values ys).length),
              (values xs).take i = (values ys).take i ∧
                lt (values xs)[i] (values ys)[i] = true) ∨
            (values xs <+: values ys ∧ (values xs).length < (values ys).length))) := by
  induction xs with
  | nil =>
    intro ys p q fuel hp hq hf
    have hpn := (chain_nil h p).1 hp
    cases fuel with
    | zero => simp at hf
    | succ f =>
      cases ys with
      | nil =>
        have hqn := (chain_nil h q).1 hq
        refine ⟨false, by simp [std_lexicographical_compare, hpn, hqn, end_], ?_⟩
        simp [values]
      | cons m rest =>
        have hqn := chain_start hq
        refine ⟨true, by simp [std_lexicographical_compare, hpn, hqn, end_], ?_⟩
        simp [values]
  | cons n xs1 ih =>
    intro ys p q fuel hp hq hf
    obtain ⟨hpn, nx, hcell, hrest⟩ := (chain_cons h p n xs1).1 hp
    cases fuel with
    | zero => simp at hf
    | succ f =>
      cases ys with
      | nil =>
        have hqn := (chain_nil h q).1 hq
        refine ⟨false, by simp [std_lexicographical_compare, hpn, hqn, end_], ?_⟩
        simp [values]
      | cons m ys1 =>
        obtain ⟨hqn, mx, hcellm, hrestm⟩ := (chain_cons h q m ys1).1 hq
        have hf1 : min xs1.length ys1.length < f := by
          simp only [List.length_cons] at hf
          omega
        obtain ⟨r, hr, hiff⟩ := ih ys1 nx mx f hrest hrestm hf1
        have hval : values (n :: xs1) = n.2 :: values xs1 := rfl
        have hvalm : values (m :: ys1) = m.2 :: values ys1 := rfl
        rw [hval, hvalm, lex_literal_cons]
        by_cases h1 : lt n.2 m.2 = true
        · refine ⟨true, ?_, by simp [h1]⟩
          simp [std_lexicographical_compare, hpn, hqn, end_, deref, load, hcell, hcellm, h1]
        · have h1f : lt n.2 m.2 = false := by simpa using h1
          by_cases h2 : lt m.2 n.2 = true
          · refine ⟨false, ?_, ?_⟩
            · simp [std_lexicographical_compare, hpn, hqn, end_, deref, load, hcell, hcellm,
                h1f, h2]
            · have hne : n.2 ≠ m.2 := by
                intro e
                rw [e, hirr] at h2
                cases h2
              simp [h1f, hne]
          · have h2f : lt m.2 n.2 = false := by simpa using h2
            have heq : n.2 = m.2 := htot _ _ h1f h2f
            refine ⟨r, ?_, ?_⟩
            · simp [std_lexicographical_compare, hpn, hqn, end_, deref, load, hcell, hcellm,
                h1f, h2f, incr, hr]
            · rw [hiff]
              simp [heq, hirr]

/-- C3: for every element `operator<` and every two well-formed lists, `operator<(A, B)`
returns (the loop ends within `min (len A) (len B) + 1` tests) and is the standard
lexicographical comparison: it returns `true` iff at the first index where the two
sequences differ (one element is less than the other) `A[i] < B[i]`, or the sequences
never differ and `A` is the shorter. When `<` is irreflexive and elements neither of
which is less than the other are equal, that reads: iff there is an index `i` with
`take i A = take i B` and `A[i] < B[i]`, or `A` is a proper prefix of `B`. With an
irreflexive `<`, a proper prefix `B` of `A` has `B < A` and not `A < B`. -/
theorem opLt_lexicographical (lt : α → α → Bool) {h : Heap α} {A B : SingleLinkedList α}
    {xs ys : List (Nat × α)} (hA : Represents h A xs) (hB : Represents h B ys)
    (fuel : Nat) (hf : min xs.length ys.length < fuel) :
    (∃ r, opLt lt fuel h A B = Except.ok r ∧
        (r = true ↔
          ((∃ i a b, (values xs)[i]? = some a ∧ (values ys)[i]? = some b ∧ lt a b = true ∧
              ∀ (j : Nat) c d, j < i → (values xs)[j]? = some c → (values ys)[j]? = some d →
                lt c d = false ∧ lt d c = false) ∨
            ((values xs).length < (values ys).length ∧
              ∀ (j : Nat) c d, (values xs)[j]? = some c → (values ys)[j]? = some d →
                lt c d = false ∧ lt d c = false)))) ∧
    ((∀ a, lt a a = false) → (∀ a b, lt a b = false → lt b a = false → a = b) →
      ∃ r, opLt lt fuel h A B = Except.ok r ∧
        (r = true ↔
          ((∃ i, ∃ (h1 : i < (values xs).length) (h2 : i < (values ys).length),
              (values xs).take i = (values ys).take i ∧
                lt (values xs)[i] (values ys)[i] = true) ∨
            (values xs <+: values ys ∧ (values xs).length < (values ys).length)))) ∧
    ((∀ a, lt a a = false) → values ys <+: values xs →
      (values ys).length < (values xs).length →
        opLt lt fuel h B A = Except.ok true ∧ opLt lt fuel h A B = Except.ok false) := by
  refine ⟨?_, ?_, ?_⟩
  · exact std_lexicographical_compare_general lt A B xs ys (begin_ A) (begin_ B) fuel
      hA.chain hB.chain hf
  · intro hirr htot
    exact std_lexicographical_compare_literal lt hirr htot A B xs ys (begin_ A) (begin_ B)
      fuel hA.chain hB.chain hf
  · intro hirr hpre hlen
    obtain ⟨t, ht⟩ := hpre
    have hsame : ∀ (j : Nat) c d, (values ys)[j]? = some c → (values xs)[j]? = some d →
        c = d := by
      intro j c d hc hd
      have hj : j < (values ys).length := (List.getElem?_eq_some.1 hc).1
      rw [← ht, List.getElem?_append_left hj, hc] at hd
      exact Option.some.inj hd
    obtain ⟨r1, hr1, hiff1⟩ := std_lexicographical_compare_general lt B A ys xs (begin_ B)
      (begin_ A) fuel hB.chain hA.chain (by rw [Nat.min_comm]; exact hf)
    obtain ⟨r2, hr2, hiff2⟩ := std_lexicographical_compare_general lt A B xs ys (begin_ A)
      (begin_ B) fuel hA.chain hB.chain hf
    have h1 : r1 = true := by
      refine hiff1.2 (Or.inr ⟨hlen, ?_⟩)
      intro j c d hc hd
      have e := hsame j c d hc hd
      subst e
      exact ⟨hirr c, hirr c⟩
    have h2 : r2 = false := by
      cases hb : r2 with
      | false => rfl
      | true =>
        exfalso
        rcases hiff2.1 hb with ⟨i, a, b, ha, hb2, hlt, -⟩ | ⟨hl2, -⟩
        · have e := hsame i b a hb2 ha
          subst e
          rw [hirr] at hlt
          cases hlt
        · omega
    have e1 : opLt lt fuel h B A = Except.ok r1 := hr1
    have e2 : opLt lt fuel h A B = Except.ok r2 := hr2
    rw [e1, e2, h1, h2]
    exact ⟨rfl, rfl⟩

theorem listK_built :
    fromInitializerList ([] : Heap (Nat × Nat)) [(1, 0), (5, 0)] =
        Except.ok (heapK.take 2, listKA) ∧
      fromInitializerList (heapK.take 2) [(1, 1), (9, 0)] = Except.ok (heapK, listKB) :=
  ⟨rfl, rfl⟩

theorem listKA_represents : Represents heapK listKA nodesKA :=
  ⟨by simp [Chain, heapK, listKA, nodesKA], rfl, small_lt_SIZE_MOD (by decide)⟩

theorem listKB_represents : Represents heapK listKB nodesKB :=
  ⟨by simp [Chain, heapK, listKB, nodesKB], rfl, small_lt_SIZE_MOD (by decide)⟩

theorem opLt_lexicographical_witness :
    Represents heapK listKA nodesKA ∧ Represents heapK listKB nodesKB ∧
      min nodesKA.length nodesKB.length < 3 ∧
      opLt keyLt 3 heapK listKA listKB = Except.ok true ∧
      (∃ r, opLt keyLt 3 heapK listKA listKB = Except.ok r ∧
        (r = true ↔
          ((∃ i a b, (values nodesKA)[i]? = some a ∧ (values nodesKB)[i]? = some b ∧
              keyLt a b = true ∧
              ∀ (j : Nat) c d, j < i → (values nodesKA)[j]? = some c →
                (values nodesKB)[j]? = some d → keyLt c d = false ∧ keyLt d c = false) ∨
            ((values nodesKA).length < (values nodesKB).length ∧
              ∀ (j : Nat) c d, (values nodesKA)[j]? = some c →
                (values nodesKB)[j]? = some d → keyLt c d = false ∧ keyLt d c = false)))) ∧
    Represents heapAB listA nodesA ∧ Represents heapAB listB nodesB ∧
      min nodesA.length nodesB.length < 3 ∧ (∀ a : Nat, decide (a < a) = false) ∧
      (∀ a b : Nat, decide (a < b) = false → decide (b < a) = false → a = b) ∧
      values nodesB <+: values nodesA ∧
      (values nodesB).length < (values nodesA).length ∧
      (∃ r, opLt (fun a b => decide (a < b)) 3 heapAB listA listB = Except.ok r ∧
        (r = true ↔
          ((∃ i, ∃ (h1 : i < (values nodesA).length) (h2 : i < (values nodesB).length),
              (values nodesA).take i = (values nodesB).take i ∧
                decide ((values nodesA)[i] < (values nodesB)[i]) = true) ∨
            (values nodesA <+: values nodesB ∧
              (values nodesA).length < (values nodesB).length)))) ∧
      opLt (fun a b => decide (a < b)) 3 heapAB listB listA = Except.ok true ∧
      opLt (fun a b => decide (a < b)) 3 heapAB listA listB = Except.ok false :=
  ⟨listKA_represents, listKB_represents, by decide, rfl,
    (opLt_lexicographical keyLt listKA_represents listKB_represents 3 (by decide)).1,
    listA_represents_AB, listB_represents, by decide, fun a => by simp,
    fun a b h1 h2 => by
      simp only [decide_eq_false_iff_not, not_lt] at h1 h2
      omega,
    by decide, by decide,
    (opLt_lexicographical (fun a b => decide (a < b)) listA_represents_AB listB_represents 3
      (by decide)).2.1 (fun a => by simp) (fun a b h1 h2 => by
        simp only [decide_eq_false_iff_not, not_lt] at h1 h2
        omega),
    (opLt_lexicographical (fun a b => decide (a < b)) listA_represents_AB listB_represents 3
      (by decide)).2.2 (fun a => by simp) (by decide) (by decide)⟩

theorem values_take_drop (ns : List (Nat × α)) (k : Nat) (n : Nat × α) :
    values (ns.take k ++ n :: ns.drop k) = (values ns).take k ++ n.2 :: (values ns).drop k := by
  simp [values, List.map_take, List.map_drop]

theorem values_eraseIdx (ns : List (Nat × α)) (k : Nat) :
    values (ns.eraseIdx k) = (values ns).eraseIdx k := by
  simp [values, List.eraseIdx_eq_take_drop_succ, List.map_take, List.map_drop]

theorem iterate_represents {h : Heap α} {l : SingleLinkedList α} {ns : List (Nat × α)}
    (hr : Represents h l ns) : iterate h l (ns.length + 1) (begin_ l) = Except.ok (values ns) :=
  iterate_chain l hr.chain _ (Nat.lt_succ_self _)

/-- C4: on a list holding `xs`, with a cursor at the sentinel (`k = 0`) or at the real
node of index `i` (`k = i + 1`), `InsertAfter(cursor, v)` succeeds, the list then holds
`xs` with `v` inserted at index `k` and every other node where it was, `GetSize()` has
grown by exactly one, and the returned cursor references the new node. -/
theorem InsertAfter_spec {h : Heap α} {l : SingleLinkedList α} {ns : List (Nat × α)}
    (hr : Represents h l ns) (k : Nat) (hk : k ≤ ns.length)
    (hroom : ns.length + 1 < SIZE_MOD) (v : α) :
    ∃ h1 l1 a, InsertAfter h l (cursorAt ns k) v = Except.ok (h1, l1, NodePtr.heap a) ∧
      Represents h1 l1 (ns.take k ++ (a, v) :: ns.drop k) ∧
      iterate h1 l1 (ns.length + 2) (begin_ l1) =
        Except.ok ((values ns).take k ++ v :: (values ns).drop k) ∧
      GetSize l1 = GetSize l + 1 ∧
      cursorAt (ns.take k ++ (a, v) :: ns.drop k) (k + 1) = NodePtr.heap a ∧
      deref h1 l1 (NodePtr.heap a) = Except.ok v := by
  obtain ⟨h1, l1, hres, hrep, hsz, -, -⟩ := InsertAfter_at hr k hk hroom v
  refine ⟨h1, l1, h.length, hres, hrep, ?_, hsz, ?_, ?_⟩
  · have := iterate_represents hrep
    rw [values_take_drop] at this
    have hlen : (ns.take k ++ (h.length, v) :: ns.drop k).length + 1 = ns.length + 2 := by
      simp only [List.length_append, List.length_take, List.length_cons, List.length_drop]
      omega
    rw [hlen] at this
    exact this
  · have hlen : (ns.take k).length = k := by simp [hk]
    simp only [cursorAt]
    rw [List.getElem?_append_right (by omega), hlen]
    simp
  · obtain ⟨nx, hcell, -⟩ := chain_cell hrep.chain
    simp [deref, load, hcell]

theorem InsertAfter_spec_witness :
    Represents heapA listA nodesA ∧ 2 ≤ nodesA.length ∧ nodesA.length + 1 < SIZE_MOD ∧
      ∃ h1 l1 a, InsertAfter heapA listA (cursorAt nodesA 2) 9 =
          Except.ok (h1, l1, NodePtr.heap a) ∧
        Represents h1 l1 (nodesA.take 2 ++ (a, 9) :: nodesA.drop 2) ∧
        iterate h1 l1 (nodesA.length + 2) (begin_ l1) =
          Except.ok ((values nodesA).take 2 ++ 9 :: (values nodesA).drop 2) ∧
        GetSize l1 = GetSize listA + 1 ∧
        cursorAt (nodesA.take 2 ++ (a, 9) :: nodesA.drop 2) (2 + 1) = NodePtr.heap a ∧
        deref h1 l1 (NodePtr.heap a) = Except.ok 9 :=
  ⟨listA_represents, by decide, small_lt_SIZE_MOD (by decide),
    InsertAfter_spec listA_represents 2 (by decide) (small_lt_SIZE_MOD (by decide)) 9⟩

/-- C5: on a list holding `xs`, with a cursor at the sentinel (`k = 0`) or at the real
node of index `i` (`k = i + 1`) whose node has a successor, `EraseAfter(cursor)`
succeeds, removes exactly that successor (the node of index `k`) and leaves every other
node where it was, `GetSize()` has dropped by exactly one, and the returned cursor
references the node that followed the removed one, or is `end()` if there was none.
On `{1, 2, 3, 4, 5}` with the cursor at the node holding `2`: the list becomes
`{1, 2, 4, 5}`, of size `4`, and the returned cursor references the node holding `4`. -/
theorem EraseAfter_spec {h : Heap α} {l : SingleLinkedList α} {ns : List (Nat × α)}
    (hr : Represents h l ns) (k : Nat) (hk : k < ns.length) :
    (∃ h1 l1, EraseAfter h l (cursorAt ns k) = Except.ok (h1, l1, nodeCursor ns (k + 1)) ∧
      Represents h1 l1 (ns.eraseIdx k) ∧
      iterate h1 l1 ns.length (begin_ l1) = Except.ok ((values ns).eraseIdx k) ∧
      GetSize l1 + 1 = GetSize l ∧
      nodeCursor ns (k + 1) = nodeCursor (ns.eraseIdx k) k) ∧
    (fromInitializerList ([] : Heap Nat) [1, 2, 3, 4, 5] = Except.ok (heapC, listC) ∧
      deref heapC listC (NodePtr.heap 1) = Except.ok 2 ∧
      ∃ h1 l1, EraseAfter heapC listC (NodePtr.heap 1) = Except.ok (h1, l1, NodePtr.heap 3) ∧
        iterate h1 l1 5 (begin_ l1) = Except.ok [1, 2, 4, 5] ∧ GetSize l1 = 4 ∧
        deref h1 l1 (NodePtr.heap 3) = Except.ok 4) := by
  refine ⟨?_, rfl, rfl, _, _, rfl, rfl, rfl, rfl⟩
  obtain ⟨h1, l1, hres, hrep, hsz, -, -⟩ := EraseAfter_at hr k hk
  rw [← List.eraseIdx_eq_take_drop_succ] at hrep
  refine ⟨h1, l1, hres, hrep, ?_, hsz, ?_⟩
  · have := iterate_represents hrep
    rw [values_eraseIdx] at this
    have hlen : (ns.eraseIdx k).length + 1 = ns.length := by
      rw [List.length_eraseIdx_of_lt hk]
      omega
    rw [hlen] at this
    exact this
  · simp only [nodeCursor]
    rw [List.getElem?_eraseIdx]
    simp

theorem EraseAfter_spec_witness :
    Represents heapC listC nodesC ∧ 2 < nodesC.length ∧
      ∃ h1 l1, EraseAfter heapC listC (cursorAt nodesC 2) =
          Except.ok (h1, l1, nodeCursor nodesC (2 + 1)) ∧
        Represents h1 l1 (nodesC.eraseIdx 2) ∧
        iterate h1 l1 nodesC.length (begin_ l1) = Except.ok ((values nodesC).eraseIdx 2) ∧
        GetSize l1 + 1 = GetSize listC ∧
        nodeCursor nodesC (2 + 1) = nodeCursor (nodesC.eraseIdx 2) 2 :=
  ⟨listC_represents, by decide, (EraseAfter_spec listC_represents 2 (by decide)).1⟩

/-- C6 (the code departs from it): on the list `{1}` with the cursor at its only, hence
last, real node, the assertion `pos != end()` holds and the list is not empty, so
`EraseAfter` reads `to_Delete->next_node` with `to_Delete == nullptr`. Only on the empty
list (cursor at the sentinel) is a missing successor handled: nothing changes and `end()`
is returned. -/
theorem EraseAfter_last_node_null_deref :
    fromInitializerList ([] : Heap Nat) [1] = Except.ok (heapD, listD) ∧
      cursorAt nodesD 1 = NodePtr.heap 0 ∧ NodePtr.heap 0 ≠ end_ ∧
      deref heapD listD (NodePtr.heap 0) = Except.ok 1 ∧
      load heapD listD (NodePtr.heap 0) = Except.ok ⟨1, NodePtr.null⟩ ∧
      EraseAfter heapD listD (NodePtr.heap 0) = Except.error Fault.nullDeref ∧
      EraseAfter ([] : Heap Nat) (mkEmpty : SingleLinkedList Nat) before_begin =
        Except.ok ([], mkEmpty, end_) := by
  refine ⟨rfl, rfl, by decide, rfl, rfl, rfl, rfl⟩

/-- C7: on a list holding `xs`, `PushFront(v)` leaves a list holding `v` followed by
`xs` (the new node is the first one, the old nodes are where they were, in order) and
`GetSize()` has grown by exactly one. -/
theorem PushFront_spec {h : Heap α} {l : SingleLinkedList α} {ns : List (Nat × α)}
    (hr : Represents h l ns) (hroom : ns.length + 1 < SIZE_MOD) (v : α) :
    ∃ a, begin_ (PushFront h l v).2 = NodePtr.heap a ∧
      Represents (PushFront h l v).1 (PushFront h l v).2 ((a, v) :: ns) ∧
      iterate (PushFront h l v).1 (PushFront h l v).2 (ns.length + 2)
        (begin_ (PushFront h l v).2) = Except.ok (v :: values ns) ∧
      GetSize (PushFront h l v).2 = GetSize l + 1 := by
  have hrep := PushFront_represents hr hroom v
  refine ⟨h.length, rfl, hrep, iterate_represents hrep, ?_⟩
  simp only [GetSize, PushFront]
  rw [hr.size, incSize_eq hroom]

theorem PushFront_spec_witness :
    Represents heapA listA nodesA ∧ nodesA.length + 1 < SIZE_MOD ∧
      ∃ a, begin_ (PushFront heapA listA 9).2 = NodePtr.heap a ∧
        Represents (PushFront heapA listA 9).1 (PushFront heapA listA 9).2 ((a, 9) :: nodesA) ∧
        iterate (PushFront heapA listA 9).1 (PushFront heapA listA 9).2 (nodesA.length + 2)
          (begin_ (PushFront heapA listA 9).2) = Except.ok (9 :: values nodesA) ∧
        GetSize (PushFront heapA listA 9).2 = GetSize listA + 1 :=
  ⟨listA_represents, small_lt_SIZE_MOD (by decide),
    PushFront_spec listA_represents (small_lt_SIZE_MOD (by decide)) 9⟩

/-- C8: on a non-empty list holding `x` followed by `rest`, the assertion of `PopFront()`
holds, `PopFront()` succeeds and leaves a list holding exactly `rest` (the other nodes
are where they were, in order), and `GetSize()` has dropped by exactly one. -/
theorem PopFront_spec {h : Heap α} {l : SingleLinkedList α} {n : Nat × α}
    {rest : List (Nat × α)} (hr : Represents h l (n :: rest)) :
    IsEmpty l = false ∧
      ∃ h1 l1, PopFront h l = Except.ok (h1, l1) ∧ Represents h1 l1 rest ∧
        iterate h1 l1 (rest.length + 1) (begin_ l1) = Except.ok (values rest) ∧
        GetSize l1 + 1 = GetSize l := by
  obtain ⟨nx, -, hres, hrep⟩ := PopFront_represents hr
  have hb := hr.bound
  simp only [List.length_cons] at hb
  refine ⟨?_, _, _, hres, hrep, iterate_represents hrep, ?_⟩
  · cases hb1 : IsEmpty l with
    | false => rfl
    | true =>
      have := (isEmpty_iff hr).1 hb1
      simp at this
  · simp only [GetSize]
    rw [hr.size, List.length_cons, decSize_succ hb]

theorem PopFront_spec_witness :
    Represents heapA listA ((0, 1) :: [(1, 2), (2, 3)]) ∧ IsEmpty listA = false ∧
      ∃ h1 l1, PopFront heapA listA = Except.ok (h1, l1) ∧
        Represents h1 l1 [(1, 2), (2, 3)] ∧
        iterate h1 l1 ([(1, 2), (2, 3)].length + 1) (begin_ l1) =
          Except.ok (values [(1, 2), (2, 3)]) ∧
        GetSize l1 + 1 = GetSize listA :=
  ⟨listA_represents, PopFront_spec listA_represents⟩

/-- C9: on every well-formed list `L` (the empty one included) and for every `v`,
`PushFront(v)` followed by `PopFront()` succeeds and leaves the object `L` as it was
(same `head_`, same `size_`), holding the same nodes in the same order. -/
theorem PushFront_PopFront_roundtrip {h : Heap α} {l : SingleLinkedList α}
    {ns : List (Nat × α)} (hr : Represents h l ns) (v : α) :
    ∃ h2, PopFront (PushFront h l v).1 (PushFront h l v).2 = Except.ok (h2, l) ∧
      Represents h2 l ns ∧
      iterate h2 l (ns.length + 1) (begin_ l) = Except.ok (values ns) ∧
      GetSize l = ns.length := by
  have hsz : l.size_ < SIZE_MOD := by
    rw [hr.size]
    exact hr.bound
  have hcell : (h ++ [some (Node.mk v l.head_.next_node)])[h.length]? =
      some (some (Node.mk v l.head_.next_node)) := by simp
  have hrep : Represents ((h ++ [some (Node.mk v l.head_.next_node)]).set h.length none) l ns :=
    ⟨chain_set_heap (chain_append_heap hr.chain _) _ _ (not_mem_addrs_of_chain hr.chain),
      hr.size, hr.bound⟩
  refine ⟨(h ++ [some (Node.mk v l.head_.next_node)]).set h.length none, ?_, hrep,
    iterate_represents hrep, hr.size⟩
  simp [PopFront, PushFront, allocNode, IsEmpty, load, deleteNode, decSize_incSize hsz]

theorem PushFront_PopFront_roundtrip_witness :
    Represents ([] : Heap Nat) (mkEmpty : SingleLinkedList Nat) [] ∧
      ∃ h2, PopFront (PushFront ([] : Heap Nat) (mkEmpty : SingleLinkedList Nat) 9).1
          (PushFront ([] : Heap Nat) (mkEmpty : SingleLinkedList Nat) 9).2 =
          Except.ok (h2, (mkEmpty : SingleLinkedList Nat)) ∧
        Represents h2 (mkEmpty : SingleLinkedList Nat) [] ∧
        iterate h2 (mkEmpty : SingleLinkedList Nat) (([] : List (Nat × Nat)).length + 1)
          (begin_ (mkEmpty : SingleLinkedList Nat)) = Except.ok (values []) ∧
        GetSize (mkEmpty : SingleLinkedList Nat) = ([] : List (Nat × Nat)).length :=
  ⟨mkEmpty_represents [], PushFront_PopFront_roundtrip (mkEmpty_represents []) 9⟩

/-- C10: for every well-formed list `S`, copy-constructing from `S` succeeds (the loop
ends within `len S + 1` tests) and builds a list with the same element sequence in the
same order and the same `GetSize()`, and `S` still holds the same nodes with the same
`GetSize()`. -/
theorem copyConstruct_spec [Inhabited α] {h : Heap α} {S : SingleLinkedList α}
    {ns : List (Nat × α)} (hr : Represents h S ns) (fuel : Nat) (hf : ns.length < fuel) :
    ∃ h1 c cs, copyConstruct fuel h S = Except.ok (h1, c) ∧
      Represents h1 c cs ∧ values cs = values ns ∧
      iterate h1 c (ns.length + 1) (begin_ c) = Except.ok (values ns) ∧
      GetSize c = GetSize S ∧
      Represents h1 S ns ∧
      iterate h1 S (ns.length + 1) (begin_ S) = Except.ok (values ns) := by
  have hr0 : Represents h (mkEmpty : SingleLinkedList α) [] := mkEmpty_represents h
  have hb := hr.bound
  obtain ⟨h1, c, cs, hres, hrep, hvals, -, -, hframe⟩ :=
    copyLoop_spec S ns fuel hr.chain hr0 (by simp [addrs]) hf (by simpa using hb)
  have hrep1 : Represents h1 c cs := by simpa using hrep
  have hlen : cs.length = ns.length := by
    have := congrArg List.length hvals
    simpa [values] using this
  have hS : Represents h1 S ns :=
    ⟨hframe _ _ hr.chain (by simp [addrs]), hr.size, hr.bound⟩
  refine ⟨h1, c, cs, ?_, hrep1, hvals, ?_, ?_, hS, iterate_represents hS⟩
  · simp only [copyConstruct, ListInitializationFrom, mkEmpty, and_self, if_true]
    exact hres
  · have := iterate_represents hrep1
    rw [hlen, hvals] at this
    exact this
  · simp only [GetSize]
    rw [hrep1.size, hr.size, hlen]

theorem copyConstruct_spec_witness :
    Represents heapA listA nodesA ∧ nodesA.length < 4 ∧
      ∃ h1 c cs, copyConstruct 4 heapA listA = Except.ok (h1, c) ∧
        Represents h1 c cs ∧ values cs = values nodesA ∧
        iterate h1 c (nodesA.length + 1) (begin_ c) = Except.ok (values nodesA) ∧
        GetSize c = GetSize listA ∧
        Represents h1 listA nodesA ∧
        iterate h1 listA (nodesA.length + 1) (begin_ listA) = Except.ok (values nodesA) :=
  ⟨listA_represents, by decide, copyConstruct_spec listA_represents 4 (by decide)⟩

/-! ## More on the comparisons -/

theorem std_lexicographical_compare_returns (lt : α → α → Bool) {h : Heap α}
    (lhs rhs : SingleLinkedList α) (xs : List (Nat × α)) :
    ∀ (ys : List (Nat × α)) (p q : NodePtr) (fuel : Nat), Chain h p xs → Chain h q ys →
      min xs.length ys.length < fuel →
      ∃ b, std_lexicographical_compare lt h lhs rhs fuel p q = Except.ok b := by
  induction xs with
  | nil =>
    intro ys p q fuel hp hq hf
    have hpn := (chain_nil h p).1 hp
    cases fuel with
    | zero => simp at hf
    | succ f =>
      exact ⟨decide (q ≠ NodePtr.null), by simp [std_lexicographical_compare, hpn, end_]⟩
  | cons n xs1 ih =>
    intro ys p q fuel hp hq hf
    obtain ⟨hpn, nx, hcell, hrest⟩ := (chain_cons h p n xs1).1 hp
    cases fuel with
    | zero => simp at hf
    | succ f =>
      cases ys with
      | nil =>
        have hqn := (chain_nil h q).1 hq
        exact ⟨false, by simp [std_lexicographical_compare, hpn, hqn, end_]⟩
      | cons m ys1 =>
        obtain ⟨hqn, mx, hcellm, hrestm⟩ := (chain_cons h q m ys1).1 hq
        have hf1 : min xs1.length ys1.length < f := by
          simp only [List.length_cons] at hf
          omega
        obtain ⟨b, hb⟩ := ih ys1 nx mx f hrest hrestm hf1
        by_cases h1 : lt n.2 m.2 = true
        · exact ⟨true, by
            simp [std_lexicographical_compare, hpn, hqn, end_, deref, load, hcell, hcellm, h1]⟩
        · by_cases h2 : lt m.2 n.2 = true
          · exact ⟨false, by
              simp [std_lexicographical_compare, hpn, hqn, end_, deref, load, hcell, hcellm,
                h1, h2]⟩
          · exact ⟨b, by
              simp [std_lexicographical_compare, hpn, hqn, end_, deref, load, hcell, hcellm,
                h1, h2, incr, hb]⟩

/-- On two chains that carry the same values, with an irreflexive `lt`, the comparison
returns `false`. -/
theorem std_lexicographical_compare_same (lt : α → α → Bool) (hirr : ∀ a, lt a a = false)
    {h : Heap α} (lhs rhs : SingleLinkedList α) (xs : List (Nat × α)) :
    ∀ (ys : List (Nat × α)) (p q : NodePtr) (fuel : Nat), Chain h p xs → Chain h q ys →
      values xs = values ys → xs.length < fuel →
      std_lexicographical_compare lt h lhs rhs fuel p q = Except.ok false := by
  induction xs with
  | nil =>
    intro ys p q fuel hp hq hv hf
    have hys : ys = [] := by
      cases ys with
      | nil => rfl
      | cons m r => simp [values] at hv
    subst hys
    have hpn := (chain_nil h p).1 hp
    have hqn := (chain_nil h q).1 hq
    cases fuel with
    | zero => simp at hf
    | succ f => simp [std_lexicographical_compare, hpn, hqn, end_]
  | cons n xs1 ih =>
    intro ys p q fuel hp hq hv hf
    cases ys with
    | nil => simp [values] at hv
    | cons m ys1 =>
      obtain ⟨hpn, nx, hcell, hrest⟩ := (chain_cons h p n xs1).1 hp
      obtain ⟨hqn, mx, hcellm, hrestm⟩ := (chain_cons h q m ys1).1 hq
      simp only [values, List.map_cons, List.cons.injEq] at hv
      cases fuel with
      | zero => simp at hf
      | succ f =>
        have hf1 : xs1.length < f := by simpa using hf
        have hrec := ih ys1 nx mx f hrest hrestm hv.2 hf1
        have h1 : lt n.2 m.2 = false := by rw [hv.1]; exact hirr _
        have h2 : lt m.2 n.2 = false := by rw [hv.1]; exact hirr _
        simp [std_lexicographical_compare, hpn, hqn, end_, deref, load, hcell, hcellm, h1, h2,
          incr, hrec]

/-- On two chains that carry the same values, with a reflexive `==`, `std::equal`
returns `true`. -/
theorem std_equal_same [BEq α] (hrefl : ∀ a : α, (a == a) = true) {h : Heap α}
    (lhs rhs : SingleLinkedList α) (xs : List (Nat × α)) :
    ∀ (ys : List (Nat × α)) (p q : NodePtr) (fuel : Nat), Chain h p xs → Chain h q ys →
      values xs = values ys → xs.length < fuel →
      std_equal h lhs rhs fuel p q = Except.ok true := by
  induction xs with
  | nil =>
    intro ys p q fuel hp hq hv hf
    have hpn := (chain_nil h p).1 hp
    cases fuel with
    | zero => simp at hf
    | succ f => simp [std_equal, hpn, end_]
  | cons n xs1 ih =>
    intro ys p q fuel hp hq hv hf
    cases ys with
    | nil => simp [values] at hv
    | cons m ys1 =>
      obtain ⟨hpn, nx, hcell, hrest⟩ := (chain_cons h p n xs1).1 hp
      obtain ⟨hqn, mx, hcellm, hrestm⟩ := (chain_cons h q m ys1).1 hq
      simp only [values, List.map_cons, List.cons.injEq] at hv
      cases fuel with
      | zero => simp at hf
      | succ f =>
        have hf1 : xs1.length < f := by simpa using hf
        have hrec := ih ys1 nx mx f hrest hrestm hv.2 hf1
        have h1 : (n.2 == m.2) = true := by rw [hv.1]; exact hrefl _
        simp [std_equal, hpn, hqn, end_, deref, load, hcell, hcellm, h1, incr, hrec]

/-- Both orders of the comparison at once, over a linear order: exactly one of
`A < B`, `B < A`, same values. -/
theorem std_lexicographical_compare_trichotomy [LinearOrder α] {h : Heap α}
    (lhs rhs : SingleLinkedList α) (xs : List (Nat × α)) :
    ∀ (ys : List (Nat × α)) (p q : NodePtr) (fuel : Nat), Chain h p xs → Chain h q ys →
      min xs.length ys.length < fuel →
      ∃ ab ba,
        std_lexicographical_compare (fun a b => decide (a < b)) h lhs rhs fuel p q =
          Except.ok ab ∧
        std_lexicographical_compare (fun a b => decide (a < b)) h rhs lhs fuel q p =
          Except.ok ba ∧
        ((ab = true ∧ ba = false ∧ values xs ≠ values ys) ∨
          (ab = false ∧ ba = true ∧ values xs ≠ values ys) ∨
          (ab = false ∧ ba = false ∧ values xs = values ys)) := by
  induction xs with
  | nil =>
    intro ys p q fuel hp hq hf
    have hpn := (chain_nil h p).1 hp
    cases fuel with
    | zero => simp at hf
    | succ f =>
      cases ys with
      | nil =>
        have hqn := (chain_nil h q).1 hq
        exact ⟨false, false, by simp [std_lexicographical_compare, hpn, hqn, end_],
          by simp [std_lexicographical_compare, hpn, hqn, end_], Or.inr (Or.inr ⟨rfl, rfl, rfl⟩)⟩
      | cons m rest =>
        have hqn := chain_start hq
        exact ⟨true, false, by simp [std_lexicographical_compare, hpn, hqn, end_],
          by simp [std_lexicographical_compare, hpn, hqn, end_],
          Or.inl ⟨rfl, rfl, by simp [values]⟩⟩
  | cons n xs1 ih =>
    intro ys p q fuel hp hq hf
    obtain ⟨hpn, nx, hcell, hrest⟩ := (chain_cons h p n xs1).1 hp
    cases fuel with
    | zero => simp at hf
    | succ f =>
      cases ys with
      | nil =>
        have hqn := (chain_nil h q).1 hq
        exact ⟨false, true, by simp [std_lexicographical_compare, hpn, hqn, end_],
          by simp [std_lexicographical_compare, hpn, hqn, end_],
          Or.inr (Or.inl ⟨rfl, rfl, by simp [values]⟩)⟩
      | cons m ys1 =>
        obtain ⟨hqn, mx, hcellm, hrestm⟩ := (chain_cons h q m ys1).1 hq
        have hf1 : min xs1.length ys1.length < f := by
          simp only [List.length_cons] at hf
          omega
        obtain ⟨ab, ba, hab, hba, htri⟩ := ih ys1 nx mx f hrest hrestm hf1
        by_cases h1 : n.2 < m.2
        · have h2 : ¬ m.2 < n.2 := not_lt.2 (le_of_lt h1)
          refine ⟨true, false, ?_, ?_, Or.inl ⟨rfl, rfl, ?_⟩⟩
          · simp [std_lexicographical_compare, hpn, hqn, end_, deref, load, hcell, hcellm, h1]
          · simp [std_lexicographical_compare, hpn, hqn, end_, deref, load, hcell, hcellm,
              h1, h2]
          · intro e
            simp only [values, List.map_cons, List.cons.injEq] at e
            rw [e.1] at h1
            exact lt_irrefl _ h1
        · by_cases h2 : m.2 < n.2
          · refine ⟨false, true, ?_, ?_, Or.inr (Or.inl ⟨rfl, rfl, ?_⟩)⟩
            · simp [std_lexicographical_compare, hpn, hqn, end_, deref, load, hcell, hcellm,
                h1, h2]
            · simp [std_lexicographical_compare, hpn, hqn, end_, deref, load, hcell, hcellm,
                h2]
            · intro e
              simp only [values, List.map_cons, List.cons.injEq] at e
              rw [e.1] at h2
              exact lt_irrefl _ h2
          · have heq : n.2 = m.2 := le_antisymm (not_lt.1 h2) (not_lt.1 h1)
            refine ⟨ab, ba, ?_, ?_, ?_⟩
            · simp [std_lexicographical_compare, hpn, hqn, end_, deref, load, hcell, hcellm,
                h1, h2, incr, hab]
            · simp [std_lexicographical_compare, hpn, hqn, end_, deref, load, hcell, hcellm,
                h1, h2, incr, hba]
            · simp only [values, List.map_cons, List.cons.injEq, heq, true_and, ne_eq]
              exact htri

/-! ## Clear, swap and the assignment -/

theorem PopFront_chain {h : Heap α} {l : SingleLinkedList α} {n : Nat × α}
    {rest : List (Nat × α)} (hc : Chain h l.head_.next_node (n :: rest)) :
    ∃ nx, PopFront h l = Except.ok (h.set n.1 none,
        { head_ := { l.head_ with next_node := nx }, size_ := decSize l.size_ }) ∧
      Chain (h.set n.1 none) nx rest := by
  obtain ⟨hp, nx, hcell, hrest⟩ := (chain_cons h _ n rest).1 hc
  refine ⟨nx, ?_, chain_set_heap hrest _ _ (chain_head_not_mem hc)⟩
  simp [PopFront, IsEmpty, hp, load, hcell, deleteNode]

theorem Clear_spec (ns : List (Nat × α)) :
    ∀ {h : Heap α} {l : SingleLinkedList α} (fuel : Nat), Represents h l ns →
      ns.length < fuel →
      ∃ h1 l1, Clear fuel h l = Except.ok (h1, l1) ∧ Represents h1 l1 [] ∧
        h1.length = h.length ∧
        (∀ q fs, Chain h q fs → (∀ x ∈ addrs ns, x ∉ addrs fs) → Chain h1 q fs) := by
  induction ns with
  | nil =>
    intro h l fuel hr hf
    have he : IsEmpty l = true := (isEmpty_iff hr).2 rfl
    cases fuel with
    | zero => simp at hf
    | succ f => exact ⟨h, l, by simp [Clear, he], hr, rfl, fun q fs hq _ => hq⟩
  | cons n rest ih =>
    intro h l fuel hr hf
    have hne : IsEmpty l = false := by
      cases hb : IsEmpty l with
      | false => rfl
      | true =>
        have := (isEmpty_iff hr).1 hb
        simp at this
    cases fuel with
    | zero => simp at hf
    | succ f =>
      obtain ⟨nx, -, hres, hrep⟩ := PopFront_represents hr
      obtain ⟨h1, l1, hres1, hrep1, hlen1, hframe1⟩ := ih f hrep (by simpa using hf)
      refine ⟨h1, l1, ?_, hrep1, ?_, ?_⟩
      · simp only [Clear, hne, hres]
        simpa using hres1
      · rw [hlen1]
        simp
      · intro q fs hq hd
        apply hframe1 q fs
        · exact chain_set_heap hq _ _ (hd n.1 (by simp [addrs]))
        · intro x hx
          apply hd
          simp only [addrs, List.map_cons, List.mem_cons]
          exact Or.inr hx

/-- `Clear` deletes every node of the list and touches no other cell. -/
theorem Clear_frees (ns : List (Nat × α)) :
    ∀ {h : Heap α} {l : SingleLinkedList α} (fuel : Nat) {h1 : Heap α}
      {l1 : SingleLinkedList α}, Represents h l ns → Clear fuel h l = Except.ok (h1, l1) →
      (∀ x ∈ addrs ns, h1[x]? = some none) ∧ (∀ x, x ∉ addrs ns → h1[x]? = h[x]?) := by
  induction ns with
  | nil =>
    intro h l fuel h1 l1 hr hres
    have he : IsEmpty l = true := (isEmpty_iff hr).2 rfl
    cases fuel with
    | zero => simp [Clear] at hres
    | succ f =>
      simp only [Clear, he, Bool.not_true, Bool.false_eq_true, if_false, Except.ok.injEq,
        Prod.mk.injEq] at hres
      obtain ⟨rfl, -⟩ := hres
      exact ⟨by simp [addrs], fun _ _ => rfl⟩
  | cons n rest ih =>
    intro h l fuel h1 l1 hr hres
    have hne : IsEmpty l = false := by
      cases hb : IsEmpty l with
      | false => rfl
      | true =>
        have := (isEmpty_iff hr).1 hb
        simp at this
    cases fuel with
    | zero => simp [Clear] at hres
    | succ f =>
      obtain ⟨nx, hcell, hpop, hrep⟩ := PopFront_represents hr
      simp only [Clear, hne, hpop, Bool.not_false, if_true] at hres
      obtain ⟨hfreed, hkept⟩ := ih f hrep hres
      have hnot : n.1 ∉ addrs rest := chain_head_not_mem hr.chain
      have hlt : n.1 < h.length := (List.getElem?_eq_some.1 hcell).1
      constructor
      · intro x hx
        simp only [addrs, List.map_cons, List.mem_cons] at hx
        rcases hx with rfl | hx
        · rw [hkept _ hnot, List.getElem?_set_self hlt]
        · exact hfreed x hx
      · intro x hx
        have hx1 : x ≠ n.1 := by
          intro e
          apply hx
          simp [addrs, e]
        have hx2 : x ∉ addrs rest := by
          intro e
          apply hx
          simp only [addrs, List.map_cons, List.mem_cons]
          exact Or.inr e
        rw [hkept x hx2, List.getElem?_set_ne (Ne.symm hx1)]

theorem swap_represents {h : Heap α} {a b : SingleLinkedList α} {as bs : List (Nat × α)}
    (ha : Represents h a as) (hb : Represents h b bs) :
    Represents h (swap a b).1 bs ∧ Represents h (swap a b).2 as :=
  ⟨⟨hb.chain, hb.size, hb.bound⟩, ⟨ha.chain, ha.size, ha.bound⟩⟩

theorem swap_swap (a b : SingleLinkedList α) :
    swap (swap a b).1 (swap a b).2 = (a, b) := by
  cases a
  cases b
  rfl

/-- What `a = b` does for two distinct well-formed lists that share no node. -/
theorem opAssign_other [Inhabited α] {h : Heap α} {a b : SingleLinkedList α}
    {as bs : List (Nat × α)} (ha : Represents h a as) (hb : Represents h b bs)
    (fuel : Nat) (hfa : as.length < fuel) (hfb : bs.length < fuel) :
    ∃ h1 a1 cs, opAssign fuel h a (Rhs.other b) = Except.ok (h1, a1) ∧
      Represents h1 a1 cs ∧ values cs = values bs ∧ (∀ c ∈ cs, h.length ≤ c.1) ∧
      h.length ≤ h1.length ∧
      (∀ q fs, Chain h q fs → (∀ x ∈ addrs as, x ∉ addrs fs) → Chain h1 q fs) ∧
      (∀ x ∈ addrs as, h1[x]? = some none) := by
  have hr0 : Represents h (mkEmpty : SingleLinkedList α) [] := mkEmpty_represents h
  obtain ⟨h1, c, cs, hres, hrep, hvals, hfresh, hle, hframe⟩ :=
    copyLoop_spec b bs fuel hb.chain hr0 (by simp [addrs]) hfb (by simpa using hb.bound)
  have hrep1 : Represents h1 c cs := by simpa using hrep
  have hcopy : copyConstruct fuel h b = Except.ok (h1, c) := by
    simp only [copyConstruct, ListInitializationFrom, mkEmpty, and_self, if_true]
    exact hres
  have ha1 : Represents h1 a as :=
    ⟨hframe _ _ ha.chain (by simp [addrs]), ha.size, ha.bound⟩
  obtain ⟨hs1, hs2⟩ := swap_represents ha1 hrep1
  obtain ⟨h2, l2, hclear, -, hlen2, hframe2⟩ := Clear_spec as fuel hs2 hfa
  have hdisj : ∀ x ∈ addrs as, x ∉ addrs cs := by
    intro x hx hxc
    obtain ⟨m, hm, hfst⟩ := List.mem_map.1 hx
    obtain ⟨c1, hc1, hfst1⟩ := List.mem_map.1 hxc
    have h1lt := chain_addr_lt ha.chain m hm
    have h2le := hfresh c1 hc1
    omega
  refine ⟨h2, (swap a c).1, cs, ?_, ⟨hframe2 _ _ hs1.chain hdisj, hs1.size, hs1.bound⟩, hvals,
    hfresh, by omega, ?_, (Clear_frees as fuel hs2 hclear).1⟩
  · simp only [opAssign, hcopy, destroy, hclear]
  · intro q fs hq hd
    exact hframe2 q fs (hframe q fs hq (by simp [addrs])) hd

/-- Calls on the front of a list `c` that shares no node with `S`: either they all
return and `S` still holds its nodes, or one of them is a `PopFront()` on an empty `c`,
which stops at its assertion. -/
theorem frontCalls_isolated {S : SingleLinkedList α} {ns : List (Nat × α)}
    (calls : List (FrontCall α)) :
    ∀ {h : Heap α} {c : SingleLinkedList α} {cs : List (Nat × α)},
      Chain h c.head_.next_node cs → Represents h S ns →
      (∀ x ∈ addrs cs, x ∉ addrs ns) →
      (∃ h2 c2, runFrontCalls h c calls = Except.ok (h2, c2) ∧ Represents h2 S ns) ∨
        runFrontCalls h c calls = Except.error Fault.assertion := by
  induction calls with
  | nil =>
    intro h c cs hc hS hd
    exact Or.inl ⟨h, c, rfl, hS⟩
  | cons call rest ih =>
    intro h c cs hc hS hd
    cases call with
    | push v =>
      simp only [runFrontCalls]
      have hc1 : Chain (PushFront h c v).1 (PushFront h c v).2.head_.next_node
          ((h.length, v) :: cs) := by
        refine (chain_cons _ _ _ _).2 ⟨rfl, c.head_.next_node, ?_, chain_append_heap hc _⟩
        simp [PushFront, allocNode]
      have hS1 : Represents (PushFront h c v).1 S ns :=
        ⟨chain_append_heap hS.chain _, hS.size, hS.bound⟩
      refine ih hc1 hS1 ?_
      intro x hx
      simp only [addrs, List.map_cons, List.mem_cons] at hx
      rcases hx with rfl | hx
      · exact not_mem_addrs_of_chain hS.chain
      · exact hd x hx
    | pop =>
      cases cs with
      | nil =>
        have hp := (chain_nil h _).1 hc
        exact Or.inr (by simp [runFrontCalls, PopFront, IsEmpty, hp])
      | cons n cs1 =>
        obtain ⟨nx, hres, hc1⟩ := PopFront_chain hc
        simp only [runFrontCalls, hres]
        have hS1 : Represents (h.set n.1 none) S ns :=
          ⟨chain_set_heap hS.chain _ _ (hd n.1 (by simp [addrs])), hS.size, hS.bound⟩
        refine ih hc1 hS1 ?_
        intro x hx
        apply hd
        simp only [addrs, List.map_cons, List.mem_cons]
        exact Or.inr hx

theorem fresh_disjoint {h : Heap α} {q : NodePtr} {ns cs : List (Nat × α)}
    (hq : Chain h q ns) (hfresh : ∀ c ∈ cs, h.length ≤ c.1) :
    ∀ x ∈ addrs cs, x ∉ addrs ns := by
  intro x hx hxn
  obtain ⟨c1, hc1, hfst1⟩ := List.mem_map.1 hx
  obtain ⟨m, hm, hfst⟩ := List.mem_map.1 hxn
  have h1lt := chain_addr_lt hq m hm
  have h2le := hfresh c1 hc1
  omega

/-- C11: a copy `C` of a well-formed list `S`, made by copy-construction or by assigning
`S` to another list `T`, is built of nodes none of which is a node of `S`; and whatever
`PushFront` / `PopFront` calls are then made on `C`, either they all return and `S` still
holds the same nodes, values and `GetSize()`, or the run stops at the assertion of a
`PopFront()` on an empty `C`. -/
theorem copy_isolated [Inhabited α] {h : Heap α} {S T : SingleLinkedList α}
    {ns ts : List (Nat × α)} (hS : Represents h S ns) (hT : Represents h T ts)
    (hd : ∀ x ∈ addrs ts, x ∉ addrs ns) (fuel : Nat) (hfs : ns.length < fuel)
    (hft : ts.length < fuel) (calls : List (FrontCall α)) :
    (∃ h1 C cs, copyConstruct fuel h S = Except.ok (h1, C) ∧ Represents h1 C cs ∧
      values cs = values ns ∧ (∀ x ∈ addrs cs, x ∉ addrs ns) ∧
      ((∃ h2 C2, runFrontCalls h1 C calls = Except.ok (h2, C2) ∧ Represents h2 S ns ∧
          iterate h2 S (ns.length + 1) (begin_ S) = Except.ok (values ns) ∧
          GetSize S = ns.length) ∨
        runFrontCalls h1 C calls = Except.error Fault.assertion)) ∧
    (∃ h1 C cs, opAssign fuel h T (Rhs.other S) = Except.ok (h1, C) ∧ Represents h1 C cs ∧
      values cs = values ns ∧ (∀ x ∈ addrs cs, x ∉ addrs ns) ∧
      ((∃ h2 C2, runFrontCalls h1 C calls = Except.ok (h2, C2) ∧ Represents h2 S ns ∧
          iterate h2 S (ns.length + 1) (begin_ S) = Except.ok (values ns) ∧
          GetSize S = ns.length) ∨
        runFrontCalls h1 C calls = Except.error Fault.assertion)) := by
  constructor
  · have hr0 : Represents h (mkEmpty : SingleLinkedList α) [] := mkEmpty_represents h
    obtain ⟨h1, C, cs, hres, hrep, hvals, hfresh, -, hframe⟩ :=
      copyLoop_spec S ns fuel hS.chain hr0 (by simp [addrs]) hfs (by simpa using hS.bound)
    have hrep1 : Represents h1 C cs := by simpa using hrep
    have hcopy : copyConstruct fuel h S = Except.ok (h1, C) := by
      simp only [copyConstruct, ListInitializationFrom, mkEmpty, and_self, if_true]
      exact hres
    have hS1 : Represents h1 S ns :=
      ⟨hframe _ _ hS.chain (by simp [addrs]), hS.size, hS.bound⟩
    have hdisj := fresh_disjoint hS.chain (by simpa using hfresh)
    refine ⟨h1, C, cs, hcopy, hrep1, hvals, hdisj, ?_⟩
    rcases frontCalls_isolated calls hrep1.chain hS1 hdisj with ⟨h2, C2, hrun, hS2⟩ | herr
    · exact Or.inl ⟨h2, C2, hrun, hS2, iterate_represents hS2, hS.size⟩
    · exact Or.inr herr
  · obtain ⟨h1, C, cs, hres, hrep, hvals, hfresh, -, hframe, -⟩ :=
      opAssign_other hT hS fuel hft hfs
    have hS1 : Represents h1 S ns := ⟨hframe _ _ hS.chain hd, hS.size, hS.bound⟩
    have hdisj := fresh_disjoint hS.chain hfresh
    refine ⟨h1, C, cs, hres, hrep, hvals, hdisj, ?_⟩
    rcases frontCalls_isolated calls hrep.chain hS1 hdisj with ⟨h2, C2, hrun, hS2⟩ | herr
    · exact Or.inl ⟨h2, C2, hrun, hS2, iterate_represents hS2, hS.size⟩
    · exact Or.inr herr

theorem copy_isolated_witness :
    Represents heapAB listA nodesA ∧ Represents heapAB listB nodesB ∧
      (∀ x ∈ addrs nodesB, x ∉ addrs nodesA) ∧ nodesA.length < 4 ∧ nodesB.length < 4 ∧
      ∃ h1 C cs, opAssign 4 heapAB listB (Rhs.other listA) = Except.ok (h1, C) ∧
        Represents h1 C cs ∧ values cs = values nodesA ∧
        (∀ x ∈ addrs cs, x ∉ addrs nodesA) ∧
        ((∃ h2 C2, runFrontCalls h1 C
              [FrontCall.push 9, FrontCall.pop, FrontCall.pop, FrontCall.push 7] =
              Except.ok (h2, C2) ∧
            Represents h2 listA nodesA ∧
            iterate h2 listA (nodesA.length + 1) (begin_ listA) = Except.ok (values nodesA) ∧
            GetSize listA = nodesA.length) ∨
          runFrontCalls h1 C
              [FrontCall.push 9, FrontCall.pop, FrontCall.pop, FrontCall.push 7] =
            Except.error Fault.assertion) :=
  ⟨listA_represents_AB, listB_represents, by decide, by decide, by decide,
    (copy_isolated listA_represents_AB listB_represents (by decide) 4 (by decide) (by decide)
      [FrontCall.push 9, FrontCall.pop, FrontCall.pop, FrontCall.push 7]).2⟩

/-- C12: for two well-formed lists `A` and `B` that share no node, `A = B` returns (both
loops end within `fuel` tests once `fuel` exceeds both lengths), `A` then holds exactly
the values of `B` with the `GetSize()` of `B`, the nodes `A` held before are all deleted,
and `B` still holds its nodes; and `A = A` returns at once with the free store and `A` as
they were. -/
theorem opAssign_spec [Inhabited α] {h : Heap α} {A B : SingleLinkedList α}
    {as bs : List (Nat × α)} (hA : Represents h A as) (hB : Represents h B bs)
    (hd : ∀ x ∈ addrs as, x ∉ addrs bs) (fuel : Nat) (hfa : as.length < fuel)
    (hfb : bs.length < fuel) :
    (∃ h1 A1 cs, opAssign fuel h A (Rhs.other B) = Except.ok (h1, A1) ∧
      Represents h1 A1 cs ∧ values cs = values bs ∧
      iterate h1 A1 (bs.length + 1) (begin_ A1) = Except.ok (values bs) ∧
      GetSize A1 = GetSize B ∧
      (∀ x ∈ addrs as, h1[x]? = some none) ∧
      Represents h1 B bs ∧
      iterate h1 B (bs.length + 1) (begin_ B) = Except.ok (values bs)) ∧
    opAssign fuel h A Rhs.self = Except.ok (h, A) := by
  refine ⟨?_, rfl⟩
  obtain ⟨h1, A1, cs, hres, hrep, hvals, -, -, hframe, hfreed⟩ :=
    opAssign_other hA hB fuel hfa hfb
  have hB1 : Represents h1 B bs := ⟨hframe _ _ hB.chain hd, hB.size, hB.bound⟩
  have hlen : cs.length = bs.length := by
    have := congrArg List.length hvals
    simpa [values] using this
  refine ⟨h1, A1, cs, hres, hrep, hvals, ?_, ?_, hfreed, hB1, iterate_represents hB1⟩
  · have := iterate_represents hrep
    rw [hlen, hvals] at this
    exact this
  · simp only [GetSize]
    rw [hrep.size, hB.size, hlen]

theorem opAssign_spec_witness :
    Represents heapAB listA nodesA ∧ Represents heapAB listB nodesB ∧
      (∀ x ∈ addrs nodesA, x ∉ addrs nodesB) ∧ nodesA.length < 4 ∧ nodesB.length < 4 ∧
      (∃ h1 A1 cs, opAssign 4 heapAB listA (Rhs.other listB) = Except.ok (h1, A1) ∧
        Represents h1 A1 cs ∧ values cs = values nodesB ∧
        iterate h1 A1 (nodesB.length + 1) (begin_ A1) = Except.ok (values nodesB) ∧
        GetSize A1 = GetSize listB ∧
        (∀ x ∈ addrs nodesA, h1[x]? = some none) ∧
        Represents h1 listB nodesB ∧
        iterate h1 listB (nodesB.length + 1) (begin_ listB) = Except.ok (values nodesB)) ∧
      opAssign 4 heapAB listA Rhs.self = Except.ok (heapAB, listA) :=
  ⟨listA_represents_AB, listB_represents, by decide, by decide, by decide,
    opAssign_spec listA_represents_AB listB_represents (by decide) 4 (by decide) (by decide)⟩

/-- C13: for two well-formed lists `A` and `B`, after `A.swap(B)` (the free function
`swap(A, B)` does the same) `A` holds exactly the nodes, values and `GetSize()` that `B`
had and `B` those that `A` had, and both are well formed: each counter is the length of
the chain hanging off its own sentinel. The free store is not touched. -/
theorem swap_spec {h : Heap α} {A B : SingleLinkedList α} {as bs : List (Nat × α)}
    (hA : Represents h A as) (hB : Represents h B bs) :
    Represents h (swap A B).1 bs ∧ Represents h (swap A B).2 as ∧
      iterate h (swap A B).1 (bs.length + 1) (begin_ (swap A B).1) = Except.ok (values bs) ∧
      iterate h (swap A B).2 (as.length + 1) (begin_ (swap A B).2) = Except.ok (values as) ∧
      GetSize (swap A B).1 = GetSize B ∧ GetSize (swap A B).2 = GetSize A ∧
      GetSize (swap A B).1 = bs.length ∧ GetSize (swap A B).2 = as.length ∧
      swap_free A B = swap A B := by
  obtain ⟨h1, h2⟩ := swap_represents hA hB
  exact ⟨h1, h2, iterate_represents h1, iterate_represents h2, rfl, rfl, hB.size, hA.size, rfl⟩

theorem swap_spec_witness :
    Represents heapAB listA nodesA ∧ Represents heapAB listB nodesB ∧
      Represents heapAB (swap listA listB).1 nodesB ∧
      Represents heapAB (swap listA listB).2 nodesA ∧
      iterate heapAB (swap listA listB).1 (nodesB.length + 1) (begin_ (swap listA listB).1) =
        Except.ok (values nodesB) ∧
      iterate heapAB (swap listA listB).2 (nodesA.length + 1) (begin_ (swap listA listB).2) =
        Except.ok (values nodesA) ∧
      GetSize (swap listA listB).1 = GetSize listB ∧
      GetSize (swap listA listB).2 = GetSize listA ∧
      GetSize (swap listA listB).1 = nodesB.length ∧
      GetSize (swap listA listB).2 = nodesA.length ∧
      swap_free listA listB = swap listA listB :=
  ⟨listA_represents_AB, listB_represents, swap_spec listA_represents_AB listB_represents⟩

/-- C14: for all list objects `A` and `B`, swapping twice gives back `A` and `B`
exactly (the same `head_` and `size_`, hence the same chains and sizes), with the member
function and with the free function. -/
theorem swap_involution (A B : SingleLinkedList α) :
    swap (swap A B).1 (swap A B).2 = (A, B) ∧
      swap_free (swap_free A B).1 (swap_free A B).2 = (A, B) :=
  ⟨swap_swap A B, swap_swap A B⟩

/-- C15: on every well-formed list `Clear()` returns (its loop ends within `len + 1`
tests), and afterwards `IsEmpty()` is `true`, `GetSize()` is `0` and every node the list
held is deleted; on an empty list it changes neither the list nor the free store (so
clearing the cleared list again changes nothing). -/
theorem Clear_empties {h : Heap α} {l : SingleLinkedList α} {ns : List (Nat × α)}
    (hr : Represents h l ns) (fuel : Nat) (hf : ns.length < fuel) :
    ∃ h1 l1, Clear fuel h l = Except.ok (h1, l1) ∧ IsEmpty l1 = true ∧ GetSize l1 = 0 ∧
      Represents h1 l1 [] ∧ (∀ x ∈ addrs ns, h1[x]? = some none) ∧
      (ns = [] → h1 = h ∧ l1 = l) ∧
      Clear fuel h1 l1 = Except.ok (h1, l1) := by
  obtain ⟨h1, l1, hres, hrep, -, -⟩ := Clear_spec ns fuel hr hf
  have he1 : IsEmpty l1 = true := (isEmpty_iff hrep).2 rfl
  refine ⟨h1, l1, hres, he1, hrep.size, hrep, (Clear_frees ns fuel hr hres).1, ?_, ?_⟩
  · intro hnil
    subst hnil
    have he : IsEmpty l = true := (isEmpty_iff hr).2 rfl
    cases fuel with
    | zero => simp at hf
    | succ f =>
      simp only [Clear, he, Bool.not_true, Bool.false_eq_true, if_false, Except.ok.injEq,
        Prod.mk.injEq] at hres
      exact ⟨hres.1.symm, hres.2.symm⟩
  · cases fuel with
    | zero => simp at hf
    | succ f => simp [Clear, he1]

theorem Clear_empties_witness :
    Represents heapA listA nodesA ∧ nodesA.length < 4 ∧
      ∃ h1 l1, Clear 4 heapA listA = Except.ok (h1, l1) ∧ IsEmpty l1 = true ∧
        GetSize l1 = 0 ∧ Represents h1 l1 [] ∧ (∀ x ∈ addrs nodesA, h1[x]? = some none) ∧
        (nodesA = [] → h1 = heapA ∧ l1 = listA) ∧
        Clear 4 h1 l1 = Except.ok (h1, l1) :=
  ⟨listA_represents, by decide, Clear_empties listA_represents 4 (by decide)⟩

/-- C16: on two well-formed lists, with any element `operator<`, all four ordering
operators return, and `A <= B` is `!(B < A)`, `A > B` is `B < A`, `A >= B` is `!(A < B)`. -/
theorem derived_comparisons (lt : α → α → Bool) {h : Heap α} {A B : SingleLinkedList α}
    {xs ys : List (Nat × α)} (hA : Represents h A xs) (hB : Represents h B ys)
    (fuel : Nat) (hf : min xs.length ys.length < fuel) :
    ∃ ab ba, opLt lt fuel h A B = Except.ok ab ∧ opLt lt fuel h B A = Except.ok ba ∧
      opLe lt fuel h A B = Except.ok (!ba) ∧ opGt lt fuel h A B = Except.ok ba ∧
      opGe lt fuel h A B = Except.ok (!ab) := by
  obtain ⟨ab, hab⟩ := std_lexicographical_compare_returns lt A B xs ys (begin_ A) (begin_ B)
    fuel hA.chain hB.chain hf
  obtain ⟨ba, hba⟩ := std_lexicographical_compare_returns lt B A ys xs (begin_ B) (begin_ A)
    fuel hB.chain hA.chain (by rw [Nat.min_comm]; exact hf)
  have h1 : opLt lt fuel h A B = Except.ok ab := hab
  have h2 : opLt lt fuel h B A = Except.ok ba := hba
  refine ⟨ab, ba, h1, h2, ?_, ?_, ?_⟩
  · simp only [opLe, h2]
  · simp only [opGt, h2]
  · simp only [opGe, opGt, h1]

theorem derived_comparisons_witness :
    Represents heapAB listA nodesA ∧ Represents heapAB listB nodesB ∧
      min nodesA.length nodesB.length < 3 ∧
      ∃ ab ba, opLt (fun a b => decide (a < b)) 3 heapAB listA listB = Except.ok ab ∧
        opLt (fun a b => decide (a < b)) 3 heapAB listB listA = Except.ok ba ∧
        opLe (fun a b => decide (a < b)) 3 heapAB listA listB = Except.ok (!ba) ∧
        opGt (fun a b => decide (a < b)) 3 heapAB listA listB = Except.ok ba ∧
        opGe (fun a b => decide (a < b)) 3 heapAB listA listB = Except.ok (!ab) :=
  ⟨listA_represents_AB, listB_represents, by decide,
    derived_comparisons (fun a b => decide (a < b)) listA_represents_AB listB_represents 3
      (by decide)⟩

/-- C17: over an element type whose `==` is reflexive and whose `<` is irreflexive, for
every sequence `S` (of a length a `size_t` can hold), two lists `A` and `B` built from
`S` one after the other satisfy `A == B`, not `A < B` and not `B < A`; each comparison
returns within `len S + 1` loop tests. -/
theorem same_sequence_compare [BEq α] [Inhabited α] (lt : α → α → Bool)
    (hrefl : ∀ a : α, (a == a) = true) (hirr : ∀ a : α, lt a a = false) (h : Heap α)
    (S : List α) (hS : S.length < SIZE_MOD) (fuel : Nat) (hf : S.length < fuel) :
    ∃ h1 A h2 B, fromInitializerList h S = Except.ok (h1, A) ∧
      fromInitializerList h1 S = Except.ok (h2, B) ∧
      opEq fuel h2 A B = Except.ok true ∧ opEq fuel h2 B A = Except.ok true ∧
      opLt lt fuel h2 A B = Except.ok false ∧ opLt lt fuel h2 B A = Except.ok false := by
  obtain ⟨h1, A, xs, hresA, hrepA, hvA, -, -, -⟩ :=
    initLoop_spec S (mkEmpty_represents h) (by simpa using hS)
  obtain ⟨h2, B, ys, hresB, hrepB, hvB, -, -, hframe⟩ :=
    initLoop_spec S (mkEmpty_represents h1) (by simpa using hS)
  have hA1 : Represents h1 A xs := by simpa using hrepA
  have hB2 : Represents h2 B ys := by simpa using hrepB
  have hA2 : Represents h2 A xs :=
    ⟨hframe _ _ hA1.chain (by simp [addrs]), hA1.size, hA1.bound⟩
  have hv : values xs = values ys := by rw [hvA, hvB]
  have hlx : xs.length = S.length := by
    have := congrArg List.length hvA
    simpa [values] using this
  have hly : ys.length = S.length := by
    have := congrArg List.length hvB
    simpa [values] using this
  refine ⟨h1, A, h2, B, hresA, hresB, ?_, ?_, ?_, ?_⟩
  · exact std_equal_same hrefl A B xs ys _ _ fuel hA2.chain hB2.chain hv (by omega)
  · exact std_equal_same hrefl B A ys xs _ _ fuel hB2.chain hA2.chain hv.symm (by omega)
  · exact std_lexicographical_compare_same lt hirr A B xs ys _ _ fuel hA2.chain hB2.chain hv
      (by omega)
  · exact std_lexicographical_compare_same lt hirr B A ys xs _ _ fuel hB2.chain hA2.chain
      hv.symm (by omega)

theorem same_sequence_compare_witness :
    (∀ a : Nat, (a == a) = true) ∧ (∀ a : Nat, decide (a < a) = false) ∧
      [1, 2, 3].length < SIZE_MOD ∧ [1, 2, 3].length < 4 ∧
      ∃ h1 A h2 B, fromInitializerList ([] : Heap Nat) [1, 2, 3] = Except.ok (h1, A) ∧
        fromInitializerList h1 [1, 2, 3] = Except.ok (h2, B) ∧
        opEq 4 h2 A B = Except.ok true ∧ opEq 4 h2 B A = Except.ok true ∧
        opLt (fun a b => decide (a < b)) 4 h2 A B = Except.ok false ∧
        opLt (fun a b => decide (a < b)) 4 h2 B A = Except.ok false :=
  ⟨fun a => by simp, fun a => by simp, small_lt_SIZE_MOD (by decide), by decide,
    same_sequence_compare (fun a b => decide (a < b)) (fun a => by simp) (fun a => by simp)
      [] [1, 2, 3] (small_lt_SIZE_MOD (by decide)) 4 (by decide)⟩

/-- C18: on an empty well-formed list, `InsertAfter(before_begin(), v)` returns exactly
the state `PushFront(v)` leaves, together with the cursor `begin()` of that state; the
list then holds the single value `v`, `GetSize()` is `1`, and the returned cursor
dereferences to `v`. -/
theorem InsertAfter_before_begin_empty {h : Heap α} {l : SingleLinkedList α}
    (hr : Represents h l []) (v : α) :
    InsertAfter h l before_begin v =
        Except.ok ((PushFront h l v).1, (PushFront h l v).2, begin_ (PushFront h l v).2) ∧
      (∃ a, Represents (PushFront h l v).1 (PushFront h l v).2 [(a, v)]) ∧
      iterate (PushFront h l v).1 (PushFront h l v).2 2 (begin_ (PushFront h l v).2) =
        Except.ok [v] ∧
      GetSize (PushFront h l v).2 = 1 ∧
      deref (PushFront h l v).1 (PushFront h l v).2 (begin_ (PushFront h l v).2) =
        Except.ok v := by
  have hroom : ([] : List (Nat × α)).length + 1 < SIZE_MOD := small_lt_SIZE_MOD (by simp)
  have hrep := PushFront_represents hr hroom v
  refine ⟨InsertAfter_sentinel h l v, ⟨h.length, hrep⟩, iterate_represents hrep, hrep.size, ?_⟩
  simp [deref, load, begin_, PushFront, allocNode]

theorem InsertAfter_before_begin_empty_witness :
    Represents ([] : Heap Nat) (mkEmpty : SingleLinkedList Nat) [] ∧
      InsertAfter ([] : Heap Nat) (mkEmpty : SingleLinkedList Nat) before_begin 5 =
        Except.ok ((PushFront ([] : Heap Nat) (mkEmpty : SingleLinkedList Nat) 5).1,
          (PushFront ([] : Heap Nat) (mkEmpty : SingleLinkedList Nat) 5).2,
          begin_ (PushFront ([] : Heap Nat) (mkEmpty : SingleLinkedList Nat) 5).2) ∧
      GetSize (PushFront ([] : Heap Nat) (mkEmpty : SingleLinkedList Nat) 5).2 = 1 :=
  ⟨mkEmpty_represents [],
    (InsertAfter_before_begin_empty (mkEmpty_represents ([] : Heap Nat)) 5).1,
    (InsertAfter_before_begin_empty (mkEmpty_represents ([] : Heap Nat)) 5).2.2.2.1⟩

/-- C20: over a linearly ordered element type, for two well-formed lists `A` and `B`
both `A < B` and `B < A` return, and exactly one of three cases holds: `A < B` (and not
`B < A`, and the sequences differ), `B < A` (and not `A < B`, and the sequences differ),
or neither and the two hold the same sequence; so when `A <= B` and `B <= A` are both
`true` the two hold the same sequence. -/
theorem opLt_trichotomy [LinearOrder α] {h : Heap α} {A B : SingleLinkedList α}
    {xs ys : List (Nat × α)} (hA : Represents h A xs) (hB : Represents h B ys)
    (fuel : Nat) (hf : min xs.length ys.length < fuel) :
    ∃ ab ba, opLt (fun a b => decide (a < b)) fuel h A B = Except.ok ab ∧
      opLt (fun a b => decide (a < b)) fuel h B A = Except.ok ba ∧
      ((ab = true ∧ ba = false ∧ values xs ≠ values ys) ∨
        (ab = false ∧ ba = true ∧ values xs ≠ values ys) ∨
        (ab = false ∧ ba = false ∧ values xs = values ys)) ∧
      opLe (fun a b => decide (a < b)) fuel h A B = Except.ok (!ba) ∧
      opLe (fun a b => decide (a < b)) fuel h B A = Except.ok (!ab) ∧
      ((!ba) = true → (!ab) = true → values xs = values ys) := by
  obtain ⟨ab, ba, hab, hba, htri⟩ := std_lexicographical_compare_trichotomy A B xs ys
    (begin_ A) (begin_ B) fuel hA.chain hB.chain hf
  have h1 : opLt (fun a b => decide (a < b)) fuel h A B = Except.ok ab := hab
  have h2 : opLt (fun a b => decide (a < b)) fuel h B A = Except.ok ba := hba
  refine ⟨ab, ba, h1, h2, htri, ?_, ?_, ?_⟩
  · simp only [opLe, h2]
  · simp only [opLe, h1]
  · intro hba1 hab1
    rcases htri with ⟨e1, -, -⟩ | ⟨-, e2, -⟩ | ⟨-, -, e3⟩
    · rw [e1] at hab1
      simp at hab1
    · rw [e2] at hba1
      simp at hba1
    · exact e3

theorem opLt_trichotomy_witness :
    Represents heapAB listA nodesA ∧ Represents heapAB listB nodesB ∧
      min nodesA.length nodesB.length < 3 ∧
      ∃ ab ba, opLt (fun a b => decide (a < b)) 3 heapAB listA listB = Except.ok ab ∧
        opLt (fun a b => decide (a < b)) 3 heapAB listB listA = Except.ok ba ∧
        ((ab = true ∧ ba = false ∧ values nodesA ≠ values nodesB) ∨
          (ab = false ∧ ba = true ∧ values nodesA ≠ values nodesB) ∨
          (ab = false ∧ ba = false ∧ values nodesA = values nodesB)) ∧
        opLe (fun a b => decide (a < b)) 3 heapAB listA listB = Except.ok (!ba) ∧
        opLe (fun a b => decide (a < b)) 3 heapAB listB listA = Except.ok (!ab) ∧
        ((!ba) = true → (!ab) = true → values nodesA = values nodesB) :=
  ⟨listA_represents_AB, listB_represents, by decide,
    opLt_trichotomy listA_represents_AB listB_represents 3 (by decide)⟩

/-! ## Cursors obtained by advancing `before_begin()` -/

theorem chain_next {h : Heap α} {nx : NodePtr} {post : List (Nat × α)}
    (hc : Chain h nx post) : nx = nodeCursor post 0 := by
  cases post with
  | nil => simpa [nodeCursor] using (chain_nil h nx).1 hc
  | cons m r => simpa [nodeCursor] using chain_start hc

theorem cursorAt_past (ns : List (Nat × α)) : cursorAt ns (ns.length + 1) = NodePtr.null := by
  simp [cursorAt]

theorem incr_cursorAt {h : Heap α} {l : SingleLinkedList α} {ns : List (Nat × α)}
    (hr : Represents h l ns) (j : Nat) (hj : j ≤ ns.length) :
    incr h l (cursorAt ns j) = Except.ok (cursorAt ns (j + 1)) := by
  cases j with
  | zero =>
    have := chain_next hr.chain
    simp only [cursorAt, incr, load]
    rw [this]
    simp [nodeCursor]
  | succ i =>
    have hi : i < ns.length := hj
    have hsplit := split_at_index ns i hi
    have hc : Chain h l.head_.next_node (ns.take i ++ (ns[i].1, ns[i].2) :: ns.drop (i + 1)) := by
      rw [← hsplit]
      exact hr.chain
    obtain ⟨nx, hcell, hpost⟩ := chain_cell hc
    have hnx := chain_next hpost
    rw [nodeCursor_drop] at hnx
    have hcur : cursorAt ns (i + 1) = NodePtr.heap ns[i].1 := by
      simp [cursorAt, List.getElem?_eq_getElem hi]
    rw [hcur]
    simp only [incr, load, hcell]
    rw [hnx]
    simp [cursorAt, nodeCursor]

theorem advance_cursorAt {h : Heap α} {l : SingleLinkedList α} {ns : List (Nat × α)}
    (hr : Represents h l ns) :
    ∀ (k j : Nat), j + k ≤ ns.length + 1 →
      advance h l k (cursorAt ns j) = Except.ok (cursorAt ns (j + k)) := by
  intro k
  induction k with
  | zero =>
    intro j _
    rfl
  | succ k ih =>
    intro j hj
    have h1 := incr_cursorAt hr j (by omega)
    simp only [advance, h1]
    rw [ih (j + 1) (by omega)]
    congr 2
    omega

theorem advance_overrun {h : Heap α} {l : SingleLinkedList α} {ns : List (Nat × α)}
    (hr : Represents h l ns) :
    ∀ (k j : Nat), j ≤ ns.length + 1 → ns.length + 1 < j + k →
      advance h l k (cursorAt ns j) = Except.error Fault.assertion := by
  intro k
  induction k with
  | zero =>
    intro j h1 h2
    omega
  | succ k ih =>
    intro j h1 h2
    by_cases hj : j = ns.length + 1
    · rw [hj, cursorAt_past]
      simp [advance, incr]
    · have h3 := incr_cursorAt hr j (by omega)
      simp only [advance, h3]
      exact ih (j + 1) (by omega) (by omega)

/-- With the cursor at the last position of a non-empty list, `EraseAfter` faults. -/
theorem EraseAfter_no_successor {h : Heap α} {l : SingleLinkedList α} {ns : List (Nat × α)}
    (hr : Represents h l ns) (hne : ns ≠ []) :
    EraseAfter h l (cursorAt ns ns.length) = Except.error Fault.nullDeref := by
  have hemp : IsEmpty l = false := by
    cases hb : IsEmpty l with
    | false => rfl
    | true => exact absurd ((isEmpty_iff hr).1 hb) hne
  have hpos : 0 < ns.length := List.length_pos.2 hne
  obtain ⟨i, hi⟩ : ∃ i, ns.length = i + 1 := ⟨ns.length - 1, by omega⟩
  have hlt : i < ns.length := by omega
  have hsplit := split_at_index ns i hlt
  have hdrop : ns.drop (i + 1) = [] := List.drop_eq_nil_of_le (by omega)
  have hc : Chain h l.head_.next_node (ns.take i ++ (ns[i].1, ns[i].2) :: ns.drop (i + 1)) := by
    rw [← hsplit]
    exact hr.chain
  obtain ⟨nx, hcell, hpost⟩ := chain_cell hc
  rw [hdrop] at hpost
  have hnx := (chain_nil h nx).1 hpost
  subst hnx
  have hcur : cursorAt ns ns.length = NodePtr.heap ns[i].1 := by
    rw [hi]
    simp [cursorAt, List.getElem?_eq_getElem hlt]
  rw [hcur]
  simp [EraseAfter, hemp, end_, load, hcell]

theorem EraseAfter_empty {h : Heap α} {l : SingleLinkedList α} (hr : Represents h l []) :
    EraseAfter h l NodePtr.sentinel = Except.ok (h, l, NodePtr.null) := by
  have hemp : IsEmpty l = true := (isEmpty_iff hr).2 rfl
  have hp := (chain_nil h _).1 hr.chain
  simp [EraseAfter, hemp, end_, load, hp]

/-! ## Loops that are given too small a budget -/

theorem Clear_short (ns : List (Nat × α)) :
    ∀ {h : Heap α} {l : SingleLinkedList α} (fuel : Nat), Represents h l ns →
      fuel ≤ ns.length → Clear fuel h l = Except.error Fault.outOfFuel := by
  induction ns with
  | nil =>
    intro h l fuel _ hf
    have : fuel = 0 := by simpa using hf
    subst this
    rfl
  | cons n rest ih =>
    intro h l fuel hr hf
    cases fuel with
    | zero => rfl
    | succ f =>
      have hne : IsEmpty l = false := by
        cases hb : IsEmpty l with
        | false => rfl
        | true =>
          have := (isEmpty_iff hr).1 hb
          simp at this
      obtain ⟨nx, -, hres, hrep⟩ := PopFront_represents hr
      simp only [Clear, hne, hres]
      simpa using ih f hrep (by simpa using hf)

theorem copyLoop_short (other : SingleLinkedList α) (os : List (Nat × α)) :
    ∀ {h : Heap α} {l : SingleLinkedList α} {ns : List (Nat × α)} {it : NodePtr} (fuel : Nat),
      Chain h it os → Represents h l ns → (∀ a ∈ addrs ns, a ∉ addrs os) →
      fuel ≤ os.length → ns.length + os.length < SIZE_MOD →
      copyLoop other fuel h l it (cursorAt ns ns.length) = Except.error Fault.outOfFuel := by
  induction os with
  | nil =>
    intro h l ns it fuel _ _ _ hf _
    have : fuel = 0 := by simpa using hf
    subst this
    rfl
  | cons o rest ih =>
    intro h l ns it fuel hit hr hdisj hf hroom
    simp only [List.length_cons] at hroom hf
    cases fuel with
    | zero => rfl
    | succ f =>
      obtain ⟨hp, nx, hcell, -⟩ := (chain_cons h it o rest).1 hit
      obtain ⟨h1, l1, hres, hrep, hlen, hframe⟩ := InsertAfter_last hr (by omega) o.2
      have hit1 : Chain h1 it (o :: rest) := hframe it _ hit hdisj
      obtain ⟨-, nx1, hcell1, hrest1⟩ := (chain_cons h1 it o rest).1 hit1
      have hroom1 : (ns ++ [(h.length, o.2)]).length + rest.length < SIZE_MOD := by
        simp only [List.length_append, List.length_cons, List.length_nil]
        omega
      have hdisj1 : ∀ a ∈ addrs (ns ++ [(h.length, o.2)]), a ∉ addrs rest := by
        intro a ha
        simp only [addrs, List.map_append, List.map_cons, List.map_nil, List.mem_append,
          List.mem_singleton] at ha
        rcases ha with ha | ha
        · intro hmem
          apply hdisj a ha
          simp only [addrs, List.map_cons, List.mem_cons]
          exact Or.inr hmem
        · rw [ha]
          intro hmem
          obtain ⟨m, hm, hfst⟩ := List.mem_map.1 hmem
          have := chain_addr_lt hit m (List.mem_cons_of_mem _ hm)
          omega
      have hrec := ih f hrest1 hrep hdisj1 (by omega) hroom1
      simp only [copyLoop, hp, end_, deref, load, hcell, hres, incr, hcell1]
      simpa using hrec

/-- If `a = b` returns at all (two distinct well-formed lists sharing no node), the
budget was large enough for both loops. -/
theorem opAssign_returns_fuel [Inhabited α] {h : Heap α} {a b : SingleLinkedList α}
    {as bs : List (Nat × α)} (ha : Represents h a as) (hb : Represents h b bs)
    (fuel : Nat) {r : Heap α × SingleLinkedList α}
    (hres : opAssign fuel h a (Rhs.other b) = Except.ok r) :
    as.length < fuel ∧ bs.length < fuel := by
  have hr0 : Represents h (mkEmpty : SingleLinkedList α) [] := mkEmpty_represents h
  by_cases hfb : bs.length < fuel
  · refine ⟨?_, hfb⟩
    by_contra hfa
    obtain ⟨h1, c, cs, hcres, hrep, -, -, -, hframe⟩ :=
      copyLoop_spec b bs fuel hb.chain hr0 (by simp [addrs]) hfb (by simpa using hb.bound)
    have hrep1 : Represents h1 c cs := by simpa using hrep
    have hcopy : copyConstruct fuel h b = Except.ok (h1, c) := by
      simp only [copyConstruct, ListInitializationFrom, mkEmpty, and_self, if_true]
      exact hcres
    have ha1 : Represents h1 a as :=
      ⟨hframe _ _ ha.chain (by simp [addrs]), ha.size, ha.bound⟩
    obtain ⟨-, hs2⟩ := swap_represents ha1 hrep1
    have hclear := Clear_short as fuel hs2 (by omega)
    simp [opAssign, hcopy, destroy, hclear] at hres
  · exfalso
    have hshort := copyLoop_short b bs fuel hb.chain hr0 (by simp [addrs]) (by omega)
      (by simpa using hb.bound)
    have hcopy : copyConstruct fuel h b = Except.error Fault.outOfFuel := by
      simp only [copyConstruct, ListInitializationFrom, mkEmpty, and_self, if_true]
      exact hshort
    simp [opAssign, hcopy] at hres

theorem Clear_returns_fuel {h : Heap α} {l : SingleLinkedList α} {ns : List (Nat × α)}
    (hr : Represents h l ns) (fuel : Nat) {r : Heap α × SingleLinkedList α}
    (hres : Clear fuel h l = Except.ok r) : ns.length < fuel := by
  by_contra hf
  have := Clear_short ns fuel hr (by omega)
  rw [this] at hres
  cases hres

/-! ## The invariant of client programs -/

theorem world_addr_lt {w : World α} {f : Nat → List (Nat × α)}
    (hrep : ∀ i l, w.objs[i]? = some l → Represents w.heap l (f i)) {j : Nat}
    (hj : j < w.objs.length) {x : Nat} (hx : x ∈ addrs (f j)) : x < w.heap.length := by
  have hr := hrep j w.objs[j] (List.getElem?_eq_getElem hj)
  obtain ⟨m, hm, hfst⟩ := List.mem_map.1 hx
  have := chain_addr_lt hr.chain m hm
  omega

/-- Replacing object `i` by a well-formed list whose nodes are old nodes of `i` or fresh
ones, in a free store that kept every chain disjoint from the old nodes of `i`. -/
theorem wellFormed_update {w : World α} {f : Nat → List (Nat × α)}
    (hrep : ∀ i l, w.objs[i]? = some l → Represents w.heap l (f i))
    (hdis : ∀ i j, i < w.objs.length → j < w.objs.length → i ≠ j →
      ∀ x ∈ addrs (f i), x ∉ addrs (f j))
    {i : Nat} {l : SingleLinkedList α} (hi : w.objs[i]? = some l)
    {h1 : Heap α} {l1 : SingleLinkedList α} {ns1 : List (Nat × α)}
    (hr1 : Represents h1 l1 ns1)
    (hframe : ∀ q fs, Chain w.heap q fs → (∀ x ∈ addrs (f i), x ∉ addrs fs) → Chain h1 q fs)
    (hnew : ∀ x ∈ addrs ns1, x ∈ addrs (f i) ∨ w.heap.length ≤ x) :
    WellFormedWorld { heap := h1, objs := w.objs.set i l1 } := by
  have hilt : i < w.objs.length := (List.getElem?_eq_some.1 hi).1
  refine ⟨Function.update f i ns1, ?_, ?_⟩
  · intro j l2 hj
    simp only at hj
    by_cases hji : j = i
    · subst hji
      rw [List.getElem?_set_self hilt] at hj
      have e : l1 = l2 := Option.some.inj hj
      subst e
      simpa using hr1
    · rw [List.getElem?_set_ne (Ne.symm hji)] at hj
      rw [Function.update_noteq hji]
      have hrj := hrep j l2 hj
      have hjlt : j < w.objs.length := (List.getElem?_eq_some.1 hj).1
      exact ⟨hframe _ _ hrj.chain (hdis i j hilt hjlt (Ne.symm hji)), hrj.size, hrj.bound⟩
  · intro j k hj hk hjk x hx
    simp only [List.length_set] at hj hk
    by_cases hji : j = i
    · subst hji
      rw [Function.update_same] at hx
      rw [Function.update_noteq (Ne.symm hjk)]
      rcases hnew x hx with h2 | h2
      · exact hdis j k hj hk hjk x h2
      · intro hxk
        have := world_addr_lt hrep hk hxk
        omega
    · rw [Function.update_noteq hji] at hx
      by_cases hki : k = i
      · subst hki
        rw [Function.update_same]
        intro hxn
        rcases hnew x hxn with h2 | h2
        · exact hdis j k hj hk hjk x hx h2
        · have := world_addr_lt hrep hj hx
          omega
      · rw [Function.update_noteq hki]
        exact hdis j k hj hk hjk x hx

theorem set_same {β : Type} {xs : List β} {i : Nat} {x : β} (hx : xs[i]? = some x) :
    xs.set i x = xs := by
  apply List.ext_getElem?
  intro j
  by_cases hji : j = i
  · subst hji
    rw [List.getElem?_set_self (List.getElem?_eq_some.1 hx).1, hx]
  · rw [List.getElem?_set_ne (Ne.symm hji)]

theorem wellFormed_pushFront {w : World α} (hw : WellFormedWorld w) {i : Nat}
    {l : SingleLinkedList α} (hi : w.objs[i]? = some l) (hroom : l.size_ + 1 < SIZE_MOD)
    (v : α) :
    WellFormedWorld
      (World.mk (PushFront w.heap l v).1 (w.objs.set i (PushFront w.heap l v).2)) := by
  obtain ⟨f, hrep, hdis⟩ := hw
  have hr := hrep i l hi
  have hroom1 : (f i).length + 1 < SIZE_MOD := by
    rw [← hr.size]
    exact hroom
  refine wellFormed_update hrep hdis hi (PushFront_represents hr hroom1 v) ?_ ?_
  · intro q fs hq _
    exact chain_append_heap hq _
  · intro x hx
    simp only [addrs, List.map_cons, List.mem_cons] at hx
    rcases hx with rfl | hx
    · exact Or.inr (le_refl _)
    · exact Or.inl hx

theorem wellFormed_popFront {w : World α} (hw : WellFormedWorld w) {i : Nat}
    {l : SingleLinkedList α} (hi : w.objs[i]? = some l) {h1 : Heap α}
    {l1 : SingleLinkedList α} (hres : PopFront w.heap l = Except.ok (h1, l1)) :
    WellFormedWorld { heap := h1, objs := w.objs.set i l1 } := by
  obtain ⟨f, hrep, hdis⟩ := hw
  have hr := hrep i l hi
  cases hfi : f i with
  | nil =>
    rw [hfi] at hr
    have he : IsEmpty l = true := (isEmpty_iff hr).2 rfl
    simp [PopFront, he] at hres
  | cons n rest =>
    rw [hfi] at hr
    obtain ⟨nx, -, hpop, hrep1⟩ := PopFront_represents hr
    rw [hpop] at hres
    simp only [Except.ok.injEq, Prod.mk.injEq] at hres
    obtain ⟨rfl, rfl⟩ := hres
    refine wellFormed_update hrep hdis hi hrep1 ?_ ?_
    · intro q fs hq hd
      exact chain_set_heap hq _ _ (hd n.1 (by simp [hfi, addrs]))
    · intro x hx
      left
      rw [hfi]
      simp only [addrs, List.map_cons, List.mem_cons]
      exact Or.inr hx

theorem mem_addrs_take {ns : List (Nat × α)} {k x : Nat} (hx : x ∈ addrs (ns.take k)) :
    x ∈ addrs ns := by
  obtain ⟨m, hm, hfst⟩ := List.mem_map.1 hx
  exact List.mem_map.2 ⟨m, List.mem_of_mem_take hm, hfst⟩

theorem mem_addrs_drop {ns : List (Nat × α)} {k x : Nat} (hx : x ∈ addrs (ns.drop k)) :
    x ∈ addrs ns := by
  obtain ⟨m, hm, hfst⟩ := List.mem_map.1 hx
  exact List.mem_map.2 ⟨m, List.mem_of_mem_drop hm, hfst⟩

theorem wellFormed_insertAfter {w : World α} (hw : WellFormedWorld w) {i : Nat}
    {l : SingleLinkedList α} (hi : w.objs[i]? = some l) (hroom : l.size_ + 1 < SIZE_MOD)
    (k : Nat) (v : α) {pos p : NodePtr} {h1 : Heap α} {l1 : SingleLinkedList α}
    (hadv : advance w.heap l k before_begin = Except.ok pos)
    (hres : InsertAfter w.heap l pos v = Except.ok (h1, l1, p)) :
    WellFormedWorld { heap := h1, objs := w.objs.set i l1 } := by
  obtain ⟨f, hrep, hdis⟩ := hw
  have hr := hrep i l hi
  have hroom1 : (f i).length + 1 < SIZE_MOD := by
    rw [← hr.size]
    exact hroom
  have hbb : before_begin = cursorAt (f i) 0 := rfl
  rw [hbb] at hadv
  by_cases hk : k ≤ (f i).length
  · rw [advance_cursorAt hr k 0 (by omega)] at hadv
    have hpos : pos = cursorAt (f i) k := by
      have := Except.ok.inj hadv
      rw [← this]
      congr 1
      omega
    subst hpos
    obtain ⟨h2, l2, hins, hrep2, -, -, hframe⟩ := InsertAfter_at hr k hk hroom1 v
    rw [hins] at hres
    simp only [Except.ok.injEq, Prod.mk.injEq] at hres
    obtain ⟨rfl, rfl, -⟩ := hres
    refine wellFormed_update hrep hdis hi hrep2 hframe ?_
    intro x hx
    simp only [addrs, List.map_append, List.map_cons, List.mem_append, List.mem_cons] at hx
    rcases hx with hx | rfl | hx
    · exact Or.inl (mem_addrs_take hx)
    · exact Or.inr (le_refl _)
    · exact Or.inl (mem_addrs_drop hx)
  · exfalso
    by_cases hk1 : k = (f i).length + 1
    · rw [advance_cursorAt hr k 0 (by omega)] at hadv
      have hpos : pos = NodePtr.null := by
        have := Except.ok.inj hadv
        rw [← this, Nat.zero_add, hk1, cursorAt_past]
      subst hpos
      simp [InsertAfter, end_] at hres
    · rw [advance_overrun hr k 0 (by omega) (by omega)] at hadv
      cases hadv

theorem wellFormed_eraseAfter {w : World α} (hw : WellFormedWorld w) {i : Nat}
    {l : SingleLinkedList α} (hi : w.objs[i]? = some l)
    (k : Nat) {pos p : NodePtr} {h1 : Heap α} {l1 : SingleLinkedList α}
    (hadv : advance w.heap l k before_begin = Except.ok pos)
    (hres : EraseAfter w.heap l pos = Except.ok (h1, l1, p)) :
    WellFormedWorld { heap := h1, objs := w.objs.set i l1 } := by
  obtain ⟨f, hrep, hdis⟩ := hw
  have hr := hrep i l hi
  have hbb : before_begin = cursorAt (f i) 0 := rfl
  rw [hbb] at hadv
  by_cases hk : k < (f i).length
  · rw [advance_cursorAt hr k 0 (by omega)] at hadv
    have hpos : pos = cursorAt (f i) k := by
      have := Except.ok.inj hadv
      rw [← this]
      congr 1
      omega
    subst hpos
    obtain ⟨h2, l2, hers, hrep2, -, -, hframe⟩ := EraseAfter_at hr k hk
    rw [hers] at hres
    simp only [Except.ok.injEq, Prod.mk.injEq] at hres
    obtain ⟨rfl, rfl, -⟩ := hres
    refine wellFormed_update hrep hdis hi hrep2 hframe ?_
    intro x hx
    simp only [addrs, List.map_append, List.mem_append] at hx
    rcases hx with hx | hx
    · exact Or.inl (mem_addrs_take hx)
    · exact Or.inl (mem_addrs_drop hx)
  · by_cases hk0 : k = (f i).length
    · rw [advance_cursorAt hr k 0 (by omega)] at hadv
      have hpos : pos = cursorAt (f i) (f i).length := by
        have := Except.ok.inj hadv
        rw [← this]
        congr 1
        omega
      subst hpos
      by_cases hnil : f i = []
      · rw [hnil] at hr
        have hcur : cursorAt (f i) (f i).length = NodePtr.sentinel := by
          rw [hnil]
          rfl
        rw [hcur, EraseAfter_empty hr] at hres
        simp only [Except.ok.injEq, Prod.mk.injEq] at hres
        obtain ⟨rfl, rfl, -⟩ := hres
        rw [set_same hi]
        exact ⟨f, hrep, hdis⟩
      · rw [EraseAfter_no_successor hr hnil] at hres
        cases hres
    · exfalso
      by_cases hk1 : k = (f i).length + 1
      · rw [advance_cursorAt hr k 0 (by omega)] at hadv
        have hpos : pos = NodePtr.null := by
          have := Except.ok.inj hadv
          rw [← this, Nat.zero_add, hk1, cursorAt_past]
        subst hpos
        simp [EraseAfter, end_] at hres
      · rw [advance_overrun hr k 0 (by omega) (by omega)] at hadv
        cases hadv

theorem wellFormed_clear {w : World α} (hw : WellFormedWorld w) {i : Nat}
    {l : SingleLinkedList α} (hi : w.objs[i]? = some l) (fuel : Nat) {h1 : Heap α}
    {l1 : SingleLinkedList α} (hres : Clear fuel w.heap l = Except.ok (h1, l1)) :
    WellFormedWorld { heap := h1, objs := w.objs.set i l1 } := by
  obtain ⟨f, hrep, hdis⟩ := hw
  have hr := hrep i l hi
  have hf := Clear_returns_fuel hr fuel hres
  obtain ⟨h2, l2, hclr, hrep2, -, hframe⟩ := Clear_spec (f i) fuel hr hf
  rw [hclr] at hres
  simp only [Except.ok.injEq, Prod.mk.injEq] at hres
  obtain ⟨rfl, rfl⟩ := hres
  refine wellFormed_update hrep hdis hi hrep2 hframe ?_
  intro x hx
  simp [addrs] at hx

theorem wellFormed_assign [Inhabited α] {w : World α} (hw : WellFormedWorld w) {i j : Nat}
    {a b : SingleLinkedList α} (hi : w.objs[i]? = some a) (hj : w.objs[j]? = some b)
    (fuel : Nat) {h1 : Heap α} {a1 : SingleLinkedList α}
    (hres : opAssign fuel w.heap a (if i = j then Rhs.self else Rhs.other b) =
      Except.ok (h1, a1)) :
    WellFormedWorld { heap := h1, objs := w.objs.set i a1 } := by
  by_cases hij : i = j
  · simp only [hij, if_true, opAssign, Except.ok.injEq, Prod.mk.injEq] at hres
    obtain ⟨rfl, rfl⟩ := hres
    rw [set_same hi]
    exact hw
  · simp only [hij, if_false] at hres
    obtain ⟨f, hrep, hdis⟩ := hw
    have hra := hrep i a hi
    have hrb := hrep j b hj
    obtain ⟨hfa, hfb⟩ := opAssign_returns_fuel hra hrb fuel hres
    obtain ⟨h2, a2, cs, hasg, hrep2, -, hfresh, -, hframe, -⟩ :=
      opAssign_other hra hrb fuel hfa hfb
    rw [hasg] at hres
    simp only [Except.ok.injEq, Prod.mk.injEq] at hres
    obtain ⟨rfl, rfl⟩ := hres
    refine wellFormed_update hrep hdis hi hrep2 hframe ?_
    intro x hx
    obtain ⟨c, hc, hfst⟩ := List.mem_map.1 hx
    have := hfresh c hc
    right
    omega

theorem wellFormed_swap {w : World α} (hw : WellFormedWorld w) {i j : Nat}
    {a b : SingleLinkedList α} (hi : w.objs[i]? = some a) (hj : w.objs[j]? = some b)
    (hij : i ≠ j) :
    WellFormedWorld
      (World.mk w.heap ((w.objs.set i (swap a b).1).set j (swap a b).2)) := by
  obtain ⟨f, hrep, hdis⟩ := hw
  have hilt : i < w.objs.length := (List.getElem?_eq_some.1 hi).1
  have hjlt : j < w.objs.length := (List.getElem?_eq_some.1 hj).1
  obtain ⟨hs1, hs2⟩ := swap_represents (hrep i a hi) (hrep j b hj)
  refine ⟨fun k => f (if k = i then j else if k = j then i else k), ?_, ?_⟩
  · intro k l2 hk
    simp only at hk
    by_cases hkj : k = j
    · subst hkj
      rw [List.getElem?_set_self (by simpa using hjlt)] at hk
      have e : (swap a b).2 = l2 := Option.some.inj hk
      subst e
      simp only [Ne.symm hij, if_false, if_true]
      exact hs2
    · rw [List.getElem?_set_ne (Ne.symm hkj)] at hk
      by_cases hki : k = i
      · subst hki
        rw [List.getElem?_set_self hilt] at hk
        have e : (swap a b).1 = l2 := Option.some.inj hk
        subst e
        simp only [if_true]
        exact hs1
      · rw [List.getElem?_set_ne (Ne.symm hki)] at hk
        simp only [hki, hkj, if_false]
        exact hrep k l2 hk
  · intro k m hk hm hkm x hx
    simp only [List.length_set] at hk hm
    have key : ∀ n : Nat, n < w.objs.length →
        (if n = i then j else if n = j then i else n) < w.objs.length := by
      intro n hn
      split_ifs <;> assumption
    have hne : (if k = i then j else if k = j then i else k) ≠
        (if m = i then j else if m = j then i else m) := by
      split_ifs <;> omega
    exact hdis _ _ (key k hk) (key m hm) hne x hx

/-- Adding a well-formed object made of fresh nodes, in a free store that kept every
chain. -/
theorem wellFormed_append {w : World α} (hw : WellFormedWorld w) {h2 : Heap α}
    {l2 : SingleLinkedList α} {cs : List (Nat × α)} (hrep3 : Represents h2 l2 cs)
    (hfresh : ∀ c ∈ cs, w.heap.length ≤ c.1)
    (hframe : ∀ q fs, Chain w.heap q fs → Chain h2 q fs) :
    WellFormedWorld { heap := h2, objs := w.objs ++ [l2] } := by
  obtain ⟨f, hrep, hdis⟩ := hw
  refine ⟨Function.update f w.objs.length cs, ?_, ?_⟩
  · intro k l3 hk
    simp only at hk
    by_cases hkl : k < w.objs.length
    · rw [List.getElem?_append_left hkl] at hk
      rw [Function.update_noteq (by omega)]
      have hrk := hrep k l3 hk
      exact ⟨hframe _ _ hrk.chain, hrk.size, hrk.bound⟩
    · have hlen := (List.getElem?_eq_some.1 hk).1
      simp only [List.length_append, List.length_cons, List.length_nil] at hlen
      have hkeq : k = w.objs.length := by omega
      subst hkeq
      rw [List.getElem?_append_right (le_refl _)] at hk
      simp only [Nat.sub_self, List.getElem?_cons_zero, Option.some.injEq] at hk
      subst hk
      rw [Function.update_same]
      exact hrep3
  · intro k m hk hm hkm x hx
    simp only [List.length_append, List.length_cons, List.length_nil] at hk hm
    by_cases hkl : k = w.objs.length
    · subst hkl
      rw [Function.update_same] at hx
      rw [Function.update_noteq (Ne.symm hkm)]
      intro hxm
      have h3 := world_addr_lt hrep (by omega : m < w.objs.length) hxm
      obtain ⟨c, hc, hfst⟩ := List.mem_map.1 hx
      have h4 := hfresh c hc
      omega
    · rw [Function.update_noteq hkl] at hx
      have h3 := world_addr_lt hrep (by omega : k < w.objs.length) hx
      by_cases hml : m = w.objs.length
      · subst hml
        rw [Function.update_same]
        intro hxc
        obtain ⟨c, hc, hfst⟩ := List.mem_map.1 hxc
        have h4 := hfresh c hc
        omega
      · rw [Function.update_noteq hml]
        exact hdis k m (by omega) (by omega) hkm x hx

theorem wellFormed_construct [Inhabited α] {w : World α} (hw : WellFormedWorld w)
    {vs : List α} (hroom : vs.length < SIZE_MOD) {h1 : Heap α} {l1 : SingleLinkedList α}
    (hres : fromInitializerList w.heap vs = Except.ok (h1, l1)) :
    WellFormedWorld { heap := h1, objs := w.objs ++ [l1] } := by
  obtain ⟨h2, l2, cs, hinit, hrep2, -, hfresh, -, hframe⟩ :=
    initLoop_spec vs (mkEmpty_represents w.heap) (by simpa using hroom)
  have hinit1 : fromInitializerList w.heap vs = Except.ok (h2, l2) := hinit
  rw [hinit1] at hres
  simp only [Except.ok.injEq, Prod.mk.injEq] at hres
  obtain ⟨rfl, rfl⟩ := hres
  exact wellFormed_append hw (by simpa using hrep2) hfresh
    (fun q fs hq => hframe q fs hq (by simp [addrs]))

theorem wellFormed_copy [Inhabited α] {w : World α} (hw : WellFormedWorld w) {j : Nat}
    {b : SingleLinkedList α} (hj : w.objs[j]? = some b) (fuel : Nat) {h1 : Heap α}
    {l1 : SingleLinkedList α} (hres : copyConstruct fuel w.heap b = Except.ok (h1, l1)) :
    WellFormedWorld { heap := h1, objs := w.objs ++ [l1] } := by
  have hrb : ∃ bs, Represents w.heap b bs := by
    obtain ⟨f, hrep, -⟩ := hw
    exact ⟨f j, hrep j b hj⟩
  obtain ⟨bs, hrb⟩ := hrb
  have hr0 : Represents w.heap (mkEmpty : SingleLinkedList α) [] := mkEmpty_represents w.heap
  have hunf : copyConstruct fuel w.heap b =
      copyLoop b fuel w.heap mkEmpty (begin_ b) (cursorAt ([] : List (Nat × α)) 0) := by
    simp only [copyConstruct, ListInitializationFrom, mkEmpty, and_self, if_true]
    rfl
  by_cases hf : bs.length < fuel
  · obtain ⟨h2, l2, cs, hcopy, hrep2, -, hfresh, -, hframe⟩ :=
      copyLoop_spec b bs fuel hrb.chain hr0 (by simp [addrs]) hf (by simpa using hrb.bound)
    rw [hunf] at hres
    have hcopy1 : copyLoop b fuel w.heap mkEmpty (begin_ b)
        (cursorAt ([] : List (Nat × α)) 0) = Except.ok (h2, l2) := hcopy
    rw [hcopy1] at hres
    simp only [Except.ok.injEq, Prod.mk.injEq] at hres
    obtain ⟨rfl, rfl⟩ := hres
    exact wellFormed_append hw (by simpa using hrep2) hfresh
      (fun q fs hq => hframe q fs hq (by simp [addrs]))
  · exfalso
    have hshort := copyLoop_short b bs fuel hrb.chain hr0 (by simp [addrs]) (by omega)
      (by simpa using hrb.bound)
    rw [hunf] at hres
    have hshort1 : copyLoop b fuel w.heap mkEmpty (begin_ b)
        (cursorAt ([] : List (Nat × α)) 0) = Except.error Fault.outOfFuel := hshort
    rw [hshort1] at hres
    cases hres

/-- Every call that returns keeps the state well formed. -/
theorem exec_wellFormed [Inhabited α] {w w1 : World α} (hw : WellFormedWorld w)
    (fuel : Nat) (c : Call α) (hroom : c.hasRoom w)
    (hexec : exec fuel w c = Except.ok w1) : WellFormedWorld w1 := by
  cases c with
  | construct vs =>
    simp only [exec] at hexec
    cases hres : fromInitializerList w.heap vs with
    | error e => simp [hres] at hexec
    | ok r =>
      obtain ⟨h1, l1⟩ := r
      simp only [hres, Except.ok.injEq] at hexec
      subst hexec
      exact wellFormed_construct hw hroom hres
  | copy j =>
    simp only [exec] at hexec
    cases hobj : w.objs[j]? with
    | none => simp [hobj] at hexec
    | some b =>
      simp only [hobj] at hexec
      cases hres : copyConstruct fuel w.heap b with
      | error e => simp [hres] at hexec
      | ok r =>
        obtain ⟨h1, l1⟩ := r
        simp only [hres, Except.ok.injEq] at hexec
        subst hexec
        exact wellFormed_copy hw hobj fuel hres
  | pushFront i v =>
    simp only [exec] at hexec
    cases hobj : w.objs[i]? with
    | none => simp [hobj] at hexec
    | some l =>
      simp only [hobj, Except.ok.injEq] at hexec
      subst hexec
      exact wellFormed_pushFront hw hobj (hroom l hobj) v
  | popFront i =>
    simp only [exec] at hexec
    cases hobj : w.objs[i]? with
    | none => simp [hobj] at hexec
    | some l =>
      simp only [hobj] at hexec
      cases hres : PopFront w.heap l with
      | error e => simp [hres] at hexec
      | ok r =>
        obtain ⟨h1, l1⟩ := r
        simp only [hres, Except.ok.injEq] at hexec
        subst hexec
        exact wellFormed_popFront hw hobj hres
  | insertAfter i k v =>
    simp only [exec] at hexec
    cases hobj : w.objs[i]? with
    | none => simp [hobj] at hexec
    | some l =>
      simp only [hobj] at hexec
      cases hadv : advance w.heap l k before_begin with
      | error e => simp [hadv] at hexec
      | ok pos =>
        simp only [hadv] at hexec
        cases hres : InsertAfter w.heap l pos v with
        | error e => simp [hres] at hexec
        | ok r =>
          obtain ⟨h1, l1, p⟩ := r
          simp only [hres, Except.ok.injEq] at hexec
          subst hexec
          exact wellFormed_insertAfter hw hobj (hroom l hobj) k v hadv hres
  | eraseAfter i k =>
    simp only [exec] at hexec
    cases hobj : w.objs[i]? with
    | none => simp [hobj] at hexec
    | some l =>
      simp only [hobj] at hexec
      cases hadv : advance w.heap l k before_begin with
      | error e => simp [hadv] at hexec
      | ok pos =>
        simp only [hadv] at hexec
        cases hres : EraseAfter w.heap l pos with
        | error e => simp [hres] at hexec
        | ok r =>
          obtain ⟨h1, l1, p⟩ := r
          simp only [hres, Except.ok.injEq] at hexec
          subst hexec
          exact wellFormed_eraseAfter hw hobj k hadv hres
  | clear i =>
    simp only [exec] at hexec
    cases hobj : w.objs[i]? with
    | none => simp [hobj] at hexec
    | some l =>
      simp only [hobj] at hexec
      cases hres : Clear fuel w.heap l with
      | error e => simp [hres] at hexec
      | ok r =>
        obtain ⟨h1, l1⟩ := r
        simp only [hres, Except.ok.injEq] at hexec
        subst hexec
        exact wellFormed_clear hw hobj fuel hres
  | swap i j =>
    simp only [exec] at hexec
    cases hobi : w.objs[i]? with
    | none => simp [hobi] at hexec
    | some a =>
      cases hobj : w.objs[j]? with
      | none => simp [hobi, hobj] at hexec
      | some b =>
        simp only [hobi, hobj] at hexec
        by_cases hij : i = j
        · simp only [hij, if_true, Except.ok.injEq] at hexec
          subst hexec
          exact hw
        · simp only [hij, if_false, Except.ok.injEq] at hexec
          subst hexec
          exact wellFormed_swap hw hobi hobj hij
  | assign i j =>
    simp only [exec] at hexec
    cases hobi : w.objs[i]? with
    | none => simp [hobi] at hexec
    | some a =>
      cases hobj : w.objs[j]? with
      | none => simp [hobi, hobj] at hexec
      | some b =>
        simp only [hobi, hobj] at hexec
        cases hres : opAssign fuel w.heap a (if i = j then Rhs.self else Rhs.other b) with
        | error e => simp [hres] at hexec
        | ok r =>
          obtain ⟨h1, a1⟩ := r
          simp only [hres, Except.ok.injEq] at hexec
          subst hexec
          exact wellFormed_assign hw hobi hobj fuel hres

theorem reachable_wellFormed [Inhabited α] {w : World α} (hw : Reachable w) :
    WellFormedWorld w := by
  induction hw with
  | start => exact ⟨fun _ => [], by simp, by simp⟩
  | call fuel w c w1 _ hroom hexec ih => exact exec_wellFormed ih fuel c hroom hexec

theorem worldAB_reachable : Reachable worldAB := by
  have h1 : Reachable (World.mk heapA [listA]) :=
    Reachable.call 4 _ (Call.construct [1, 2, 3]) _ Reachable.start
      (small_lt_SIZE_MOD (by decide)) rfl
  have h2 : Reachable (World.mk heapAB [listA, listB]) :=
    Reachable.call 4 _ (Call.construct [1, 2]) _ h1 (small_lt_SIZE_MOD (by decide)) rfl
  have h3 : Reachable (World.mk heapAB [(swap listA listB).1, (swap listA listB).2]) :=
    Reachable.call 4 _ (Call.swap 0 1) _ h2 trivial rfl
  refine Reachable.call 4 _ (Call.pushFront 0 9) _ h3 ?_ rfl
  intro l hl
  simp only [List.getElem?_cons_zero, Option.some.injEq] at hl
  subst hl
  exact small_lt_SIZE_MOD (by decide)

/-- C19: in every state a client program reaches by constructing and copying lists and
calling `PushFront`, `PopFront`, `InsertAfter`, `EraseAfter` (with cursors obtained by
advancing `before_begin()`), `Clear`, `swap` and the copy assignment, every call having
returned and no counter having been incremented at the largest `size_t` value,
each list object is well formed: following `next_node` from its sentinel one meets
finitely many nodes, all different, and then `nullptr`; `GetSize()` is their number;
iterating visits exactly them; and `IsEmpty()` is `true` iff `GetSize()` is `0`. -/
theorem size_invariant [Inhabited α] {w : World α} (hw : Reachable w) (i : Nat)
    (l : SingleLinkedList α) (hl : w.objs[i]? = some l) :
    ∃ ns, Chain w.heap (begin_ l) ns ∧ (addrs ns).Nodup ∧ GetSize l = ns.length ∧
      iterate w.heap l (GetSize l + 1) (begin_ l) = Except.ok (values ns) ∧
      (IsEmpty l = true ↔ GetSize l = 0) := by
  obtain ⟨f, hrep, -⟩ := reachable_wellFormed hw
  have hr := hrep i l hl
  refine ⟨f i, hr.chain, chain_nodup hr.chain, hr.size, ?_, ?_⟩
  · have := iterate_represents hr
    rw [← hr.size] at this
    exact this
  · rw [isEmpty_iff hr]
    unfold GetSize
    rw [hr.size]
    exact List.length_eq_zero.symm

theorem size_invariant_witness :
    Reachable worldAB ∧
      worldAB.objs[0]? = some (⟨⟨0, NodePtr.heap 5⟩, 3⟩ : SingleLinkedList Nat) ∧
      ∃ ns, Chain worldAB.heap (begin_ (⟨⟨0, NodePtr.heap 5⟩, 3⟩ : SingleLinkedList Nat)) ns ∧
        (addrs ns).Nodup ∧
        GetSize (⟨⟨0, NodePtr.heap 5⟩, 3⟩ : SingleLinkedList Nat) = ns.length ∧
        iterate worldAB.heap (⟨⟨0, NodePtr.heap 5⟩, 3⟩ : SingleLinkedList Nat)
            (GetSize (⟨⟨0, NodePtr.heap 5⟩, 3⟩ : SingleLinkedList Nat) + 1)
            (begin_ (⟨⟨0, NodePtr.heap 5⟩, 3⟩ : SingleLinkedList Nat)) =
          Except.ok (values ns) ∧
        (IsEmpty (⟨⟨0, NodePtr.heap 5⟩, 3⟩ : SingleLinkedList Nat) = true ↔
          GetSize (⟨⟨0, NodePtr.heap 5⟩, 3⟩ : SingleLinkedList Nat) = 0) :=
  ⟨worldAB_reachable, rfl, size_invariant worldAB_reachable 0 _ rfl⟩

end SLL
